import Mathlib

/-!
# beep: tone queue and synthesis callback

A shallow embedding of `src/beep.c`: the option parser `parse_command_line`, the
default request built by `main`, and the audio callback `write_callback`.

Conventions of the embedding.

* A C `int` is an `Int`.  Signed overflow is undefined behaviour in C and is not
  modelled: sums and decrements are exact.
* A C `float` is a `CFloat`: either a rational or NaN.  NaN is kept because
  `sscanf("%f")` can produce it and every comparison with it is false.  Infinities are
  never stored: the parser rejects them, and the values the callback computes from 32-bit
  integers and validated frequencies stay far below `2 ^ 128`.
* The callback is embedded twice, line for line.
  - `Beep.advance`, `Beep.emit`, `Beep.frame`, ..., `Beep.playback` compute on the
    rationals without rounding and take the frame period as a rational parameter.  They
    carry the facts that do not depend on rounding: which branch a frame takes, which node
    it frees and what it prints, signs and ranges of the globals, the parser.
  - `Beep.Binary32.advance`, ..., `Beep.Binary32.playback` compute as the program does:
    every `float` operation is rounded to binary32 (`fl32`), round to nearest, ties to
    even, subnormals included; `sample *= .95` and `sample < 0.1` are evaluated in
    `double` (`fl64`) as C prescribes; `fmod` is exact on its `double` arguments and its
    result is stored in a `float`; `PI` is the `float` nearest to the literal; the frame
    period is `1000.0f / (float) sample_rate`.  Each operation is rounded to its own type
    (`FLT_EVAL_METHOD` 0).  Everything about elapsed time, the decay ratio and the phase is
    stated on this embedding.
* `sinf` is the C library's sine; it is a parameter `sinf : ℚ → ℚ` of the embedding, and in
  the binary32 embedding its value is stored in a `float`.
* The linked list hanging off the global `parms` is a `List beep_parms_t`; the field
  `next` is the tail of the list.
* The sample written to every channel of a frame is the same value; the embedding
  records it once per frame.
* The exits on a backend error (`soundio_outstream_begin_write`,
  `soundio_outstream_end_write`) end the process and are not modelled.
-/

namespace Beep

/-! ## C floats -/

/-- Value of a C `float`: an exact rational, or NaN. -/
inductive CFloat where
  | finite (q : ℚ)
  | nan
  deriving DecidableEq

namespace CFloat

/-- Addition; NaN propagates. -/
def add : CFloat → CFloat → CFloat
  | finite a, finite b => finite (a + b)
  | _, _ => nan

/-- Subtraction; NaN propagates. -/
def sub : CFloat → CFloat → CFloat
  | finite a, finite b => finite (a - b)
  | _, _ => nan

/-- Multiplication; NaN propagates. -/
def mul : CFloat → CFloat → CFloat
  | finite a, finite b => finite (a * b)
  | _, _ => nan

/-- Division.  The only divisor in the program is the constant `1000`; a zero divisor
is outside the finite values and is mapped to NaN. -/
def div : CFloat → CFloat → CFloat
  | finite a, finite b => if b = 0 then nan else finite (a / b)
  | _, _ => nan

instance : Add CFloat := ⟨add⟩

instance : Sub CFloat := ⟨sub⟩

instance : Mul CFloat := ⟨mul⟩

instance : Div CFloat := ⟨div⟩

/-- C comparison `x < y`: false as soon as one side is NaN. -/
def lt : CFloat → CFloat → Bool
  | finite a, finite b => decide (a < b)
  | _, _ => false

/-- C comparison `x == 0`: false for NaN. -/
def isZero : CFloat → Bool
  | finite a => decide (a = 0)
  | nan => false

/-- Rounding toward zero of a rational. -/
def trunc (x : ℚ) : ℤ := if 0 ≤ x then ⌊x⌋ else ⌈x⌉

/-- C `fmod(x, y)`: `x - y * trunc (x / y)`, which has the sign of `x` and magnitude
below `|y|`; NaN when `y` is zero or an operand is NaN. -/
def fmod : CFloat → CFloat → CFloat
  | finite x, finite y => if y = 0 then nan else finite (x - y * (trunc (x / y) : ℚ))
  | _, _ => nan

/-- Application of the library sine: NaN maps to NaN. -/
def sin (sinf : ℚ → ℚ) : CFloat → CFloat
  | finite x => finite (sinf x)
  | nan => nan

/-- Bound on the magnitude: the value is a number and `|x| ≤ b`. -/
def AbsLe (x : CFloat) (b : ℚ) : Prop := ∃ q : ℚ, x = finite q ∧ |q| ≤ b

end CFloat

/-! ## Constants (beep.c lines 15-31) -/

/-- Literal `static const float PI = 3.1415926535f`, as written. -/
def PI : ℚ := 3.1415926535

def DEFAULT_FREQ : ℚ := 440

def DEFAULT_LENGTH : Int := 200

def DEFAULT_REPS : Int := 1

def DEFAULT_DELAY : Int := 100

def NO_END_DELAY : Int := 0

def YES_END_DELAY : Int := 1

def DEFAULT_END_DELAY : Int := NO_END_DELAY

def NO_STDIN_BEEP : Int := 0

def LINE_STDIN_BEEP : Int := 1

def CHAR_STDIN_BEEP : Int := 2

def DEFAULT_STDIN_BEEP : Int := NO_STDIN_BEEP

/-! ## Data model (beep.c lines 33-49) -/

/-- Struct `beep_parms_t` without its `next` pointer (the list tail). -/
structure beep_parms_t where
  freq : CFloat
  length : Int
  reps : Int
  delay : Int
  end_delay : Int
  stdin_beep : Int
  verbose : Int
  deriving DecidableEq

/-! ## Command line (beep.c lines 62-152) -/

/-- What `sscanf(optarg, "%f", &argfreq)` leaves behind.  `noconv`: no conversion was
stored (`sscanf` returned 0 or EOF), so `argfreq` keeps its initial `-1`.  Otherwise the
converted value, which by the C standard may be a number, an infinity or NaN. -/
inductive ScanF where
  | noconv
  | num (q : ℚ)
  | inf (neg : Bool)
  | nan
  deriving DecidableEq

/-- One option as returned by `getopt_long`.  Integer arguments carry the result of
`sscanf(optarg, "%d", &argval)`: `none` when nothing was converted (then `argval` keeps
its initial `-1`).  `v` stands for `-v`, `-V` and `--version`; `X` for `--verbose` and
`--debug`; `n` for `-n` and `--new`; `other` for every character without a `case` of its
own (`-e`/`--device`, whose case is commented out, and the `?` of an unknown option). -/
inductive Opt where
  | f (arg : ScanF)
  | l (arg : Option Int)
  | r (arg : Option Int)
  | d (arg : Option Int)
  | D (arg : Option Int)
  | s
  | c
  | v
  | n
  | X
  | h
  | other
  deriving DecidableEq

/-- How the process leaves `parse_command_line` without returning. -/
inductive Exit where
  | usage_bail
  | version
  deriving DecidableEq

/-- Value of `argval` after `sscanf(optarg, "%d", &argval)`, starting from `-1`. -/
def argval (arg : Option Int) : Int := arg.getD (-1)

/-- Closing fix-up of a node: `if (result->freq == 0) result->freq = DEFAULT_FREQ`
(lines 126-127 and 150-151). -/
def default_freq (result : beep_parms_t) : beep_parms_t :=
  if result.freq.isZero then { result with freq := CFloat.finite DEFAULT_FREQ } else result

/-- Node allocated by `-n` (lines 128-136): defaults, `freq` unset, `verbose` inherited. -/
def new_node (result : beep_parms_t) : beep_parms_t :=
  { freq := CFloat.finite 0
    length := DEFAULT_LENGTH
    reps := DEFAULT_REPS
    delay := DEFAULT_DELAY
    end_delay := DEFAULT_END_DELAY
    stdin_beep := DEFAULT_STDIN_BEEP
    verbose := result.verbose }

/-- Function `parse_command_line`.  `done` holds the nodes already linked before
`result`, in order; the queue handed to the engine is `done ++ [result]`.  The warning
printed for a repeated `-f` goes to stderr and is not recorded.

Case `-f` is the test `!sscanf(..) || argfreq >= 20000 || argfreq <= 0` spelled out on
the four kinds of scanned value: nothing converted (`argfreq` is still `-1`, so
`argfreq <= 0`), an infinity (`+inf >= 20000`, `-inf <= 0`), NaN (both comparisons are
false, so the value is stored), and a number. -/
def parse_command_line : List Opt → List beep_parms_t → beep_parms_t →
    Except Exit (List beep_parms_t)
  | [], done, result => .ok (done ++ [default_freq result])
  | .f arg :: opts, done, result =>
    match arg with
    | .noconv => .error .usage_bail
    | .inf _ => .error .usage_bail
    | .nan => parse_command_line opts done { result with freq := CFloat.nan }
    | .num q =>
      if q ≥ 20000 ∨ q ≤ 0 then .error .usage_bail
      else parse_command_line opts done { result with freq := CFloat.finite q }
  | .l arg :: opts, done, result =>
    if arg = none ∨ argval arg < 0 then .error .usage_bail
    else parse_command_line opts done { result with length := argval arg }
  | .r arg :: opts, done, result =>
    if arg = none ∨ argval arg < 0 then .error .usage_bail
    else parse_command_line opts done { result with reps := argval arg }
  | .d arg :: opts, done, result =>
    if arg = none ∨ argval arg < 0 then .error .usage_bail
    else parse_command_line opts done
      { result with delay := argval arg, end_delay := NO_END_DELAY }
  | .D arg :: opts, done, result =>
    if arg = none ∨ argval arg < 0 then .error .usage_bail
    else parse_command_line opts done
      { result with delay := argval arg, end_delay := YES_END_DELAY }
  | .s :: opts, done, result =>
    parse_command_line opts done { result with stdin_beep := LINE_STDIN_BEEP }
  | .c :: opts, done, result =>
    parse_command_line opts done { result with stdin_beep := CHAR_STDIN_BEEP }
  | .v :: _, _, _ => .error .version
  | .n :: opts, done, result =>
    parse_command_line opts (done ++ [default_freq result]) (new_node result)
  | .X :: opts, done, result =>
    parse_command_line opts done { result with verbose := 1 }
  | .h :: _, _, _ => .error .usage_bail
  | .other :: _, _, _ => .error .usage_bail

/-- Node built by `main` before parsing (lines 243-251). -/
def main_node : beep_parms_t :=
  { freq := CFloat.finite 0
    length := DEFAULT_LENGTH
    reps := DEFAULT_REPS
    delay := DEFAULT_DELAY
    end_delay := DEFAULT_END_DELAY
    stdin_beep := DEFAULT_STDIN_BEEP
    verbose := 0 }

/-- Queue that `main` hands to the callback: `parse_command_line(argc, argv, parms)`
run on the default node (line 253). -/
def main_queue (opts : List Opt) : Except Exit (List beep_parms_t) :=
  parse_command_line opts [] main_node

/-! ## The audio callback (beep.c lines 154-239) -/

/-- Globals read and written by `write_callback`: the queue `parms`, `ms_offset` and
`rad_offset` (lines 154-156). -/
structure Engine where
  parms : List beep_parms_t
  ms_offset : ℚ
  rad_offset : CFloat
  deriving DecidableEq

/-- Globals at program start, with the queue built by the parser. -/
def Engine.init (q : List beep_parms_t) : Engine :=
  { parms := q, ms_offset := 0, rad_offset := CFloat.finite 0 }

/-- Arguments of the `printf` at lines 206-207. -/
structure LogLine where
  freq : CFloat
  length : Int
  delay : Int
  deriving DecidableEq

/-- Local `offset` of lines 186-188: the length of the current cycle of the head. -/
def offset (p : beep_parms_t) : ℚ :=
  ((p.length + (if p.end_delay ≠ 0 ∨ p.reps ≥ 1 then p.delay else 0) : Int) : ℚ)

/-- Local `radians_per_ms` of lines 198 and 216: `parms->freq * 2.0f * PI / 1000`. -/
def radians_per_ms (p : beep_parms_t) : CFloat :=
  p.freq * CFloat.finite 2 * CFloat.finite PI / CFloat.finite 1000

/-- What lines 183-213 did in one frame, next to the globals they leave.
`boundary` is the `offset` subtracted at line 202 when the branch of line 190 is taken,
`log` the line printed at 206, `freed` the node passed to `free` at line 209 (as it is
at that moment, its counter at zero). -/
structure Advance where
  boundary : Option ℚ
  log : Option LogLine
  freed : Option beep_parms_t
  after : Engine

/-- Lines 183-213 of the frame loop: advance `ms_offset`, and when the head's cycle is
over, smooth the phase, carry the remainder, count the repetition down and pop the head
at zero.  `sample` is the callback's local variable as the previous frame left it. -/
def advance (ms_per_frame : ℚ) (g : Engine) (sample : CFloat) : Advance :=
  let ms1 := g.ms_offset + ms_per_frame
  match g.parms with
  | [] => { boundary := none, log := none, freed := none, after := { g with ms_offset := ms1 } }
  | p :: next =>
    if ms1 > offset p then
      let rad :=
        if sample.lt (CFloat.finite 0.1) then sample
        else CFloat.fmod (g.rad_offset + CFloat.finite (offset p) * radians_per_ms p)
          (CFloat.finite (2 * PI))
      let ms2 := ms1 - offset p
      let p1 := { p with reps := p.reps - 1 }
      if p1.reps = 0 then
        { boundary := some (offset p)
          log := if p1.verbose ≠ 0 then some ⟨p1.freq, p1.length, p1.delay⟩ else none
          freed := some p1
          after := { parms := next, ms_offset := ms2, rad_offset := rad } }
      else
        { boundary := some (offset p), log := none, freed := none
          after := { parms := p1 :: next, ms_offset := ms2, rad_offset := rad } }
    else
      { boundary := none, log := none, freed := none, after := { g with ms_offset := ms1 } }

/-- Test of line 215: `parms && (ms_offset < parms->length)`. -/
def tone_on (g : Engine) : Bool :=
  match g.parms with
  | [] => false
  | p :: _ => decide (g.ms_offset < (p.length : ℚ))

/-- Lines 215-220: the sample of the frame, from the globals left by lines 183-213. -/
def emit (sinf : ℚ → ℚ) (g : Engine) (sample : CFloat) : CFloat :=
  match g.parms with
  | [] => sample * CFloat.finite 0.95
  | p :: _ =>
    if g.ms_offset < (p.length : ℚ) then
      CFloat.sin sinf (g.rad_offset + CFloat.finite g.ms_offset * radians_per_ms p)
    else sample * CFloat.finite 0.95

/-- One frame as seen from outside: what lines 183-213 did, which branch of line 215
ran, the sample written to every channel (line 225) and the globals after the frame. -/
structure FrameRecord where
  boundary : Option ℚ
  log : Option LogLine
  freed : Option beep_parms_t
  tone_on : Bool
  sample : CFloat
  after : Engine
  deriving DecidableEq

/-- Body of the frame loop (lines 183-226). -/
def frame (ms_per_frame : ℚ) (sinf : ℚ → ℚ) (g : Engine) (sample : CFloat) : FrameRecord :=
  let a := advance ms_per_frame g sample
  { boundary := a.boundary
    log := a.log
    freed := a.freed
    tone_on := tone_on a.after
    sample := emit sinf a.after sample
    after := a.after }

/-- The `for` loop of lines 182-227 over `frame_count` frames: the records of the frames
in order.  The globals and the local `sample` after the loop are those of the last
record. -/
def frames (ms_per_frame : ℚ) (sinf : ℚ → ℚ) : ℕ → Engine → CFloat → List FrameRecord
  | 0, _, _ => []
  | n + 1, g, sample =>
    let r := frame ms_per_frame sinf g sample
    r :: frames ms_per_frame sinf n r.after r.sample

/-- Globals after a run of frames that started from `g`. -/
def lastEngine (g : Engine) (tr : List FrameRecord) : Engine :=
  tr.foldl (fun _ r => r.after) g

/-- Local `sample` after a run of frames that started with `sample`. -/
def lastSample (sample : CFloat) (tr : List FrameRecord) : CFloat :=
  tr.foldl (fun _ r => r.sample) sample

/-- The `while (frames_left > 0)` loop of lines 170-238.  `grants` lists what the
successive calls of `soundio_outstream_begin_write` allow: asked for `frames_left`
frames, the backend answers with at most that many (an exhausted list answers 0).
The loop ends when `frames_left` is used up, when the backend grants no frame (line
179), or after a chunk that emptied the queue (line 233). -/
def write_loop (ms_per_frame : ℚ) (sinf : ℚ → ℚ) :
    List ℕ → Int → Engine → CFloat → List FrameRecord
  | [], _, _, _ => []
  | grant :: grants, frames_left, g, sample =>
    if frames_left > 0 then
      let frame_count := min frames_left.toNat grant
      if frame_count = 0 then []
      else
        let tr := frames ms_per_frame sinf frame_count g sample
        let g1 := lastEngine g tr
        if g1.parms = [] then tr
        else tr ++ write_loop ms_per_frame sinf grants (frames_left - frame_count) g1
          (lastSample sample tr)
    else []

/-- Function `write_callback`: the local `sample` starts at `0.0f` (line 167) and the
loop runs from `frames_left = frame_count_max`.  The result is the record of every
frame written by this invocation. -/
def write_callback (ms_per_frame : ℚ) (sinf : ℚ → ℚ) (frame_count_max : Int)
    (grants : List ℕ) (g : Engine) : List FrameRecord :=
  write_loop ms_per_frame sinf grants frame_count_max g (CFloat.finite 0)

/-- A playback: the backend invokes `write_callback` again and again, each time with
its `frame_count_max` and the grants of its `begin_write` calls; the globals carry over
from one invocation to the next.  The result lists every frame written, in order. -/
def playback (ms_per_frame : ℚ) (sinf : ℚ → ℚ) :
    List (Int × List ℕ) → Engine → List FrameRecord
  | [], _ => []
  | call :: calls, g =>
    let tr := write_callback ms_per_frame sinf call.1 call.2 g
    tr ++ playback ms_per_frame sinf calls (lastEngine g tr)

/-! ## Observations on a run of frames -/

/-- The amounts subtracted from `ms_offset` at the repetition boundaries, in order. -/
def boundaries (tr : List FrameRecord) : List ℚ := tr.filterMap (fun r => r.boundary)

/-- The completion lines printed, in order. -/
def logs (tr : List FrameRecord) : List LogLine := tr.filterMap (fun r => r.log)

/-- The nodes popped off the queue, in order. -/
def freed (tr : List FrameRecord) : List beep_parms_t := tr.filterMap (fun r => r.freed)

/-- The queue as it stands after each repetition boundary, in order. -/
def queues_at_boundaries (tr : List FrameRecord) : List (List beep_parms_t) :=
  tr.filterMap (fun r => if r.boundary.isSome then some r.after.parms else none)

/-- The samples written, in order. -/
def samples (tr : List FrameRecord) : List CFloat := tr.map (fun r => r.sample)

/-! ## The sequencing part of a frame

Lines 183-213 read the local `sample` and the global `rad_offset` only to set
`rad_offset`; the queue, `ms_offset`, the log and the pop follow from the queue and
`ms_offset` alone.  `tick` is that part of `advance`, used to reason about timing. -/

/-- Sequencing part of a frame record. -/
structure Tick where
  boundary : Option ℚ
  log : Option LogLine
  freed : Option beep_parms_t
  parms : List beep_parms_t
  ms_offset : ℚ

/-- Projection of a frame record on its sequencing part. -/
def FrameRecord.tick (r : FrameRecord) : Tick :=
  { boundary := r.boundary, log := r.log, freed := r.freed
    parms := r.after.parms, ms_offset := r.after.ms_offset }

/-- Lines 183-213 restricted to the queue and `ms_offset`. -/
def tick (ms_per_frame : ℚ) (q : List beep_parms_t) (ms : ℚ) : Tick :=
  match q with
  | [] => { boundary := none, log := none, freed := none, parms := [], ms_offset := ms + ms_per_frame }
  | p :: next =>
    if ms + ms_per_frame > offset p then
      if p.reps - 1 = 0 then
        { boundary := some (offset p)
          log := if p.verbose ≠ 0 then some ⟨p.freq, p.length, p.delay⟩ else none
          freed := some { p with reps := p.reps - 1 }
          parms := next, ms_offset := ms + ms_per_frame - offset p }
      else
        { boundary := some (offset p), log := none, freed := none
          parms := { p with reps := p.reps - 1 } :: next
          ms_offset := ms + ms_per_frame - offset p }
    else
      { boundary := none, log := none, freed := none, parms := p :: next
        ms_offset := ms + ms_per_frame }

/-- Sequencing parts of `n` consecutive frames. -/
def ticks (ms_per_frame : ℚ) : ℕ → List beep_parms_t → ℚ → List Tick
  | 0, _, _ => []
  | n + 1, q, ms =>
    let t := tick ms_per_frame q ms
    t :: ticks ms_per_frame n t.parms t.ms_offset

/-- Queue and `ms_offset` after `n` consecutive frames. -/
def run (ms_per_frame : ℚ) : ℕ → List beep_parms_t → ℚ → List beep_parms_t × ℚ
  | 0, q, ms => (q, ms)
  | n + 1, q, ms =>
    let t := tick ms_per_frame q ms
    run ms_per_frame n t.parms t.ms_offset

/-- Frames that cross no boundary: `k` records with the queue untouched. -/
def waits (ms_per_frame : ℚ) (q : List beep_parms_t) : ℕ → ℚ → List Tick
  | 0, _ => []
  | k + 1, ms =>
    { boundary := none, log := none, freed := none, parms := q, ms_offset := ms + ms_per_frame }
      :: waits ms_per_frame q k (ms + ms_per_frame)

/-- A node as it is when popped: its counter at zero. -/
def retired (p : beep_parms_t) : beep_parms_t := { p with reps := 0 }

/-- Frequency accepted by the validation: a number strictly between 0 and 20000. -/
def valid_freq (p : beep_parms_t) : Prop :=
  ∃ f : ℚ, p.freq = CFloat.finite f ∧ 0 < f ∧ f < 20000

/-- Number of frames that pass without a boundary when the accumulator stands at `ms`
and the cycle is `c` long: the largest `k` with `ms + k * ms_per_frame ≤ c` (0 when the
accumulator is already beyond the cycle). -/
def wait_frames (ms_per_frame c ms : ℚ) : ℕ := ⌊(c - ms) / ms_per_frame⌋₊

/-- Accumulator right after the next boundary of a cycle of length `c`. -/
def carry (ms_per_frame c ms : ℚ) : ℚ :=
  ms + ((wait_frames ms_per_frame c ms : ℚ) + 1) * ms_per_frame - c

/-- Number of frames after which a head with `m + 1` repetitions left and cycle length
`c` is popped, the accumulator standing at `ms` before the first of them. -/
def pop_frame (ms_per_frame c : ℚ) : ℕ → ℚ → ℕ
  | 0, ms => wait_frames ms_per_frame c ms + 1
  | m + 1, ms =>
    (wait_frames ms_per_frame c ms + 1) + pop_frame ms_per_frame c m (carry ms_per_frame c ms)

/-- The sequencing records of those frames, written out: for each repetition the frames
that wait, then the frame that crosses the boundary; the last boundary pops the head. -/
def head_trace (ms_per_frame c : ℚ) (t : beep_parms_t) (rest : List beep_parms_t) :
    ℕ → ℚ → List Tick
  | 0, ms =>
    waits ms_per_frame ({ t with reps := 1 } :: rest) (wait_frames ms_per_frame c ms) ms ++
      [{ boundary := some c
         log := if t.verbose ≠ 0 then some ⟨t.freq, t.length, t.delay⟩ else none
         freed := some (retired t)
         parms := rest
         ms_offset := carry ms_per_frame c ms }]
  | m + 1, ms =>
    waits ms_per_frame ({ t with reps := ((m + 1 : ℕ) : Int) + 1 } :: rest)
        (wait_frames ms_per_frame c ms) ms ++
      { boundary := some c, log := none, freed := none
        parms := { t with reps := ((m + 1 : ℕ) : Int) } :: rest
        ms_offset := carry ms_per_frame c ms }
        :: head_trace ms_per_frame c t rest m (carry ms_per_frame c ms)

/-- Frame, counted from 1, at which a live head `t` is popped when the accumulator
stands at `ms` before the first frame. -/
def release_frame (ms_per_frame : ℚ) (t : beep_parms_t) (ms : ℚ) : ℕ :=
  pop_frame ms_per_frame (offset t) (t.reps - 1).toNat ms

/-- Stand-in for the library sine where a run is evaluated: the cubic Taylor polynomial
of the sine, clamped to `[-1, 1]`. -/
def sinf_cubic (x : ℚ) : ℚ := max (-1) (min 1 (x - x ^ 3 / 6))

/-- The value is a number that satisfies `P`. -/
def IsNum (P : ℚ → Prop) (x : CFloat) : Prop := ∃ q : ℚ, x = CFloat.finite q ∧ P q

/-- The globals hold numbers: every queued frequency and `rad_offset` are not NaN. -/
def Numeric (g : Engine) : Prop :=
  (∀ p ∈ g.parms, ∃ f : ℚ, p.freq = CFloat.finite f) ∧ ∃ r : ℚ, g.rad_offset = CFloat.finite r

/-- Request of `beep -f 440 -l 200 -r 1 -d 100`. -/
def beep_d : beep_parms_t :=
  { freq := CFloat.finite 440, length := 200, reps := 1, delay := 100, end_delay := 0
    stdin_beep := 0, verbose := 0 }

/-- Request of `beep --verbose -r 0`. -/
def beep_r0 : beep_parms_t :=
  { freq := CFloat.finite 440, length := 200, reps := 0, delay := 100, end_delay := 0
    stdin_beep := 0, verbose := 1 }

/-- Request of `beep -l 0 -d 0 -r 2`. -/
def beep_short : beep_parms_t :=
  { freq := CFloat.finite 440, length := 0, reps := 2, delay := 0, end_delay := 0
    stdin_beep := 0, verbose := 0 }

/-- Request of `beep --verbose -f 880 -l 100 -r 3 -d 50`. -/
def beep_v3 : beep_parms_t :=
  { freq := CFloat.finite 880, length := 100, reps := 3, delay := 50, end_delay := 0
    stdin_beep := 0, verbose := 1 }

/-- Request of `beep -f nan`. -/
def beep_nan : beep_parms_t :=
  { freq := CFloat.nan, length := 200, reps := 1, delay := 100, end_delay := 0
    stdin_beep := 0, verbose := 0 }

/-- Request of `beep -l 100`. -/
def beep_l100 : beep_parms_t :=
  { freq := CFloat.finite 440, length := 100, reps := 1, delay := 100, end_delay := 0
    stdin_beep := 0, verbose := 0 }

/-- Frame period at 44100 frames per second, `1000 / 44100` ms. -/
def ms_44100 : ℚ := 10 / 441

/-- Options of `beep -f 440 -l 50 -n --verbose -r 2 -D 30 -n -c`. -/
def cmd_three : List Opt :=
  [.f (.num 440), .l (some 50), .n, .X, .r (some 2), .D (some 30), .n, .c]

/-- Queue of `beep -f 440 -l 50 -n --verbose -r 2 -D 30 -n -c`. -/
def queue_three : List beep_parms_t :=
  [{ freq := CFloat.finite 440, length := 50, reps := 1, delay := 100, end_delay := 0
     stdin_beep := 0, verbose := 0 },
   { freq := CFloat.finite 440, length := 200, reps := 2, delay := 30, end_delay := 1
     stdin_beep := 0, verbose := 1 },
   { freq := CFloat.finite 440, length := 200, reps := 1, delay := 100, end_delay := 0
     stdin_beep := 2, verbose := 1 }]

/-- Request of `beep -l 100 -d 0 -r 2`. -/
def beep_l100_d0 : beep_parms_t :=
  { freq := CFloat.finite 440, length := 100, reps := 2, delay := 0, end_delay := 0
    stdin_beep := 0, verbose := 0 }

/-- Request of `beep -l 100 -d 3000 -r 2`. -/
def beep_l100_d3000 : beep_parms_t :=
  { freq := CFloat.finite 440, length := 100, reps := 2, delay := 3000, end_delay := 0
    stdin_beep := 0, verbose := 0 }

/-- What the callback needs of a queued request to keep the phase in range: a valid
frequency and non-negative `length` and `delay`. -/
def Playable (p : beep_parms_t) : Prop :=
  valid_freq p ∧ 0 ≤ p.length ∧ 0 ≤ p.delay

/-- The phase accumulator is a number in the range the two branches of lines 193-200
keep it in: at least `-1` and below `2 * PI`. -/
def PhaseInRange (g : Engine) : Prop :=
  ∃ x : ℚ, g.rad_offset = CFloat.finite x ∧ -1 ≤ x ∧ x < 2 * PI

/-- What the validation of the parser is meant to ensure of a queued request. -/
def Validated (p : beep_parms_t) : Prop :=
  valid_freq p ∧ 0 ≤ p.length ∧ 0 ≤ p.reps ∧ 0 ≤ p.delay

/-- What the parser checks of a node it is still filling: the frequency is unset (0),
NaN, or inside the accepted range, and the integer fields are not negative. -/
def Checked (p : beep_parms_t) : Prop :=
  (p.freq = CFloat.finite 0 ∨ p.freq = CFloat.nan ∨ valid_freq p)
    ∧ 0 ≤ p.length ∧ 0 ≤ p.reps ∧ 0 ≤ p.delay

/-- What the parser ensures of a node it has closed: as `Validated`, except that the
frequency may be NaN. -/
def ValidatedOrNaN (p : beep_parms_t) : Prop :=
  (p.freq = CFloat.nan ∨ valid_freq p) ∧ 0 ≤ p.length ∧ 0 ≤ p.reps ∧ 0 ≤ p.delay

/-! ## The command line by groups

The options between two `-n` form a group.  The definitions below read a queue off the
groups, a field at a time, to compare with what `parse_command_line` builds. -/

/-- The groups of options that the occurrences of `-n`/`--new` delimit, in order. -/
def groups : List Opt → List (List Opt)
  | [] => [[]]
  | o :: opts =>
    if o = Opt.n then [] :: groups opts
    else
      match groups opts with
      | g :: gs => (o :: g) :: gs
      | [] => [[o]]

/-- Frequency a `-f` option gives. -/
def f_given : Opt → Option CFloat
  | .f (.num q) => some (CFloat.finite q)
  | .f .nan => some CFloat.nan
  | _ => none

/-- Length a `-l` option gives. -/
def l_given : Opt → Option Int
  | .l (some z) => some z
  | _ => none

/-- Repetitions a `-r` option gives. -/
def r_given : Opt → Option Int
  | .r (some z) => some z
  | _ => none

/-- Delay a `-d` or `-D` option gives, with the delay-after-last flag it stands for. -/
def d_given : Opt → Option (Int × Int)
  | .d (some z) => some (z, NO_END_DELAY)
  | .D (some z) => some (z, YES_END_DELAY)
  | _ => none

/-- Stdin mode a `-s` or `-c` option gives. -/
def s_given : Opt → Option Int
  | .s => some LINE_STDIN_BEEP
  | .c => some CHAR_STDIN_BEEP
  | _ => none

/-- The last value given in a group for a field, or `dflt` when the group gives none. -/
def last_given {α : Type} (given : Opt → Option α) (g : List Opt) (dflt : α) : α :=
  ((g.filterMap given).getLast?).getD dflt

/-- An option that the parser lets through: a `-f` value that is NaN or strictly between
0 and 20000, a non-negative integer value, or an option without a value other than help
and version. -/
def Accepted : Opt → Prop
  | .f (.num q) => 0 < q ∧ q < 20000
  | .f .nan => True
  | .f _ => False
  | .l arg | .r arg | .d arg | .D arg => ∃ z : Int, arg = some z ∧ 0 ≤ z
  | .s | .c | .n | .X => True
  | .v | .h | .other => False

/-- A node filled from a group: each field is the last value the group gives, or the
field of `b`; `verbose` is set by a `--verbose` in the group. -/
def fill (b : beep_parms_t) (g : List Opt) : beep_parms_t :=
  { freq := last_given f_given g b.freq
    length := last_given l_given g b.length
    reps := last_given r_given g b.reps
    delay := (last_given d_given g (b.delay, b.end_delay)).1
    end_delay := (last_given d_given g (b.delay, b.end_delay)).2
    stdin_beep := last_given s_given g b.stdin_beep
    verbose := if Opt.X ∈ g then 1 else b.verbose }

/-- The queue read off the groups, the first group filling the node `b`. -/
def group_queue (b : beep_parms_t) : List (List Opt) → List beep_parms_t
  | [] => []
  | g :: gs => default_freq (fill b g) :: group_queue (new_node (fill b g)) gs

/-- Fields of a request that come from its group alone: the last value given there, or
the default of lines 18-22. -/
def FromGroup (g : List Opt) (p : beep_parms_t) : Prop :=
  p.freq = last_given f_given g (CFloat.finite DEFAULT_FREQ)
  ∧ p.length = last_given l_given g DEFAULT_LENGTH
  ∧ p.reps = last_given r_given g DEFAULT_REPS
  ∧ p.delay = (last_given d_given g (DEFAULT_DELAY, NO_END_DELAY)).1
  ∧ p.end_delay = (last_given d_given g (DEFAULT_DELAY, NO_END_DELAY)).2
  ∧ p.stdin_beep = last_given s_given g DEFAULT_STDIN_BEEP

/-- A node as `main` and `-n` create it: `freq` unset and the other fields at their
defaults, whatever `verbose` is. -/
def Fresh (b : beep_parms_t) : Prop :=
  b.freq = CFloat.finite 0 ∧ b.length = DEFAULT_LENGTH ∧ b.reps = DEFAULT_REPS
    ∧ b.delay = DEFAULT_DELAY ∧ b.end_delay = DEFAULT_END_DELAY
    ∧ b.stdin_beep = DEFAULT_STDIN_BEEP

/-- Number of binary digits of `n`, by halving at most `fuel` times; `bits n n` is the bit
length of `n`. -/
def bits : ℕ → ℕ → ℕ
  | 0, _ => 0
  | fuel + 1, n => if n = 0 then 0 else bits fuel (n / 2) + 1

/-- The power `2 ^ e` for an integer exponent. -/
def pow2 (e : ℤ) : ℚ :=
  if 0 ≤ e then ((2 ^ e.toNat : ℕ) : ℚ) else 1 / ((2 ^ (-e).toNat : ℕ) : ℚ)

/-- Binary exponent of a positive rational: the `k` with `2 ^ k ≤ x < 2 ^ (k + 1)`. -/
def ilog2 (x : ℚ) : ℤ :=
  let k : ℤ := (bits x.num.natAbs x.num.natAbs : ℤ) - (bits x.den x.den : ℤ)
  if pow2 k ≤ x then k else k - 1

/-- Nearest integer, ties to the even one. -/
def round_even (z : ℚ) : ℤ :=
  if z - ⌊z⌋ < 1 / 2 then ⌊z⌋
  else if 1 / 2 < z - ⌊z⌋ then ⌊z⌋ + 1
  else if ⌊z⌋ % 2 = 0 then ⌊z⌋ else ⌊z⌋ + 1

/-- Exponent of the unit in the last place of `x` in a binary format with `prec`
significant bits and least exponent `emin` (the subnormal spacing). -/
def ulp_exp (prec : ℕ) (emin : ℤ) (x : ℚ) : ℤ := max (ilog2 x - ((prec : ℤ) - 1)) emin

/-- Rounding of a non-negative rational to the format: the nearest multiple of the unit in
the last place, ties to even. -/
def round_mag (prec : ℕ) (emin : ℤ) (x : ℚ) : ℚ :=
  (round_even (x / pow2 (ulp_exp prec emin x)) : ℚ) * pow2 (ulp_exp prec emin x)

/-- Rounding to nearest, ties to even, of a rational to the format; the exponent range is
not bounded above. -/
def round_to (prec : ℕ) (emin : ℤ) (x : ℚ) : ℚ :=
  if 0 ≤ x then round_mag prec emin x else - round_mag prec emin (-x)

/-- Rounding to a C `float` (IEEE 754 binary32: 24 significant bits, least subnormal
`2 ^ (-149)`). -/
def fl32 (x : ℚ) : ℚ := round_to 24 (-149) x

/-- Rounding to a C `double` (IEEE 754 binary64: 53 significant bits, least subnormal
`2 ^ (-1074)`). -/
def fl64 (x : ℚ) : ℚ := round_to 53 (-1074) x

/-- The rational `x` is a value of the binary format with `prec` significant bits and
least exponent `emin`: an integer of fewer than `prec + 1` bits times a power of two. -/
def Representable (prec : ℕ) (emin : ℤ) (x : ℚ) : Prop :=
  ∃ (m e : ℤ), emin ≤ e ∧ |m| < 2 ^ prec ∧ x = (m : ℚ) * (2 : ℚ) ^ e

/-- Application of a rounding to a `CFloat`: NaN stays NaN. -/
def CFloat.map (f : ℚ → ℚ) : CFloat → CFloat
  | CFloat.finite x => CFloat.finite (f x)
  | CFloat.nan => CFloat.nan

/-! ## The callback in binary32 -/

namespace Binary32

/-- Constant `PI` of line 15 as the program holds it: the literal rounded to binary32. -/
def PI : ℚ := fl32 3.1415926535

/-- Local `ms_per_frame` of lines 162-163: the `int` sample rate is converted to `float`
and divides `1000.0f`. -/
def ms_per_frame (sample_rate : Int) : ℚ := fl32 (1000 / fl32 (sample_rate : ℚ))

/-- Local `offset` of lines 186-188: the `int` sum is converted to `float`. -/
def offset (p : beep_parms_t) : ℚ := fl32 (Beep.offset p)

/-- Local `radians_per_ms` of lines 198 and 216: `parms->freq * 2.0f * PI / 1000`, every
operation rounded to binary32. -/
def radians_per_ms (p : beep_parms_t) : CFloat :=
  (((p.freq * CFloat.finite 2).map fl32 * CFloat.finite PI).map fl32 / CFloat.finite 1000).map fl32

/-- Lines 183-213 of the frame loop with the program's `float` arithmetic. -/
def advance (ms_per_frame : ℚ) (g : Engine) (sample : CFloat) : Advance :=
  let ms1 := fl32 (g.ms_offset + ms_per_frame)
  match g.parms with
  | [] => { boundary := none, log := none, freed := none, after := { g with ms_offset := ms1 } }
  | p :: next =>
    if ms1 > offset p then
      let rad :=
        if sample.lt (CFloat.finite (fl64 0.1)) then sample
        else (CFloat.fmod
          ((g.rad_offset + (CFloat.finite (offset p) * radians_per_ms p).map fl32).map fl32)
          (CFloat.finite (fl32 (2 * PI)))).map fl32
      let ms2 := fl32 (ms1 - offset p)
      let p1 := { p with reps := p.reps - 1 }
      if p1.reps = 0 then
        { boundary := some (offset p)
          log := if p1.verbose ≠ 0 then some ⟨p1.freq, p1.length, p1.delay⟩ else none
          freed := some p1
          after := { parms := next, ms_offset := ms2, rad_offset := rad } }
      else
        { boundary := some (offset p), log := none, freed := none
          after := { parms := p1 :: next, ms_offset := ms2, rad_offset := rad } }
    else
      { boundary := none, log := none, freed := none, after := { g with ms_offset := ms1 } }

/-- Test of line 215: `parms && (ms_offset < parms->length)`, the length converted to
`float`. -/
def tone_on (g : Engine) : Bool :=
  match g.parms with
  | [] => false
  | p :: _ => decide (g.ms_offset < fl32 (p.length : ℚ))

/-- Line 219, `sample *= .95`: the product is formed in `double` and stored as `float`. -/
def decay (sample : CFloat) : CFloat :=
  ((sample * CFloat.finite (fl64 0.95)).map fl64).map fl32

/-- Lines 215-220 with the program's arithmetic.  The value of `sinf` is stored in a
`float`. -/
def emit (sinf : ℚ → ℚ) (g : Engine) (sample : CFloat) : CFloat :=
  match g.parms with
  | [] => decay sample
  | p :: _ =>
    if g.ms_offset < fl32 (p.length : ℚ) then
      (CFloat.sin sinf
        ((g.rad_offset + (CFloat.finite g.ms_offset * radians_per_ms p).map fl32).map fl32)).map fl32
    else decay sample

/-- Body of the frame loop (lines 183-226). -/
def frame (ms_per_frame : ℚ) (sinf : ℚ → ℚ) (g : Engine) (sample : CFloat) : FrameRecord :=
  let a := advance ms_per_frame g sample
  { boundary := a.boundary
    log := a.log
    freed := a.freed
    tone_on := tone_on a.after
    sample := emit sinf a.after sample
    after := a.after }

/-- The `for` loop of lines 182-227. -/
def frames (ms_per_frame : ℚ) (sinf : ℚ → ℚ) : ℕ → Engine → CFloat → List FrameRecord
  | 0, _, _ => []
  | n + 1, g, sample =>
    let r := frame ms_per_frame sinf g sample
    r :: frames ms_per_frame sinf n r.after r.sample

/-- The `while (frames_left > 0)` loop of lines 170-238. -/
def write_loop (ms_per_frame : ℚ) (sinf : ℚ → ℚ) :
    List ℕ → Int → Engine → CFloat → List FrameRecord
  | [], _, _, _ => []
  | grant :: grants, frames_left, g, sample =>
    if frames_left > 0 then
      let frame_count := min frames_left.toNat grant
      if frame_count = 0 then []
      else
        let tr := frames ms_per_frame sinf frame_count g sample
        let g1 := lastEngine g tr
        if g1.parms = [] then tr
        else tr ++ write_loop ms_per_frame sinf grants (frames_left - frame_count) g1
          (lastSample sample tr)
    else []

/-- Function `write_callback`, from the sample rate of the stream. -/
def write_callback (sample_rate : Int) (sinf : ℚ → ℚ) (frame_count_max : Int)
    (grants : List ℕ) (g : Engine) : List FrameRecord :=
  write_loop (ms_per_frame sample_rate) sinf grants frame_count_max g (CFloat.finite 0)

/-- A playback: successive invocations of `write_callback` on one stream. -/
def playback (sample_rate : Int) (sinf : ℚ → ℚ) :
    List (Int × List ℕ) → Engine → List FrameRecord
  | [], _ => []
  | call :: calls, g =>
    let tr := write_callback sample_rate sinf call.1 call.2 g
    tr ++ playback sample_rate sinf calls (lastEngine g tr)

/-- Lines 183-213 restricted to the queue and `ms_offset`. -/
def tick (ms_per_frame : ℚ) (q : List beep_parms_t) (ms : ℚ) : Tick :=
  match q with
  | [] => { boundary := none, log := none, freed := none, parms := []
            ms_offset := fl32 (ms + ms_per_frame) }
  | p :: next =>
    if fl32 (ms + ms_per_frame) > offset p then
      if p.reps - 1 = 0 then
        { boundary := some (offset p)
          log := if p.verbose ≠ 0 then some ⟨p.freq, p.length, p.delay⟩ else none
          freed := some { p with reps := p.reps - 1 }
          parms := next, ms_offset := fl32 (fl32 (ms + ms_per_frame) - offset p) }
      else
        { boundary := some (offset p), log := none, freed := none
          parms := { p with reps := p.reps - 1 } :: next
          ms_offset := fl32 (fl32 (ms + ms_per_frame) - offset p) }
    else
      { boundary := none, log := none, freed := none, parms := p :: next
        ms_offset := fl32 (ms + ms_per_frame) }

/-- Sequencing parts of `n` consecutive frames. -/
def ticks (ms_per_frame : ℚ) : ℕ → List beep_parms_t → ℚ → List Tick
  | 0, _, _ => []
  | n + 1, q, ms =>
    let t := tick ms_per_frame q ms
    t :: ticks ms_per_frame n t.parms t.ms_offset

/-- Queue and `ms_offset` after `n` consecutive frames. -/
def run (ms_per_frame : ℚ) : ℕ → List beep_parms_t → ℚ → List beep_parms_t × ℚ
  | 0, q, ms => (q, ms)
  | n + 1, q, ms =>
    let t := tick ms_per_frame q ms
    run ms_per_frame n t.parms t.ms_offset

/-- Bound on the rounding error one frame adds to `ms_offset`, for a cycle of length `c`
and an exact frame period `Dr`: the sum and the difference each round a value of at most
`2 * c`, and `ms_per_frame` is `Dr` rounded. -/
def frame_error (c Dr : ℚ) : ℚ := (3 * c + Dr) / 2 ^ 24 + 3 * (2 : ℚ) ^ (-150 : ℤ)

/-- Link between two consecutive frames `a`, `b` of a playback when `b` takes the decay
branch of line 219: its sample is the decayed local `sample`, which is the sample of `a`
inside an invocation and `0.0f` on the first frame of an invocation. -/
def DecayStep32 (a b : FrameRecord) : Prop :=
  b.tone_on = false → b.sample = decay a.sample ∨ b.sample = decay (CFloat.finite 0)

end Binary32

/-! ## Requests used in the binary32 evaluations -/

/-- Request of `beep -l 100 -d 25`. -/
def beep_125 : beep_parms_t :=
  { freq := CFloat.finite 440, length := 100, reps := 1, delay := 25, end_delay := 0
    stdin_beep := 0, verbose := 0 }

/-- Request of `beep -f 4 -l 100`. -/
def beep_f4 : beep_parms_t :=
  { freq := CFloat.finite 4, length := 100, reps := 1, delay := 100, end_delay := 0
    stdin_beep := 0, verbose := 0 }

/-- Request of `beep -f 1 -l 100 -d 0 -r 2`. -/
def beep_f1 : beep_parms_t :=
  { freq := CFloat.finite 1, length := 100, reps := 2, delay := 0, end_delay := 0
    stdin_beep := 0, verbose := 0 }

/-! ## From frames to their sequencing part -/

theorem frame_tick (D : ℚ) (sinf : ℚ → ℚ) (g : Engine) (s : CFloat) :
    (frame D sinf g s).tick = tick D g.parms g.ms_offset := by
  rcases g with ⟨q, ms, rad⟩
  cases q with
  | nil => simp [frame, advance, tick, FrameRecord.tick]
  | cons p next =>
    simp only [frame, advance, tick, FrameRecord.tick]
    split_ifs <;> rfl

theorem frame_after_parms (D : ℚ) (sinf : ℚ → ℚ) (g : Engine) (s : CFloat) :
    (frame D sinf g s).after.parms = (tick D g.parms g.ms_offset).parms := by
  rw [← frame_tick D sinf g s]; rfl

theorem frame_after_ms (D : ℚ) (sinf : ℚ → ℚ) (g : Engine) (s : CFloat) :
    (frame D sinf g s).after.ms_offset = (tick D g.parms g.ms_offset).ms_offset := by
  rw [← frame_tick D sinf g s]; rfl

theorem frames_tick (D : ℚ) (sinf : ℚ → ℚ) :
    ∀ (n : ℕ) (g : Engine) (s : CFloat),
      (frames D sinf n g s).map FrameRecord.tick = ticks D n g.parms g.ms_offset
  | 0, _, _ => rfl
  | n + 1, g, s => by
    simp only [frames, ticks, List.map_cons]
    rw [frames_tick D sinf n, frame_tick, frame_after_parms, frame_after_ms]

theorem frames_length (D : ℚ) (sinf : ℚ → ℚ) :
    ∀ (n : ℕ) (g : Engine) (s : CFloat), (frames D sinf n g s).length = n
  | 0, _, _ => rfl
  | n + 1, g, s => by simp [frames, frames_length D sinf n]

theorem ticks_length (D : ℚ) : ∀ (n : ℕ) (q : List beep_parms_t) (ms : ℚ),
    (ticks D n q ms).length = n
  | 0, _, _ => rfl
  | n + 1, q, ms => by simp [ticks, ticks_length D n]

theorem ticks_add (D : ℚ) : ∀ (a b : ℕ) (q : List beep_parms_t) (ms : ℚ),
    ticks D (a + b) q ms = ticks D a q ms ++ ticks D b (run D a q ms).1 (run D a q ms).2
  | 0, b, q, ms => by simp [ticks, run]
  | a + 1, b, q, ms => by
    have h : a + 1 + b = (a + b) + 1 := by omega
    rw [h]
    simp only [ticks, run, List.cons_append]
    rw [ticks_add D a b]

theorem run_add (D : ℚ) : ∀ (a b : ℕ) (q : List beep_parms_t) (ms : ℚ),
    run D (a + b) q ms = run D b (run D a q ms).1 (run D a q ms).2
  | 0, b, q, ms => by simp [run]
  | a + 1, b, q, ms => by
    have h : a + 1 + b = (a + b) + 1 := by omega
    rw [h]
    simp only [run]
    rw [run_add D a b]

theorem lastEngine_cons (g : Engine) (r : FrameRecord) (tr : List FrameRecord) :
    lastEngine g (r :: tr) = lastEngine r.after tr := rfl

theorem lastEngine_append (g : Engine) (a b : List FrameRecord) :
    lastEngine g (a ++ b) = lastEngine (lastEngine g a) b := by
  simp [lastEngine, List.foldl_append]

/-- The globals after a run of frames, read off the sequencing parts. -/
theorem lastEngine_frames (D : ℚ) (sinf : ℚ → ℚ) :
    ∀ (n : ℕ) (g : Engine) (s : CFloat),
      ((lastEngine g (frames D sinf n g s)).parms,
        (lastEngine g (frames D sinf n g s)).ms_offset) = run D n g.parms g.ms_offset
  | 0, _, _ => rfl
  | n + 1, g, s => by
    have ih := lastEngine_frames D sinf n (frame D sinf g s).after (frame D sinf g s).sample
    simp only [run, frames, lastEngine_cons]
    rw [← frame_after_parms D sinf g s, ← frame_after_ms D sinf g s, ← ih]

/-- Sequencing part of the frames of one pass through the `while` loop: they are the
first frames of the timing run from the globals at entry. -/
theorem write_loop_tick (D : ℚ) (sinf : ℚ → ℚ) :
    ∀ (grants : List ℕ) (frames_left : Int) (g : Engine) (s : CFloat),
      ∃ n : ℕ, (write_loop D sinf grants frames_left g s).map FrameRecord.tick
          = ticks D n g.parms g.ms_offset
        ∧ ((lastEngine g (write_loop D sinf grants frames_left g s)).parms,
            (lastEngine g (write_loop D sinf grants frames_left g s)).ms_offset)
          = run D n g.parms g.ms_offset
  | [], _, _, _ => ⟨0, rfl, rfl⟩
  | grant :: grants, frames_left, g, s => by
    unfold write_loop
    by_cases h1 : frames_left > 0
    · simp only [h1, if_true]
      by_cases h2 : min frames_left.toNat grant = 0
      · simp only [h2, if_true]
        exact ⟨0, rfl, rfl⟩
      · simp only [h2, if_false]
        set k := min frames_left.toNat grant with hk
        have hfr := frames_tick D sinf k g s
        have hlast := lastEngine_frames D sinf k g s
        by_cases h3 : (lastEngine g (frames D sinf k g s)).parms = []
        · rw [if_pos h3]
          exact ⟨k, hfr, hlast⟩
        · rw [if_neg h3]
          obtain ⟨m, hm1, hm2⟩ := write_loop_tick D sinf grants (frames_left - k)
            (lastEngine g (frames D sinf k g s)) (lastSample s (frames D sinf k g s))
          refine ⟨k + m, ?_, ?_⟩
          · rw [List.map_append, hfr, hm1, ticks_add, ← hlast]
          · rw [lastEngine_append, hm2, run_add, ← hlast]
    · simp only [h1, if_false]
      exact ⟨0, rfl, rfl⟩

theorem playback_tick_exists (D : ℚ) (sinf : ℚ → ℚ) :
    ∀ (calls : List (Int × List ℕ)) (g : Engine),
      ∃ n : ℕ, (playback D sinf calls g).map FrameRecord.tick = ticks D n g.parms g.ms_offset
        ∧ ((lastEngine g (playback D sinf calls g)).parms,
            (lastEngine g (playback D sinf calls g)).ms_offset)
          = run D n g.parms g.ms_offset
  | [], _ => ⟨0, rfl, rfl⟩
  | call :: calls, g => by
    obtain ⟨k, hk1, hk2⟩ := write_loop_tick D sinf call.2 call.1 g (CFloat.finite 0)
    obtain ⟨m, hm1, hm2⟩ := playback_tick_exists D sinf calls
      (lastEngine g (write_callback D sinf call.1 call.2 g))
    refine ⟨k + m, ?_, ?_⟩
    · simp only [playback, write_callback, List.map_append] at *
      rw [hk1, hm1, ticks_add, ← hk2]
    · simp only [playback, write_callback] at *
      rw [lastEngine_append, hm2, run_add, ← hk2]

/-- Sequencing part of a playback: whatever the pattern of invocations and grants, its
frames are the timing run from the globals at the start. -/
theorem playback_tick (D : ℚ) (sinf : ℚ → ℚ) (calls : List (Int × List ℕ)) (g : Engine) :
    (playback D sinf calls g).map FrameRecord.tick
      = ticks D (playback D sinf calls g).length g.parms g.ms_offset := by
  obtain ⟨n, hn, _⟩ := playback_tick_exists D sinf calls g
  have hlen : (playback D sinf calls g).length = n := by
    have := congrArg List.length hn
    simpa [ticks_length] using this
  rw [hlen]; exact hn

theorem ticks_take (D : ℚ) : ∀ (n m : ℕ) (q : List beep_parms_t) (ms : ℚ), n ≤ m →
    (ticks D m q ms).take n = ticks D n q ms
  | 0, _, _, _, _ => by simp [ticks]
  | n + 1, 0, _, _, h => by omega
  | n + 1, m + 1, q, ms, h => by
    simp only [ticks, List.take_succ_cons]
    rw [ticks_take D n m _ _ (by omega)]

/-- The first `n` frames of a playback, seen through their sequencing parts. -/
theorem playback_take_tick (D : ℚ) (sinf : ℚ → ℚ) (calls : List (Int × List ℕ)) (g : Engine)
    (n : ℕ) (hn : n ≤ (playback D sinf calls g).length) :
    ((playback D sinf calls g).take n).map FrameRecord.tick = ticks D n g.parms g.ms_offset := by
  rw [List.map_take, playback_tick, ticks_take D n _ _ _ hn]

/-! ## The cycle of a live head -/

theorem offset_of_live (p : beep_parms_t) (h : 1 ≤ p.reps) :
    offset p = ((p.length + p.delay : Int) : ℚ) := by
  unfold offset
  rw [if_pos (Or.inr h)]

theorem offset_set_reps (p : beep_parms_t) (r : Int) (h : 1 ≤ r) :
    offset { p with reps := r } = ((p.length + p.delay : Int) : ℚ) := by
  rw [offset_of_live _ h]

theorem set_reps_self (p : beep_parms_t) : ({ p with reps := p.reps } : beep_parms_t) = p := by
  cases p; rfl

/-- Waiting stops in time: `wait_frames` frames stay within the cycle, one more leaves
it. -/
theorem wait_frames_spec (D c ms : ℚ) (hD : 0 < D) :
    (wait_frames D c ms = 0 ∨ ms + (wait_frames D c ms : ℚ) * D ≤ c)
      ∧ c < ms + ((wait_frames D c ms : ℚ) + 1) * D := by
  unfold wait_frames
  constructor
  · by_cases h : 0 ≤ (c - ms) / D
    · right
      have := Nat.floor_le h
      have h2 : (⌊(c - ms) / D⌋₊ : ℚ) * D ≤ c - ms := by
        rwa [le_div_iff₀ hD] at this
      linarith
    · left
      exact Nat.floor_of_nonpos (le_of_lt (not_le.mp h))
  · have := Nat.lt_floor_add_one ((c - ms) / D)
    rw [div_lt_iff₀ hD] at this
    linarith

/-- While the accumulator stays within the cycle, the frames only add to it. -/
theorem ticks_waits (D : ℚ) (hD : 0 ≤ D) (p : beep_parms_t) (next : List beep_parms_t) :
    ∀ (k : ℕ) (ms : ℚ), (k = 0 ∨ ms + (k : ℚ) * D ≤ offset p) →
      ticks D k (p :: next) ms = waits D (p :: next) k ms
        ∧ run D k (p :: next) ms = (p :: next, ms + (k : ℚ) * D)
  | 0, ms, _ => by simp [ticks, waits, run]
  | k + 1, ms, h => by
    have hle : ms + ((k : ℚ) + 1) * D ≤ offset p := by
      rcases h with h | h
      · omega
      · push_cast at h; exact h
    have hk : 0 ≤ (k : ℚ) * D := mul_nonneg (Nat.cast_nonneg k) hD
    have h1 : ¬ (ms + D > offset p) := by
      intro hgt; nlinarith
    have ht : tick D (p :: next) ms
        = { boundary := none, log := none, freed := none, parms := p :: next
            ms_offset := ms + D } := by
      simp only [tick, if_neg h1]
    have ih := ticks_waits D hD p next k (ms + D) (Or.inr (by linarith))
    simp only [ticks, run, waits, ht]
    refine ⟨by rw [ih.1], ?_⟩
    rw [ih.2]; push_cast; congr 1; ring

theorem mem_waits (D : ℚ) (q : List beep_parms_t) :
    ∀ (k : ℕ) (ms : ℚ) (x : Tick), x ∈ waits D q k ms →
      x.boundary = none ∧ x.log = none ∧ x.freed = none ∧ x.parms = q
  | 0, _, _, h => by simp [waits] at h
  | k + 1, ms, x, h => by
    simp only [waits, List.mem_cons] at h
    rcases h with h | h
    · subst h; exact ⟨rfl, rfl, rfl, rfl⟩
    · exact mem_waits D q k _ x h

theorem filterMap_waits {α : Type} (f : Tick → Option α) (D : ℚ) (q : List beep_parms_t)
    (k : ℕ) (ms : ℚ) (hf : ∀ x : Tick, x.boundary = none → x.log = none → x.freed = none →
      f x = none) :
    (waits D q k ms).filterMap f = [] := by
  rw [List.filterMap_eq_nil_iff]
  intro x hx
  obtain ⟨h1, h2, h3, _⟩ := mem_waits D q k ms x hx
  exact hf x h1 h2 h3

/-- The frame that crosses the last boundary of the head pops it. -/
theorem tick_pop (D : ℚ) (t : beep_parms_t) (rest : List beep_parms_t) (ms : ℚ)
    (h : offset { t with reps := 1 } < ms + D) :
    tick D ({ t with reps := 1 } :: rest) ms
      = { boundary := some (offset { t with reps := 1 })
          log := if t.verbose ≠ 0 then some ⟨t.freq, t.length, t.delay⟩ else none
          freed := some (retired t)
          parms := rest
          ms_offset := ms + D - offset { t with reps := 1 } } := by
  simp only [tick]
  rw [if_pos h]
  simp [retired]

/-- A frame that crosses an earlier boundary of the head counts it down. -/
theorem tick_cross (D : ℚ) (t : beep_parms_t) (rest : List beep_parms_t) (ms : ℚ) (r : Int)
    (hr : 1 ≤ r) (h : offset { t with reps := r + 1 } < ms + D) :
    tick D ({ t with reps := r + 1 } :: rest) ms
      = { boundary := some (offset { t with reps := r + 1 })
          log := none
          freed := none
          parms := { t with reps := r } :: rest
          ms_offset := ms + D - offset { t with reps := r + 1 } } := by
  simp only [tick]
  rw [if_pos h]
  have h0 : ¬ (r + 1 - 1 = 0) := by omega
  have h1 : r + 1 - 1 = r := by omega
  simp only [h1] at h0 ⊢
  rw [if_neg h0]

theorem ticks_snoc (D : ℚ) (k : ℕ) (q : List beep_parms_t) (ms : ℚ) :
    ticks D (k + 1) q ms = ticks D k q ms ++ [tick D (run D k q ms).1 (run D k q ms).2] := by
  rw [ticks_add]; rfl

theorem run_snoc (D : ℚ) (k : ℕ) (q : List beep_parms_t) (ms : ℚ) :
    run D (k + 1) q ms
      = ((tick D (run D k q ms).1 (run D k q ms).2).parms,
          (tick D (run D k q ms).1 (run D k q ms).2).ms_offset) := by
  rw [run_add]; rfl

/-- The last cycle of a head: the frames that wait, then the frame that pops it. -/
theorem ticks_last_cycle (D : ℚ) (hD : 0 < D) (t : beep_parms_t) (rest : List beep_parms_t)
    (ms : ℚ) :
    ticks D (wait_frames D ((t.length + t.delay : Int) : ℚ) ms + 1)
        ({ t with reps := 1 } :: rest) ms
      = waits D ({ t with reps := 1 } :: rest)
          (wait_frames D ((t.length + t.delay : Int) : ℚ) ms) ms ++
        [{ boundary := some ((t.length + t.delay : Int) : ℚ)
           log := if t.verbose ≠ 0 then some ⟨t.freq, t.length, t.delay⟩ else none
           freed := some (retired t)
           parms := rest
           ms_offset := carry D ((t.length + t.delay : Int) : ℚ) ms }]
    ∧ run D (wait_frames D ((t.length + t.delay : Int) : ℚ) ms + 1)
        ({ t with reps := 1 } :: rest) ms
      = (rest, carry D ((t.length + t.delay : Int) : ℚ) ms) := by
  set c : ℚ := ((t.length + t.delay : Int) : ℚ) with hc
  have hoff : offset { t with reps := 1 } = c := offset_set_reps t 1 (le_refl 1)
  obtain ⟨hw1, hw2⟩ := wait_frames_spec D c ms hD
  have hwait := ticks_waits D (le_of_lt hD) { t with reps := 1 } rest (wait_frames D c ms) ms
    (by rw [hoff]; exact hw1)
  have hpop := tick_pop D t rest (ms + (wait_frames D c ms : ℚ) * D)
    (by rw [hoff]; linarith)
  have hcarry : ms + (wait_frames D c ms : ℚ) * D + D - c = carry D c ms := by
    unfold carry; ring
  rw [ticks_snoc, run_snoc, hwait.1, hwait.2, hpop, hoff, hcarry]
  exact ⟨rfl, rfl⟩

/-- An earlier cycle of a head: the frames that wait, then the frame that counts the
repetition down. -/
theorem ticks_cycle (D : ℚ) (hD : 0 < D) (t : beep_parms_t) (rest : List beep_parms_t)
    (ms : ℚ) (r : Int) (hr : 1 ≤ r) :
    ticks D (wait_frames D ((t.length + t.delay : Int) : ℚ) ms + 1)
        ({ t with reps := r + 1 } :: rest) ms
      = waits D ({ t with reps := r + 1 } :: rest)
          (wait_frames D ((t.length + t.delay : Int) : ℚ) ms) ms ++
        [{ boundary := some ((t.length + t.delay : Int) : ℚ)
           log := none
           freed := none
           parms := { t with reps := r } :: rest
           ms_offset := carry D ((t.length + t.delay : Int) : ℚ) ms }]
    ∧ run D (wait_frames D ((t.length + t.delay : Int) : ℚ) ms + 1)
        ({ t with reps := r + 1 } :: rest) ms
      = ({ t with reps := r } :: rest, carry D ((t.length + t.delay : Int) : ℚ) ms) := by
  set c : ℚ := ((t.length + t.delay : Int) : ℚ) with hc
  have hoff : offset { t with reps := r + 1 } = c := offset_set_reps t _ (by omega)
  obtain ⟨hw1, hw2⟩ := wait_frames_spec D c ms hD
  have hwait := ticks_waits D (le_of_lt hD) { t with reps := r + 1 } rest
    (wait_frames D c ms) ms (by rw [hoff]; exact hw1)
  have hcross := tick_cross D t rest (ms + (wait_frames D c ms : ℚ) * D) r hr
    (by rw [hoff]; linarith)
  have hcarry : ms + (wait_frames D c ms : ℚ) * D + D - c = carry D c ms := by
    unfold carry; ring
  rw [ticks_snoc, run_snoc, hwait.1, hwait.2, hcross, hoff, hcarry]
  exact ⟨rfl, rfl⟩

/-- The frames of a live head, from the frame after it became the head (or the start)
to the frame that pops it, are the ones written out in `head_trace`. -/
theorem ticks_head (D : ℚ) (hD : 0 < D) (t : beep_parms_t) (rest : List beep_parms_t) :
    ∀ (m : ℕ) (ms : ℚ),
      ticks D (pop_frame D ((t.length + t.delay : Int) : ℚ) m ms)
          ({ t with reps := (m : Int) + 1 } :: rest) ms
        = head_trace D ((t.length + t.delay : Int) : ℚ) t rest m ms
      ∧ run D (pop_frame D ((t.length + t.delay : Int) : ℚ) m ms)
          ({ t with reps := (m : Int) + 1 } :: rest) ms
        = (rest, ms + (pop_frame D ((t.length + t.delay : Int) : ℚ) m ms : ℚ) * D
            - ((m : ℚ) + 1) * ((t.length + t.delay : Int) : ℚ))
  | 0, ms => by
    have h := ticks_last_cycle D hD t rest ms
    simp only [Nat.cast_zero, zero_add, pop_frame, head_trace]
    refine ⟨h.1, ?_⟩
    rw [h.2]
    congr 1; unfold carry; push_cast; ring
  | m + 1, ms => by
    have hr : (1 : Int) ≤ ((m + 1 : ℕ) : Int) := by push_cast; omega
    have h := ticks_cycle D hD t rest ms ((m + 1 : ℕ) : Int) hr
    have ih := ticks_head D hD t rest m (carry D ((t.length + t.delay : Int) : ℚ) ms)
    have hm : ((m + 1 : ℕ) : Int) = (m : Int) + 1 := by push_cast; rfl
    simp only [pop_frame, head_trace]
    rw [ticks_add D (wait_frames D ((t.length + t.delay : Int) : ℚ) ms + 1),
      run_add D (wait_frames D ((t.length + t.delay : Int) : ℚ) ms + 1), h.1, h.2, hm, ih.1, ih.2]
    refine ⟨by simp, ?_⟩
    congr 1; unfold carry; push_cast; ring

/-! ## What the frames of a head show -/

theorem head_trace_boundaries (D c : ℚ) (t : beep_parms_t) (rest : List beep_parms_t) :
    ∀ (m : ℕ) (ms : ℚ),
      (head_trace D c t rest m ms).filterMap Tick.boundary = List.replicate (m + 1) c
  | 0, ms => by
    simp only [head_trace, List.filterMap_append]
    rw [filterMap_waits Tick.boundary D _ _ _ (fun x h _ _ => h)]
    rfl
  | m + 1, ms => by
    simp only [head_trace, List.filterMap_append, List.filterMap_cons]
    rw [filterMap_waits Tick.boundary D _ _ _ (fun x h _ _ => h),
      head_trace_boundaries D c t rest m]
    rfl

theorem head_trace_freed (D c : ℚ) (t : beep_parms_t) (rest : List beep_parms_t) :
    ∀ (m : ℕ) (ms : ℚ),
      (head_trace D c t rest m ms).filterMap Tick.freed = [retired t]
  | 0, ms => by
    simp only [head_trace, List.filterMap_append]
    rw [filterMap_waits Tick.freed D _ _ _ (fun x _ _ h => h)]
    rfl
  | m + 1, ms => by
    simp only [head_trace, List.filterMap_append, List.filterMap_cons]
    rw [filterMap_waits Tick.freed D _ _ _ (fun x _ _ h => h),
      head_trace_freed D c t rest m]
    rfl

/-- Shape of the frames of a head: every frame but the last leaves the head in place
with a counter between 1 and its initial value and frees nothing; the last frame
crosses a boundary, frees the head and leaves the rest of the queue. -/
theorem head_trace_shape (D c : ℚ) (t : beep_parms_t) (rest : List beep_parms_t) :
    ∀ (m : ℕ) (ms : ℚ), ∃ (init : List Tick) (last : Tick),
      head_trace D c t rest m ms = init ++ [last]
      ∧ (∀ x ∈ init, x.freed = none ∧ x.log = none
          ∧ ∃ j : Int, 1 ≤ j ∧ j ≤ (m : Int) + 1 ∧ x.parms = { t with reps := j } :: rest)
      ∧ last.boundary = some c
      ∧ last.freed = some (retired t)
      ∧ last.log = (if t.verbose ≠ 0 then some ⟨t.freq, t.length, t.delay⟩ else none)
      ∧ last.parms = rest
  | 0, ms => by
    refine ⟨_, _, rfl, ?_, rfl, rfl, rfl, rfl⟩
    intro x hx
    obtain ⟨_, h2, h3, h4⟩ := mem_waits D _ _ _ x hx
    exact ⟨h3, h2, 1, le_refl 1, by simp, h4⟩
  | m + 1, ms => by
    obtain ⟨init, last, hEq, hInit, hb, hf, hl, hp⟩ := head_trace_shape D c t rest m (carry D c ms)
    refine ⟨waits D ({ t with reps := ((m + 1 : ℕ) : Int) + 1 } :: rest) (wait_frames D c ms) ms
      ++ { boundary := some c, log := none, freed := none
           parms := { t with reps := ((m + 1 : ℕ) : Int) } :: rest
           ms_offset := carry D c ms } :: init, last, ?_, ?_, hb, hf, hl, hp⟩
    · simp only [head_trace, hEq, List.append_assoc, List.cons_append]
    · intro x hx
      rw [List.mem_append, List.mem_cons] at hx
      rcases hx with hx | hx | hx
      · obtain ⟨_, h2, h3, h4⟩ := mem_waits D _ _ _ x hx
        exact ⟨h3, h2, ((m + 1 : ℕ) : Int) + 1, by push_cast; omega, by push_cast; omega, h4⟩
      · subst hx
        exact ⟨rfl, rfl, ((m + 1 : ℕ) : Int), by push_cast; omega, by push_cast; omega, rfl⟩
      · obtain ⟨h1, h2, j, hj1, hj2, hj3⟩ := hInit x hx
        exact ⟨h1, h2, j, hj1, by push_cast; omega, hj3⟩

/-! ## A live head in a playback -/

theorem boundaries_eq (l : List FrameRecord) :
    boundaries l = (l.map FrameRecord.tick).filterMap Tick.boundary := by
  rw [List.filterMap_map]; rfl

theorem logs_eq (l : List FrameRecord) :
    logs l = (l.map FrameRecord.tick).filterMap Tick.log := by
  rw [List.filterMap_map]; rfl

theorem freed_eq (l : List FrameRecord) :
    freed l = (l.map FrameRecord.tick).filterMap Tick.freed := by
  rw [List.filterMap_map]; rfl

theorem live_head_eq (t : beep_parms_t) (hR : 1 ≤ t.reps) :
    ({ t with reps := (((t.reps - 1).toNat : ℕ) : Int) + 1 } : beep_parms_t) = t := by
  have h : (((t.reps - 1).toNat : ℕ) : Int) + 1 = t.reps := by
    rw [Int.toNat_of_nonneg (by omega)]; omega
  rw [h]

/-- The first frames of any playback that starts with a live head `t`, up to its
release frame, are the frames written out in `head_trace`. -/
theorem playback_head (D : ℚ) (sinf : ℚ → ℚ) (g : Engine) (t : beep_parms_t)
    (rest : List beep_parms_t) (hD : 0 < D) (hR : 1 ≤ t.reps) (hg : g.parms = t :: rest)
    (calls : List (Int × List ℕ))
    (hn : release_frame D t g.ms_offset ≤ (playback D sinf calls g).length) :
    ((playback D sinf calls g).take (release_frame D t g.ms_offset)).map FrameRecord.tick
      = head_trace D (offset t) t rest (t.reps - 1).toNat g.ms_offset := by
  rw [playback_take_tick D sinf calls g _ hn, hg]
  have h := (ticks_head D hD t rest (t.reps - 1).toNat g.ms_offset).1
  rw [live_head_eq t hR, ← offset_of_live t hR] at h
  exact h

/-- Shape of the frames of a live head in a playback: every frame before the release
frame leaves the head in place, with a counter between 1 and its initial value, frees
nothing and prints nothing; the release frame crosses a boundary, frees the head with its
counter at zero, prints the completion line when `verbose` is set, and leaves the rest
of the queue. -/
theorem playback_head_shape (D : ℚ) (sinf : ℚ → ℚ) (g : Engine) (t : beep_parms_t)
    (rest : List beep_parms_t) (hD : 0 < D) (hR : 1 ≤ t.reps) (hg : g.parms = t :: rest)
    (calls : List (Int × List ℕ))
    (hn : release_frame D t g.ms_offset ≤ (playback D sinf calls g).length) :
    ∃ (init : List FrameRecord) (last : FrameRecord),
      (playback D sinf calls g).take (release_frame D t g.ms_offset) = init ++ [last]
      ∧ (∀ r ∈ init, r.freed = none ∧ r.log = none
          ∧ ∃ j : Int, 1 ≤ j ∧ j ≤ t.reps ∧ r.after.parms = { t with reps := j } :: rest)
      ∧ last.boundary = some (offset t)
      ∧ last.freed = some (retired t)
      ∧ last.log = (if t.verbose ≠ 0 then some ⟨t.freq, t.length, t.delay⟩ else none)
      ∧ last.after.parms = rest := by
  have h := playback_head D sinf g t rest hD hR hg calls hn
  obtain ⟨ti, tl, hEq, hInit, hb, hf, hl, hp⟩ :=
    head_trace_shape D (offset t) t rest (t.reps - 1).toNat g.ms_offset
  rw [hEq] at h
  obtain ⟨init, l2, hsplit, hmi, hml⟩ := List.map_eq_append_iff.mp h
  obtain ⟨last, l3, rfl, hlast, hl3⟩ := List.map_eq_cons_iff.mp hml
  have : l3 = [] := by simpa using hl3
  subst this
  refine ⟨init, last, hsplit, ?_, ?_, ?_, ?_, ?_⟩
  · intro r hr
    have hmem : r.tick ∈ ti := by rw [← hmi]; exact List.mem_map_of_mem _ hr
    obtain ⟨h1, h2, j, hj1, hj2, hj3⟩ := hInit _ hmem
    refine ⟨h1, h2, j, hj1, ?_, hj3⟩
    have : (((t.reps - 1).toNat : ℕ) : Int) + 1 = t.reps := by
      rw [Int.toNat_of_nonneg (by omega)]; omega
    omega
  · rw [← hb, ← hlast]; rfl
  · rw [← hf, ← hlast]; rfl
  · rw [← hl, ← hlast]; rfl
  · rw [← hp, ← hlast]; rfl

theorem take_pred_of_snoc {α : Type} (l init : List α) (last : α) (n : ℕ)
    (hn : n ≤ l.length) (h : l.take n = init ++ [last]) : l.take (n - 1) = init := by
  have hlen : init.length + 1 = n := by
    have := congrArg List.length h
    simp [List.length_take, Nat.min_eq_left hn] at this
    omega
  have h2 : l.take (n - 1) = (l.take n).take (n - 1) := by
    rw [List.take_take, Nat.min_eq_left (Nat.sub_le n 1)]
  rw [h2, h]
  have : n - 1 = init.length := by omega
  rw [this, List.take_left']
  rfl

theorem freed_nil_of_forall (l : List FrameRecord) (h : ∀ r ∈ l, r.freed = none) :
    freed l = [] := by
  unfold freed
  rw [List.filterMap_eq_nil_iff]
  exact h

theorem freed_take_nil (l : List FrameRecord) (k : ℕ) (h : freed l = []) :
    freed (l.take k) = [] := by
  unfold freed at h ⊢
  rw [List.filterMap_eq_nil_iff] at h ⊢
  exact fun r hr => h r (List.mem_of_mem_take hr)

/-! ## Queue order -/

namespace CFloat

theorem finite_add (a b : ℚ) : finite a + finite b = finite (a + b) := rfl

theorem finite_mul (a b : ℚ) : finite a * finite b = finite (a * b) := rfl

theorem finite_div (a b : ℚ) (hb : b ≠ 0) : finite a / finite b = finite (a / b) := by
  show div (finite a) (finite b) = finite (a / b)
  simp [div, hb]

theorem fmod_finite (a b : ℚ) (hb : b ≠ 0) : ∃ r : ℚ, fmod (finite a) (finite b) = finite r := by
  simp [fmod, hb]

end CFloat

theorem two_PI_ne_zero : (2 * PI : ℚ) ≠ 0 := by
  norm_num [PI]

theorem radians_finite (p : beep_parms_t) (f : ℚ) (hf : p.freq = CFloat.finite f) :
    radians_per_ms p = CFloat.finite (f * 2 * PI / 1000) := by
  unfold radians_per_ms
  rw [hf, CFloat.finite_mul, CFloat.finite_mul, CFloat.finite_div _ _ (by norm_num)]

/-- Lines 183-213 keep the globals numeric when the local `sample` is a number. -/
theorem advance_numeric (D : ℚ) (g : Engine) (s : CFloat) (hg : Numeric g)
    (hs : ∃ x : ℚ, s = CFloat.finite x) : Numeric (advance D g s).after := by
  obtain ⟨hq, r, hr⟩ := hg
  obtain ⟨x, hx⟩ := hs
  rcases g with ⟨parms, ms, rad⟩
  cases parms with
  | nil => exact ⟨by simp [advance], r, hr⟩
  | cons p next =>
    obtain ⟨f, hf⟩ := hq p (List.mem_cons_self _ _)
    have hnext : ∀ y ∈ next, ∃ f : ℚ, y.freq = CFloat.finite f :=
      fun y hy => hq y (List.mem_cons_of_mem _ hy)
    have hrad : ∃ r1 : ℚ,
        (if s.lt (CFloat.finite 0.1) then s
          else CFloat.fmod (rad + CFloat.finite (offset p) * radians_per_ms p)
            (CFloat.finite (2 * PI))) = CFloat.finite r1 := by
      by_cases hlt : s.lt (CFloat.finite 0.1) = true
      · rw [if_pos hlt]; exact ⟨x, hx⟩
      · rw [if_neg hlt]
        simp only at hr
        rw [hr, radians_finite p f hf, CFloat.finite_mul, CFloat.finite_add]
        exact CFloat.fmod_finite _ _ two_PI_ne_zero
    simp only [advance]
    by_cases hb : ms + D > offset p
    · rw [if_pos hb]
      by_cases hz : p.reps - 1 = 0
      · rw [if_pos hz]
        exact ⟨hnext, hrad⟩
      · rw [if_neg hz]
        refine ⟨?_, hrad⟩
        intro y hy
        rcases List.mem_cons.mp hy with rfl | hy
        · exact ⟨f, hf⟩
        · exact hnext y hy
    · rw [if_neg hb]
      exact ⟨hq, r, hr⟩

/-- Lines 215-220 produce a number with the property `P` when `P` holds of the values of
`sinf`, is kept by the decay, and holds of the local `sample`. -/
theorem emit_isNum (P : ℚ → Prop) (sinf : ℚ → ℚ) (hsin : ∀ x, P (sinf x))
    (hdec : ∀ x, P x → P (x * 0.95)) (g : Engine) (s : CFloat) (hg : Numeric g)
    (hs : IsNum P s) : IsNum P (emit sinf g s) := by
  obtain ⟨hq, r, hr⟩ := hg
  obtain ⟨x, hx, hPx⟩ := hs
  have hdecay : IsNum P (s * CFloat.finite 0.95) := by
    rw [hx, CFloat.finite_mul]; exact ⟨_, rfl, hdec x hPx⟩
  rcases g with ⟨parms, ms, rad⟩
  cases parms with
  | nil => exact hdecay
  | cons p next =>
    obtain ⟨f, hf⟩ := hq p (List.mem_cons_self _ _)
    simp only [emit]
    by_cases hlt : ms < (p.length : ℚ)
    · rw [if_pos hlt]
      simp only at hr
      rw [hr, radians_finite p f hf, CFloat.finite_mul, CFloat.finite_add]
      exact ⟨_, rfl, hsin _⟩
    · rw [if_neg hlt]; exact hdecay

theorem isNum_finite {P : ℚ → Prop} {s : CFloat} (h : IsNum P s) : ∃ x : ℚ, s = CFloat.finite x :=
  let ⟨x, hx, _⟩ := h
  ⟨x, hx⟩

theorem frame_sound (P : ℚ → Prop) (D : ℚ) (sinf : ℚ → ℚ) (hsin : ∀ x, P (sinf x))
    (hdec : ∀ x, P x → P (x * 0.95)) (g : Engine) (s : CFloat) (hg : Numeric g)
    (hs : IsNum P s) :
    Numeric (frame D sinf g s).after ∧ IsNum P (frame D sinf g s).sample :=
  ⟨advance_numeric D g s hg (isNum_finite hs),
    emit_isNum P sinf hsin hdec _ s (advance_numeric D g s hg (isNum_finite hs)) hs⟩

theorem lastSample_cons (s : CFloat) (r : FrameRecord) (tr : List FrameRecord) :
    lastSample s (r :: tr) = lastSample r.sample tr := rfl

/-- Every frame of the `for` loop writes a number with the property `P` and leaves
numeric globals, and so do the values the loop ends with. -/
theorem frames_sound (P : ℚ → Prop) (D : ℚ) (sinf : ℚ → ℚ) (hsin : ∀ x, P (sinf x))
    (hdec : ∀ x, P x → P (x * 0.95)) :
    ∀ (n : ℕ) (g : Engine) (s : CFloat), Numeric g → IsNum P s →
      (∀ r ∈ frames D sinf n g s, Numeric r.after ∧ IsNum P r.sample)
      ∧ Numeric (lastEngine g (frames D sinf n g s))
      ∧ IsNum P (lastSample s (frames D sinf n g s))
  | 0, g, s, hg, hs => ⟨by simp [frames], hg, hs⟩
  | n + 1, g, s, hg, hs => by
    obtain ⟨h1, h2⟩ := frame_sound P D sinf hsin hdec g s hg hs
    obtain ⟨ih1, ih2, ih3⟩ := frames_sound P D sinf hsin hdec n _ _ h1 h2
    simp only [frames, lastEngine_cons, lastSample_cons]
    refine ⟨?_, ih2, ih3⟩
    intro r hr
    rcases List.mem_cons.mp hr with rfl | hr
    · exact ⟨h1, h2⟩
    · exact ih1 r hr

theorem write_loop_sound (P : ℚ → Prop) (D : ℚ) (sinf : ℚ → ℚ) (hsin : ∀ x, P (sinf x))
    (hdec : ∀ x, P x → P (x * 0.95)) :
    ∀ (grants : List ℕ) (frames_left : Int) (g : Engine) (s : CFloat), Numeric g → IsNum P s →
      (∀ r ∈ write_loop D sinf grants frames_left g s, Numeric r.after ∧ IsNum P r.sample)
      ∧ Numeric (lastEngine g (write_loop D sinf grants frames_left g s))
  | [], _, g, _, hg, _ => ⟨by simp [write_loop], hg⟩
  | grant :: grants, frames_left, g, s, hg, hs => by
    unfold write_loop
    by_cases h1 : frames_left > 0
    · rw [if_pos h1]
      by_cases h2 : min frames_left.toNat grant = 0
      · simp only [h2, if_true]
        exact ⟨by simp, hg⟩
      · simp only [h2, if_false]
        obtain ⟨f1, f2, f3⟩ := frames_sound P D sinf hsin hdec
          (min frames_left.toNat grant) g s hg hs
        by_cases h3 : (lastEngine g (frames D sinf (min frames_left.toNat grant) g s)).parms = []
        · rw [if_pos h3]; exact ⟨f1, f2⟩
        · rw [if_neg h3]
          obtain ⟨w1, w2⟩ := write_loop_sound P D sinf hsin hdec grants
            (frames_left - (min frames_left.toNat grant : ℕ)) _ _ f2 f3
          refine ⟨?_, by rw [lastEngine_append]; exact w2⟩
          intro r hr
          rcases List.mem_append.mp hr with hr | hr
          · exact f1 r hr
          · exact w1 r hr
    · rw [if_neg h1]
      exact ⟨by simp, hg⟩

/-- Every frame of a playback that starts from numeric globals writes a number with the
property `P`, as soon as `P` holds of `0`, of the values of `sinf`, and is kept by the
decay. -/
theorem playback_sound (P : ℚ → Prop) (D : ℚ) (sinf : ℚ → ℚ) (h0 : P 0)
    (hsin : ∀ x, P (sinf x)) (hdec : ∀ x, P x → P (x * 0.95)) :
    ∀ (calls : List (Int × List ℕ)) (g : Engine), Numeric g →
      ∀ r ∈ playback D sinf calls g, Numeric r.after ∧ IsNum P r.sample
  | [], _, _ => by simp [playback]
  | call :: calls, g, hg => by
    obtain ⟨w1, w2⟩ := write_loop_sound P D sinf hsin hdec call.2 call.1 g (CFloat.finite 0) hg
      ⟨0, rfl, h0⟩
    have ih := playback_sound P D sinf h0 hsin hdec calls _ w2
    intro r hr
    simp only [playback, write_callback] at hr
    rcases List.mem_append.mp hr with hr | hr
    · exact w1 r hr
    · exact ih r hr

theorem init_numeric (q : List beep_parms_t) (hq : ∀ p ∈ q, valid_freq p) :
    Numeric (Engine.init q) :=
  ⟨fun p hp => let ⟨f, hf, _⟩ := hq p hp; ⟨f, hf⟩, 0, rfl⟩

/-- C7: every sample written by `write_callback` lies in `[-1, 1]`.  For a library sine
with values in `[-1, 1]`, a queue of valid frequencies, any frame period and any pattern
of invocations from program start, every frame writes a number of magnitude at most 1,
be it a tone-on sample (a value of `sinf`) or a decayed sample (`0.95` times the previous
value). -/
theorem samples_within_unit (D : ℚ) (sinf : ℚ → ℚ) (q : List beep_parms_t)
    (calls : List (Int × List ℕ)) (hsin : ∀ x, |sinf x| ≤ 1) (hq : ∀ p ∈ q, valid_freq p) :
    ∀ r ∈ playback D sinf calls (Engine.init q), r.sample.AbsLe 1 := by
  intro r hr
  have h := (playback_sound (fun x => |x| ≤ 1) D sinf (by simp) hsin
    (by
      intro x hx
      rw [abs_mul]
      have h95 : |(0.95 : ℚ)| = 0.95 := abs_of_pos (by norm_num)
      rw [h95]
      nlinarith [abs_nonneg x])
    calls (Engine.init q) (init_numeric q hq) r hr).2
  exact h

/-! ## Decay -/

theorem chain_append_of {R : FrameRecord → FrameRecord → Prop} :
    ∀ (l1 l2 : List FrameRecord) (a : FrameRecord), List.Chain R a l1 →
      (∀ b, b.sample = lastSample a.sample l1 → List.Chain R b l2) →
      (∀ a b c, a.sample = b.sample → R a c → R b c) →
      List.Chain R a (l1 ++ l2)
  | [], l2, a, _, h2, _ => h2 a rfl
  | x :: l1, l2, a, h1, h2, hR => by
    rw [List.cons_append, List.chain_cons] at *
    exact ⟨h1.1, chain_append_of l1 l2 x h1.2 (fun b hb => h2 b (by rw [hb]; rfl)) hR⟩

theorem chain_left_of_append {R : FrameRecord → FrameRecord → Prop} :
    ∀ (l1 l2 : List FrameRecord) (a : FrameRecord), List.Chain R a (l1 ++ l2) → List.Chain R a l1
  | [], _, _, _ => List.Chain.nil
  | x :: l1, l2, a, h => by
    rw [List.cons_append, List.chain_cons] at h
    exact List.Chain.cons h.1 (chain_left_of_append l1 l2 x h.2)

theorem chain_right_of_append {R : FrameRecord → FrameRecord → Prop} :
    ∀ (l1 l2 : List FrameRecord) (a x : FrameRecord), List.Chain R a (l1 ++ x :: l2) →
      List.Chain R x l2
  | [], _, _, _, h => by
    rw [List.nil_append, List.chain_cons] at h
    exact h.2
  | y :: l1, l2, a, x, h => by
    rw [List.cons_append, List.chain_cons] at h
    exact chain_right_of_append l1 l2 y x h.2

theorem split_run {α : Type} (tr : List α) (i k : ℕ) (a : α) (h : tr[i]? = some a) :
    tr = tr.take i ++ a :: ((tr.drop (i + 1)).take k ++ (tr.drop (i + 1)).drop k) := by
  obtain ⟨hlt, ha⟩ := List.getElem?_eq_some_iff.mp h
  rw [List.take_append_drop k, ← ha, ← List.drop_eq_getElem_cons hlt, List.take_append_drop]

/-! ## Validation by the parser -/

theorem default_freq_checked (p : beep_parms_t) (h : Checked p) :
    ValidatedOrNaN (default_freq p) := by
  obtain ⟨hf, hl, hr, hd⟩ := h
  unfold default_freq
  rcases hf with hf | hf | hf
  · rw [hf]
    simp only [CFloat.isZero, decide_True, if_true]
    exact ⟨Or.inr ⟨DEFAULT_FREQ, rfl, by norm_num [DEFAULT_FREQ], by norm_num [DEFAULT_FREQ]⟩,
      hl, hr, hd⟩
  · rw [hf]
    simp only [CFloat.isZero]
    exact ⟨Or.inl hf, hl, hr, hd⟩
  · obtain ⟨f, hfe, h0, h1⟩ := hf
    rw [hfe]
    have : ¬ f = 0 := ne_of_gt h0
    simp only [CFloat.isZero, this, decide_False]
    exact ⟨Or.inr ⟨f, hfe, h0, h1⟩, hl, hr, hd⟩

theorem new_node_checked (p : beep_parms_t) : Checked (new_node p) :=
  ⟨Or.inl rfl, (by decide : (0 : Int) ≤ DEFAULT_LENGTH), (by decide : (0 : Int) ≤ DEFAULT_REPS),
    (by decide : (0 : Int) ≤ DEFAULT_DELAY)⟩

theorem argval_nonneg (arg : Option Int) (h : ¬ (arg = none ∨ argval arg < 0)) :
    0 ≤ argval arg := by
  push_neg at h; exact h.2

/-- Every node of a queue the parser returns passed its checks. -/
theorem parse_checked :
    ∀ (opts : List Opt) (done : List beep_parms_t) (result : beep_parms_t)
      (q : List beep_parms_t),
      (∀ p ∈ done, ValidatedOrNaN p) → Checked result →
      parse_command_line opts done result = .ok q → ∀ p ∈ q, ValidatedOrNaN p
  | [], done, result, q, hdone, hres, h => by
    simp only [parse_command_line, Except.ok.injEq] at h
    subst h
    intro p hp
    rcases List.mem_append.mp hp with hp | hp
    · exact hdone p hp
    · rw [List.mem_singleton] at hp
      rw [hp]; exact default_freq_checked result hres
  | .f arg :: opts, done, result, q, hdone, hres, h => by
    cases arg with
    | noconv => simp [parse_command_line] at h
    | inf neg => simp [parse_command_line] at h
    | nan =>
      simp only [parse_command_line] at h
      exact parse_checked opts done { result with freq := CFloat.nan } q hdone
        ⟨Or.inr (Or.inl rfl), hres.2⟩ h
    | num v =>
      simp only [parse_command_line] at h
      by_cases hv : v ≥ 20000 ∨ v ≤ 0
      · simp [hv] at h
      · rw [if_neg hv] at h
        push_neg at hv
        exact parse_checked opts done { result with freq := CFloat.finite v } q hdone
          ⟨Or.inr (Or.inr ⟨v, rfl, hv.2, hv.1⟩), hres.2⟩ h
  | .l arg :: opts, done, result, q, hdone, hres, h => by
    simp only [parse_command_line] at h
    by_cases hv : arg = none ∨ argval arg < 0
    · simp [hv] at h
    · rw [if_neg hv] at h
      exact parse_checked opts done { result with length := argval arg } q hdone
        ⟨hres.1, argval_nonneg arg hv, hres.2.2.1, hres.2.2.2⟩ h
  | .r arg :: opts, done, result, q, hdone, hres, h => by
    simp only [parse_command_line] at h
    by_cases hv : arg = none ∨ argval arg < 0
    · simp [hv] at h
    · rw [if_neg hv] at h
      exact parse_checked opts done { result with reps := argval arg } q hdone
        ⟨hres.1, hres.2.1, argval_nonneg arg hv, hres.2.2.2⟩ h
  | .d arg :: opts, done, result, q, hdone, hres, h => by
    simp only [parse_command_line] at h
    by_cases hv : arg = none ∨ argval arg < 0
    · simp [hv] at h
    · rw [if_neg hv] at h
      exact parse_checked opts done
        { result with delay := argval arg, end_delay := NO_END_DELAY } q hdone
        ⟨hres.1, hres.2.1, hres.2.2.1, argval_nonneg arg hv⟩ h
  | .D arg :: opts, done, result, q, hdone, hres, h => by
    simp only [parse_command_line] at h
    by_cases hv : arg = none ∨ argval arg < 0
    · simp [hv] at h
    · rw [if_neg hv] at h
      exact parse_checked opts done
        { result with delay := argval arg, end_delay := YES_END_DELAY } q hdone
        ⟨hres.1, hres.2.1, hres.2.2.1, argval_nonneg arg hv⟩ h
  | .s :: opts, done, result, q, hdone, hres, h => by
    simp only [parse_command_line] at h
    exact parse_checked opts done { result with stdin_beep := LINE_STDIN_BEEP } q hdone hres h
  | .c :: opts, done, result, q, hdone, hres, h => by
    simp only [parse_command_line] at h
    exact parse_checked opts done { result with stdin_beep := CHAR_STDIN_BEEP } q hdone hres h
  | .v :: _, _, _, _, _, _, h => by simp [parse_command_line] at h
  | .n :: opts, done, result, q, hdone, hres, h => by
    simp only [parse_command_line] at h
    refine parse_checked opts (done ++ [default_freq result]) (new_node result) q ?_
      (new_node_checked result) h
    intro p hp
    rcases List.mem_append.mp hp with hp | hp
    · exact hdone p hp
    · rw [List.mem_singleton] at hp
      rw [hp]; exact default_freq_checked result hres
  | .X :: opts, done, result, q, hdone, hres, h => by
    simp only [parse_command_line] at h
    exact parse_checked opts done { result with verbose := 1 } q hdone hres h
  | .h :: _, _, _, _, _, _, h => by simp [parse_command_line] at h
  | .other :: _, _, _, _, _, _, h => by simp [parse_command_line] at h

/-- The validation as the code performs it: every request of a queue returned from
`main`'s default node has non-negative `length`, `reps` and `delay`, and a frequency that
is NaN or strictly between 0 and 20000. -/
theorem main_queue_validated_or_nan (opts : List Opt) (q : List beep_parms_t)
    (h : main_queue opts = .ok q) : ∀ p ∈ q, ValidatedOrNaN p :=
  parse_checked opts [] main_node q (by simp)
    ⟨Or.inl rfl, (by decide : (0 : Int) ≤ DEFAULT_LENGTH), (by decide : (0 : Int) ≤ DEFAULT_REPS),
      (by decide : (0 : Int) ≤ DEFAULT_DELAY)⟩ h

/-- An option the parser rejects makes the whole command line fail: the options before
it may already have left (usage or version), otherwise this one leaves through
`usage_bail`. -/
theorem parse_rejects :
    ∀ (pre : List Opt) (o : Opt) (post : List Opt) (done : List beep_parms_t)
      (result : beep_parms_t),
      (∀ d r, parse_command_line (o :: post) d r = .error .usage_bail) →
      ∀ q, parse_command_line (pre ++ o :: post) done result ≠ .ok q
  | [], o, post, done, result, ho, q => by
    rw [List.nil_append, ho]; simp
  | x :: pre, o, post, done, result, ho, q => by
    have ih := fun d r => parse_rejects pre o post d r ho q
    cases x with
    | f arg =>
      cases arg with
      | noconv => simp [parse_command_line]
      | inf neg => simp [parse_command_line]
      | nan => simp only [List.cons_append, parse_command_line]; exact ih _ _
      | num v =>
        simp only [List.cons_append, parse_command_line]
        split_ifs
        · simp
        · exact ih _ _
    | l arg | r arg | d arg | D arg =>
      simp only [List.cons_append, parse_command_line]
      split_ifs
      · simp
      · exact ih _ _
    | s | c | n | X => simp only [List.cons_append, parse_command_line]; exact ih _ _
    | v | h | other => simp [parse_command_line]

/-- Rejections of the validation: a `-f` value that is at most 0 or at least 20000, and
a negative `-l`, `-r`, `-d` or `-D` value, wherever they stand on the command line, keep
the parser from returning a queue. -/
theorem main_queue_rejects (pre post : List Opt) (q : List beep_parms_t) :
    (∀ v : ℚ, v ≤ 0 ∨ 20000 ≤ v → main_queue (pre ++ .f (.num v) :: post) ≠ .ok q)
    ∧ (∀ z : Int, z < 0 → main_queue (pre ++ .l (some z) :: post) ≠ .ok q
        ∧ main_queue (pre ++ .r (some z) :: post) ≠ .ok q
        ∧ main_queue (pre ++ .d (some z) :: post) ≠ .ok q
        ∧ main_queue (pre ++ .D (some z) :: post) ≠ .ok q) := by
  constructor
  · intro v hv
    apply parse_rejects
    intro d r
    have : v ≥ 20000 ∨ v ≤ 0 := hv.symm
    simp [parse_command_line, this]
  · intro z hz
    refine ⟨?_, ?_, ?_, ?_⟩ <;>
    · apply parse_rejects
      intro d r
      simp [parse_command_line, argval, hz]

/-! ## Evaluations -/

theorem sinf_cubic_bound (x : ℚ) : |sinf_cubic x| ≤ 1 := by
  unfold sinf_cubic
  rw [abs_le]
  exact ⟨le_max_left _ _, max_le (by norm_num) (min_le_left _ _)⟩

/-- C1: the delay is charged on the final repetition too.  The queue of
`beep -f 440 -l 200 -r 1 -d 100` is one request with `end_delay = 0` and `reps = 1`; its
cycle length at the last (only) boundary is `offset = 300`, not `200`, because the test
`reps >= 1` of line 188 holds of every live request.  At 44100 frames per second the
request is still queued after frame 13230 (300 ms elapsed) and is popped on frame 13231,
the boundary subtracting 300, in every playback; frame 8821, the first with more than
200 ms elapsed, pops nothing.  At a frame period of 50 ms it is popped on frame 7
(350 ms), not on frame 5 (250 ms). -/
theorem delay_charged_on_last_repetition :
    main_queue [.f (.num 440), .l (some 200), .r (some 1), .d (some 100)] = .ok [beep_d]
    ∧ offset beep_d = 300
    ∧ (∀ calls : List (Int × List ℕ),
        13231 ≤ (playback ms_44100 sinf_cubic calls (Engine.init [beep_d])).length →
        freed ((playback ms_44100 sinf_cubic calls (Engine.init [beep_d])).take 8821) = []
        ∧ freed ((playback ms_44100 sinf_cubic calls (Engine.init [beep_d])).take 13230) = []
        ∧ freed ((playback ms_44100 sinf_cubic calls (Engine.init [beep_d])).take 13231)
            = [retired beep_d]
        ∧ boundaries ((playback ms_44100 sinf_cubic calls (Engine.init [beep_d])).take 13231)
            = [300])
    ∧ freed ((playback 50 sinf_cubic [(7, [7])] (Engine.init [beep_d])).take 5) = []
    ∧ freed ((playback 50 sinf_cubic [(7, [7])] (Engine.init [beep_d])).take 6) = []
    ∧ freed ((playback 50 sinf_cubic [(7, [7])] (Engine.init [beep_d])).take 7)
        = [retired beep_d] := by
  refine ⟨rfl, by decide!, ?_, by decide!, by decide!, by decide!⟩
  intro calls hlen
  have hN : release_frame ms_44100 beep_d (Engine.init [beep_d]).ms_offset = 13231 := by decide!
  have hD : (0 : ℚ) < ms_44100 := by norm_num [ms_44100]
  have hR : (1 : Int) ≤ beep_d.reps := by decide
  have hn : release_frame ms_44100 beep_d (Engine.init [beep_d]).ms_offset
      ≤ (playback ms_44100 sinf_cubic calls (Engine.init [beep_d])).length := by rw [hN]; exact hlen
  obtain ⟨init, last, hEq, hInit, _, _, _, _⟩ :=
    playback_head_shape ms_44100 sinf_cubic (Engine.init [beep_d]) beep_d [] hD hR rfl calls hn
  have hT := playback_head ms_44100 sinf_cubic (Engine.init [beep_d]) beep_d [] hD hR rfl calls hn
  rw [hN] at hEq hT
  have hpre : freed ((playback ms_44100 sinf_cubic calls (Engine.init [beep_d])).take 13230)
      = [] := by
    have := take_pred_of_snoc _ init last 13231 hlen hEq
    simp only [Nat.add_one_sub_one, Nat.reduceSub] at this
    rw [this]
    exact freed_nil_of_forall init (fun r hr => (hInit r hr).1)
  refine ⟨?_, hpre, ?_, ?_⟩
  · have h := freed_take_nil _ 8821 hpre
    rwa [List.take_take] at h
  · rw [freed_eq, hT, head_trace_freed]
  · rw [boundaries_eq, hT, head_trace_boundaries]
    decide!

/-- A head whose counter is not positive is never popped: each boundary takes the
counter further below zero, so the test for zero of line 204 never succeeds, and nothing
is freed or printed. -/
theorem ticks_dead_head (D : ℚ) :
    ∀ (n : ℕ) (p : beep_parms_t) (rest : List beep_parms_t) (ms : ℚ), p.reps ≤ 0 →
      (ticks D n (p :: rest) ms).filterMap Tick.freed = []
      ∧ (ticks D n (p :: rest) ms).filterMap Tick.log = []
  | 0, _, _, _, _ => ⟨rfl, rfl⟩
  | n + 1, p, rest, ms, hp => by
    simp only [ticks, tick]
    by_cases hb : ms + D > offset p
    · have hz : ¬ (p.reps - 1 = 0) := by omega
      rw [if_pos hb, if_neg hz]
      simp only [List.filterMap_cons]
      exact ticks_dead_head D n { p with reps := p.reps - 1 } rest _
        (show p.reps - 1 ≤ 0 by omega)
    · rw [if_neg hb]
      simp only [List.filterMap_cons]
      exact ticks_dead_head D n p rest _ hp

theorem playback_dead_head (D : ℚ) (sinf : ℚ → ℚ) (calls : List (Int × List ℕ)) (g : Engine)
    (p : beep_parms_t) (rest : List beep_parms_t) (hg : g.parms = p :: rest) (hp : p.reps ≤ 0) :
    freed (playback D sinf calls g) = [] ∧ logs (playback D sinf calls g) = [] := by
  have h := ticks_dead_head D (playback D sinf calls g).length p rest g.ms_offset hp
  rw [freed_eq, logs_eq, playback_tick, hg]
  exact h

/-- C2: a request that reaches the head with `reps = 0` is not retired at its first
boundary.  The queue of `beep --verbose -r 0` is one request with `reps = 0`; played with
a frame period of 100 ms, its first boundary (frame 3) takes the counter to `-1`, which
is not zero, so the node stays at the head; the next boundary (frame 6) takes it to `-2`.
Over these frames nothing is freed and nothing is printed; and with a counter that does
not wrap around, no playback ever frees the node, whatever the frame period. -/
theorem zero_reps_request_stays_queued :
    main_queue [.X, .r (some 0)] = .ok [beep_r0]
    ∧ boundaries (playback 100 sinf_cubic [(6, [6])] (Engine.init [beep_r0])) = [200, 200]
    ∧ queues_at_boundaries (playback 100 sinf_cubic [(6, [6])] (Engine.init [beep_r0]))
        = [[{ beep_r0 with reps := -1 }], [{ beep_r0 with reps := -2 }]]
    ∧ freed (playback 100 sinf_cubic [(6, [6])] (Engine.init [beep_r0])) = []
    ∧ logs (playback 100 sinf_cubic [(6, [6])] (Engine.init [beep_r0])) = []
    ∧ (lastEngine (Engine.init [beep_r0])
        (playback 100 sinf_cubic [(6, [6])] (Engine.init [beep_r0]))).parms
      = [{ beep_r0 with reps := -2 }]
    ∧ (∀ (D : ℚ) (sinf : ℚ → ℚ) (calls : List (Int × List ℕ)),
        freed (playback D sinf calls (Engine.init [beep_r0])) = []
        ∧ logs (playback D sinf calls (Engine.init [beep_r0])) = []) := by
  refine ⟨rfl, by decide!, by decide!, by decide!, by decide!, by decide!, ?_⟩
  intro D sinf calls
  exact playback_dead_head D sinf calls (Engine.init [beep_r0]) beep_r0 [] rfl (by decide)

/-- C7, at the queue of `beep -l 100` with the clamped cubic for `sinf`, a frame period
of 50 ms and two invocations of the callback: five frames, all within `[-1, 1]`. -/
theorem samples_within_unit_witness :
    samples (playback 50 sinf_cubic [(3, [3]), (6, [2, 3])] (Engine.init [beep_l100]))
      = [CFloat.finite (-1), CFloat.finite (-19 / 20), CFloat.finite (-361 / 400),
          CFloat.finite 0, CFloat.finite 0]
    ∧ ∀ r ∈ playback 50 sinf_cubic [(3, [3]), (6, [2, 3])] (Engine.init [beep_l100]),
        r.sample.AbsLe 1 :=
  ⟨by decide!, samples_within_unit 50 sinf_cubic [beep_l100] [(3, [3]), (6, [2, 3])]
    sinf_cubic_bound
    (by
      intro p hp
      rw [List.mem_singleton] at hp
      subst hp
      exact ⟨440, rfl, by norm_num, by norm_num⟩)⟩

/-- C10: the validation lets NaN through.  `beep -f nan` is accepted: `sscanf` stores
NaN, both comparisons of line 78 are false for it, and the closing test `freq == 0` is
false too, so the queue holds a request whose frequency is not a number between 0 and
20000.  The callback then writes NaN as the sample of a tone-on frame. -/
theorem nan_frequency_accepted :
    main_queue [.f .nan] = .ok [beep_nan]
    ∧ beep_nan.freq = CFloat.nan
    ∧ ¬ Validated beep_nan
    ∧ samples (playback 50 sinf_cubic [(1, [1])] (Engine.init [beep_nan])) = [CFloat.nan] := by
  refine ⟨rfl, rfl, ?_, by decide!⟩
  rintro ⟨⟨f, hf, _⟩, _⟩
  cases hf

/-! ## The queue by groups -/

theorem groups_ne_nil : ∀ opts : List Opt, groups opts ≠ []
  | [] => by simp [groups]
  | o :: opts => by
    simp only [groups]
    split_ifs
    · simp
    · split <;> simp

theorem groups_cons_n (opts : List Opt) : groups (Opt.n :: opts) = [] :: groups opts := by
  simp [groups]

theorem groups_cons_of_ne (o : Opt) (opts : List Opt) (g : List Opt) (gs : List (List Opt))
    (ho : o ≠ Opt.n) (h : groups opts = g :: gs) : groups (o :: opts) = (o :: g) :: gs := by
  simp only [groups, if_neg ho, h]

theorem groups_length : ∀ opts : List Opt, (groups opts).length = opts.count Opt.n + 1
  | [] => by simp [groups]
  | o :: opts => by
    by_cases ho : o = Opt.n
    · subst ho
      rw [groups_cons_n, List.length_cons, groups_length opts, List.count_cons_self]
    · obtain ⟨g, gs, h⟩ := List.exists_cons_of_ne_nil (groups_ne_nil opts)
      rw [groups_cons_of_ne o opts g gs ho h, List.count_cons_of_ne (Ne.symm ho),
        ← groups_length opts, h]
      simp

theorem mem_groups : ∀ (opts : List Opt) (g : List Opt), g ∈ groups opts →
    ∀ o ∈ g, o ∈ opts ∧ o ≠ Opt.n
  | [], g, hg, o, ho => by
    simp only [groups, List.mem_singleton] at hg
    subst hg
    simp at ho
  | x :: opts, g, hg, o, ho => by
    by_cases hx : x = Opt.n
    · subst hx
      rw [groups_cons_n, List.mem_cons] at hg
      rcases hg with rfl | hg
      · simp at ho
      · exact ⟨List.mem_cons_of_mem _ (mem_groups opts g hg o ho).1,
          (mem_groups opts g hg o ho).2⟩
    · obtain ⟨g0, gs, h⟩ := List.exists_cons_of_ne_nil (groups_ne_nil opts)
      rw [groups_cons_of_ne x opts g0 gs hx h, List.mem_cons] at hg
      rcases hg with rfl | hg
      · rcases List.mem_cons.mp ho with rfl | ho
        · exact ⟨List.mem_cons_self _ _, hx⟩
        · have := mem_groups opts g0 (by rw [h]; exact List.mem_cons_self _ _) o ho
          exact ⟨List.mem_cons_of_mem _ this.1, this.2⟩
      · have := mem_groups opts g (by rw [h]; exact List.mem_cons_of_mem _ hg) o ho
        exact ⟨List.mem_cons_of_mem _ this.1, this.2⟩

theorem last_given_nil {α : Type} (given : Opt → Option α) (b : α) :
    last_given given [] b = b := rfl

theorem last_given_cons {α : Type} (given : Opt → Option α) (o : Opt) (g : List Opt) (b : α) :
    last_given given (o :: g) b = last_given given g ((given o).getD b) := by
  unfold last_given
  cases h : given o with
  | none => simp [List.filterMap_cons, h]
  | some v =>
    simp only [List.filterMap_cons, h, Option.getD_some]
    cases hl : List.filterMap given g with
    | nil => simp
    | cons a l =>
      rw [List.getLast?_cons_cons, List.getLast?_eq_getLast _ (List.cons_ne_nil a l)]
      rfl

theorem fill_nil (b : beep_parms_t) : fill b [] = b := by
  cases b; simp [fill, last_given]

/-- Every option of a command line the parser returns from was let through. -/
theorem parse_accepted :
    ∀ (opts : List Opt) (done : List beep_parms_t) (result : beep_parms_t)
      (q : List beep_parms_t),
      parse_command_line opts done result = .ok q → ∀ o ∈ opts, Accepted o
  | [], _, _, _, _, o, ho => by simp at ho
  | x :: opts, done, result, q, h, o, ho => by
    have key : ∀ (d : List beep_parms_t) (r : beep_parms_t),
        parse_command_line opts d r = .ok q → Accepted x → Accepted o := by
      intro d r hd hx
      rcases List.mem_cons.mp ho with rfl | ho
      · exact hx
      · exact parse_accepted opts d r q hd o ho
    have intArg : ∀ arg : Option Int, ¬ (arg = none ∨ argval arg < 0) →
        ∃ z : Int, arg = some z ∧ 0 ≤ z := by
      intro arg hv
      push_neg at hv
      cases arg with
      | none => exact absurd rfl hv.1
      | some z => exact ⟨z, rfl, by simpa [argval] using hv.2⟩
    cases x with
    | f arg =>
      cases arg with
      | noconv => simp [parse_command_line] at h
      | inf neg => simp [parse_command_line] at h
      | nan =>
        simp only [parse_command_line] at h
        exact key _ _ h trivial
      | num v =>
        simp only [parse_command_line] at h
        by_cases hv : v ≥ 20000 ∨ v ≤ 0
        · simp [hv] at h
        · rw [if_neg hv] at h
          push_neg at hv
          exact key _ _ h ⟨hv.2, hv.1⟩
    | l arg | r arg | d arg | D arg =>
      simp only [parse_command_line] at h
      by_cases hv : arg = none ∨ argval arg < 0
      · simp [hv] at h
      · rw [if_neg hv] at h
        exact key _ _ h (intArg arg hv)
    | s | c | n | X =>
      simp only [parse_command_line] at h
      exact key _ _ h trivial
    | v | h | other => simp [parse_command_line] at h

/-- The queue the parser returns is the queue read off the groups. -/
theorem parse_eq_group_queue :
    ∀ (opts : List Opt) (done : List beep_parms_t) (result : beep_parms_t)
      (q : List beep_parms_t),
      parse_command_line opts done result = .ok q →
      q = done ++ group_queue result (groups opts)
  | [], done, result, q, h => by
    simp only [parse_command_line, Except.ok.injEq] at h
    simp [groups, group_queue, fill_nil, ← h]
  | x :: opts, done, result, q, h => by
    obtain ⟨g, gs, hgs⟩ := List.exists_cons_of_ne_nil (groups_ne_nil opts)
    have step : ∀ (r : beep_parms_t), x ≠ Opt.n →
        parse_command_line opts done r = .ok q → fill result (x :: g) = fill r g →
        q = done ++ group_queue result (groups (x :: opts)) := by
      intro r hx hr hfill
      have := parse_eq_group_queue opts done r q hr
      rw [groups_cons_of_ne x opts g gs hx hgs]
      rw [hgs] at this
      simp only [group_queue] at this ⊢
      rw [hfill]; exact this
    cases x with
    | f arg =>
      cases arg with
      | noconv => simp [parse_command_line] at h
      | inf neg => simp [parse_command_line] at h
      | nan =>
        simp only [parse_command_line] at h
        refine step _ (by simp) h ?_
        simp [fill, last_given_cons, f_given, l_given, r_given, d_given, s_given]
      | num v =>
        simp only [parse_command_line] at h
        by_cases hv : v ≥ 20000 ∨ v ≤ 0
        · simp [hv] at h
        · rw [if_neg hv] at h
          refine step _ (by simp) h ?_
          simp [fill, last_given_cons, f_given, l_given, r_given, d_given, s_given]
    | l arg =>
      simp only [parse_command_line] at h
      by_cases hv : arg = none ∨ argval arg < 0
      · simp [hv] at h
      · rw [if_neg hv] at h
        refine step _ (by simp) h ?_
        cases arg with
        | none => simp at hv
        | some z => simp [fill, last_given_cons, f_given, l_given, r_given, d_given, s_given, argval]
    | r arg =>
      simp only [parse_command_line] at h
      by_cases hv : arg = none ∨ argval arg < 0
      · simp [hv] at h
      · rw [if_neg hv] at h
        refine step _ (by simp) h ?_
        cases arg with
        | none => simp at hv
        | some z => simp [fill, last_given_cons, f_given, l_given, r_given, d_given, s_given, argval]
    | d arg =>
      simp only [parse_command_line] at h
      by_cases hv : arg = none ∨ argval arg < 0
      · simp [hv] at h
      · rw [if_neg hv] at h
        refine step _ (by simp) h ?_
        cases arg with
        | none => simp at hv
        | some z => simp [fill, last_given_cons, f_given, l_given, r_given, d_given, s_given, argval]
    | D arg =>
      simp only [parse_command_line] at h
      by_cases hv : arg = none ∨ argval arg < 0
      · simp [hv] at h
      · rw [if_neg hv] at h
        refine step _ (by simp) h ?_
        cases arg with
        | none => simp at hv
        | some z => simp [fill, last_given_cons, f_given, l_given, r_given, d_given, s_given, argval]
    | s =>
      simp only [parse_command_line] at h
      refine step _ (by simp) h ?_
      simp [fill, last_given_cons, f_given, l_given, r_given, d_given, s_given]
    | c =>
      simp only [parse_command_line] at h
      refine step _ (by simp) h ?_
      simp [fill, last_given_cons, f_given, l_given, r_given, d_given, s_given]
    | X =>
      simp only [parse_command_line] at h
      refine step _ (by simp) h ?_
      simp [fill, last_given_cons, f_given, l_given, r_given, d_given, s_given]
    | n =>
      simp only [parse_command_line] at h
      have := parse_eq_group_queue opts (done ++ [default_freq result]) (new_node result) q h
      rw [groups_cons_n]
      simp only [group_queue, fill_nil]
      simpa using this
    | v | h | other => simp [parse_command_line] at h

theorem last_given_cases {α : Type} (given : Opt → Option α) (g : List Opt) :
    (∀ d, last_given given g d = d)
    ∨ ∃ v, (∃ o ∈ g, given o = some v) ∧ ∀ d, last_given given g d = v := by
  unfold last_given
  cases hl : List.filterMap given g with
  | nil => left; intro d; rfl
  | cons a l =>
    right
    refine ⟨(a :: l).getLast (List.cons_ne_nil a l), ?_, ?_⟩
    · have hmem : (a :: l).getLast (List.cons_ne_nil a l) ∈ List.filterMap given g := by
        rw [hl]; exact List.getLast_mem _
      obtain ⟨o, ho, hv⟩ := List.mem_filterMap.mp hmem
      exact ⟨o, ho, hv⟩
    · intro d
      rw [List.getLast?_eq_getLast _ (List.cons_ne_nil a l)]
      rfl

theorem default_freq_fields (x : beep_parms_t) :
    (default_freq x).length = x.length ∧ (default_freq x).reps = x.reps
    ∧ (default_freq x).delay = x.delay ∧ (default_freq x).end_delay = x.end_delay
    ∧ (default_freq x).stdin_beep = x.stdin_beep ∧ (default_freq x).verbose = x.verbose := by
  unfold default_freq
  split_ifs <;> exact ⟨rfl, rfl, rfl, rfl, rfl, rfl⟩

theorem new_node_fresh (x : beep_parms_t) : Fresh (new_node x) :=
  ⟨rfl, rfl, rfl, rfl, rfl, rfl⟩

theorem f_given_accepted (o : Opt) (v : CFloat) (ha : Accepted o) (hv : f_given o = some v) :
    v.isZero = false := by
  cases o with
  | f arg =>
    cases arg with
    | num q =>
      simp only [f_given, Option.some.injEq] at hv
      subst hv
      have : ¬ q = 0 := ne_of_gt ha.1
      simp [CFloat.isZero, this]
    | nan =>
      simp only [f_given, Option.some.injEq] at hv
      subst hv
      rfl
    | noconv => simp [f_given] at hv
    | inf neg => simp [f_given] at hv
  | _ => simp [f_given] at hv

theorem isZero_false_ne (v : CFloat) (h : v.isZero = false) : v ≠ CFloat.finite 0 := by
  intro hv
  subst hv
  simp [CFloat.isZero] at h

/-- A fresh node filled from a group of accepted options and closed: its fields are the
last values the group gives, or the defaults, and its frequency is not 0. -/
theorem fill_fresh (b : beep_parms_t) (g : List Opt) (hb : Fresh b)
    (hg : ∀ o ∈ g, Accepted o) :
    FromGroup g (default_freq (fill b g)) ∧ (default_freq (fill b g)).freq ≠ CFloat.finite 0 := by
  obtain ⟨hf, hl, hr, hd, he, hs⟩ := hb
  obtain ⟨e1, e2, e3, e4, e5, _⟩ := default_freq_fields (fill b g)
  have hfreq : (default_freq (fill b g)).freq = last_given f_given g (CFloat.finite DEFAULT_FREQ)
      ∧ (default_freq (fill b g)).freq ≠ CFloat.finite 0 := by
    rcases last_given_cases f_given g with h | ⟨v, ⟨o, ho, hv⟩, h⟩
    · have hz : (fill b g).freq = CFloat.finite 0 := by
        simp only [fill]; rw [h, hf]
      have : (default_freq (fill b g)).freq = CFloat.finite DEFAULT_FREQ := by
        unfold default_freq
        rw [hz]
        simp [CFloat.isZero]
      rw [this, h]
      refine ⟨rfl, ?_⟩
      intro h0
      simp only [CFloat.finite.injEq] at h0
      norm_num [DEFAULT_FREQ] at h0
    · have hz : (fill b g).freq = v := by
        simp only [fill]; rw [h]
      have hnz := f_given_accepted o v (hg o ho) hv
      have : (default_freq (fill b g)).freq = v := by
        unfold default_freq
        rw [hz, hnz]
        simp [hz]
      rw [this, h]
      exact ⟨rfl, isZero_false_ne v hnz⟩
  refine ⟨⟨hfreq.1, ?_, ?_, ?_, ?_, ?_⟩, hfreq.2⟩
  · rw [e1]; simp only [fill]; rw [hl]
  · rw [e2]; simp only [fill]; rw [hr]
  · rw [e3]; simp only [fill]; rw [hd, he]; rfl
  · rw [e4]; simp only [fill]; rw [hd, he]; rfl
  · rw [e5]; simp only [fill]; rw [hs]

theorem group_queue_fromGroup :
    ∀ (gs : List (List Opt)) (b : beep_parms_t), Fresh b →
      (∀ g ∈ gs, ∀ o ∈ g, Accepted o) →
      List.Forall₂ (fun g p => FromGroup g p ∧ p.freq ≠ CFloat.finite 0) gs (group_queue b gs)
  | [], _, _, _ => List.Forall₂.nil
  | g :: gs, b, hb, hacc => by
    simp only [group_queue]
    exact List.Forall₂.cons (fill_fresh b g hb (hacc g (List.mem_cons_self _ _)))
      (group_queue_fromGroup gs _ (new_node_fresh _)
        (fun g' hg' => hacc g' (List.mem_cons_of_mem _ hg')))

/-- Where `verbose` comes from in the queue read off the groups: a request has it set
when the node the first group fills had it set, or a `--verbose` stands in its group or
in an earlier one. -/
theorem group_queue_verbose :
    ∀ (gs : List (List Opt)) (b : beep_parms_t) (i : ℕ) (p : beep_parms_t),
      (group_queue b gs)[i]? = some p →
      (p.verbose ≠ 0 ↔ b.verbose ≠ 0 ∨ ∃ (j : ℕ) (g : List Opt),
        j ≤ i ∧ gs[j]? = some g ∧ Opt.X ∈ g)
  | [], _, _, _, h => by simp [group_queue] at h
  | g :: gs, b, 0, p, h => by
    simp only [group_queue, List.getElem?_cons_zero, Option.some.injEq] at h
    have hv : p.verbose = if Opt.X ∈ g then 1 else b.verbose := by
      rw [← h, (default_freq_fields _).2.2.2.2.2]; rfl
    rw [hv]
    constructor
    · intro hne
      by_cases hX : Opt.X ∈ g
      · exact Or.inr ⟨0, g, le_refl 0, by simp, hX⟩
      · rw [if_neg hX] at hne; exact Or.inl hne
    · rintro (hb | ⟨j, g', hj, hg', hX⟩)
      · by_cases hX : Opt.X ∈ g
        · rw [if_pos hX]; decide
        · rw [if_neg hX]; exact hb
      · have : j = 0 := by omega
        subst this
        simp only [List.getElem?_cons_zero, Option.some.injEq] at hg'
        subst hg'
        rw [if_pos hX]; decide
  | g :: gs, b, i + 1, p, h => by
    simp only [group_queue, List.getElem?_cons_succ] at h
    have ih := group_queue_verbose gs (new_node (fill b g)) i p h
    have hv : (new_node (fill b g)).verbose = if Opt.X ∈ g then 1 else b.verbose := rfl
    rw [ih, hv]
    constructor
    · rintro (hne | ⟨j, g', hj, hg', hX⟩)
      · by_cases hX : Opt.X ∈ g
        · exact Or.inr ⟨0, g, Nat.zero_le _, by simp, hX⟩
        · rw [if_neg hX] at hne; exact Or.inl hne
      · exact Or.inr ⟨j + 1, g', by omega, by simpa using hg', hX⟩
    · rintro (hb | ⟨j, g', hj, hg', hX⟩)
      · left
        by_cases hX : Opt.X ∈ g
        · rw [if_pos hX]; decide
        · rw [if_neg hX]; exact hb
      · cases j with
        | zero =>
          simp only [List.getElem?_cons_zero, Option.some.injEq] at hg'
          subst hg'
          left; rw [if_pos hX]; decide
        | succ j =>
          simp only [List.getElem?_cons_succ] at hg'
          exact Or.inr ⟨j, g', by omega, hg', hX⟩

theorem forall2_mem_right {α β : Type} {R : α → β → Prop} {l1 : List α} {l2 : List β}
    (h : List.Forall₂ R l1 l2) : ∀ b ∈ l2, ∃ a ∈ l1, R a b := by
  induction h with
  | nil => intro b hb; simp at hb
  | cons hab _ ih =>
    intro b hb
    rcases List.mem_cons.mp hb with rfl | hb
    · exact ⟨_, List.mem_cons_self _ _, hab⟩
    · obtain ⟨a, ha, hR⟩ := ih b hb
      exact ⟨a, List.mem_cons_of_mem _ ha, hR⟩

/-- C11: queue construction.  A command line the parser returns from, with `k`
occurrences of `-n`/`--new`, gives a queue of exactly `k + 1` requests, one for each group
of options in command-line order; in each request `freq`, `length`, `reps`, `delay`, the
delay-after-last flag and the stdin mode are the last values given in its own group, and
a field the group does not give has its default (440 Hz, 200 ms, 1 repetition, 100 ms, no
delay after the last repetition); no request leaves the parser with `freq = 0`. -/
theorem queue_built_by_groups (opts : List Opt) (q : List beep_parms_t)
    (h : main_queue opts = .ok q) :
    q.length = opts.count Opt.n + 1
    ∧ List.Forall₂ FromGroup (groups opts) q
    ∧ ∀ p ∈ q, p.freq ≠ CFloat.finite 0 := by
  have hq : q = group_queue main_node (groups opts) := by
    have := parse_eq_group_queue opts [] main_node q h
    simpa using this
  have hacc : ∀ g ∈ groups opts, ∀ o ∈ g, Accepted o := fun g hg o ho =>
    parse_accepted opts [] main_node q h o (mem_groups opts g hg o ho).1
  have hF := group_queue_fromGroup (groups opts) main_node ⟨rfl, rfl, rfl, rfl, rfl, rfl⟩ hacc
  rw [← hq] at hF
  refine ⟨?_, ?_, ?_⟩
  · rw [← groups_length, hF.length_eq]
  · exact hF.imp (fun _ _ hab => hab.1)
  · intro p hp
    obtain ⟨g, _, hgp⟩ := forall2_mem_right hF p hp
    exact hgp.2

/-- C18: `verbose` propagates forward only.  In the queue of a command line the parser
returns from, the request of index `i` has `verbose` set exactly when a
`--verbose`/`--debug` stands in its own group or in an earlier group; when none stands
in the groups up to its own, `verbose` is 0 whatever the later groups hold. -/
theorem verbose_propagates_forward (opts : List Opt) (q : List beep_parms_t)
    (h : main_queue opts = .ok q) :
    (∀ (i : ℕ) (p : beep_parms_t), q[i]? = some p →
      (p.verbose ≠ 0 ↔ ∃ (j : ℕ) (g : List Opt),
        j ≤ i ∧ (groups opts)[j]? = some g ∧ Opt.X ∈ g))
    ∧ (∀ (i : ℕ) (p : beep_parms_t), q[i]? = some p →
      (∀ (j : ℕ) (g : List Opt), j ≤ i → (groups opts)[j]? = some g → Opt.X ∉ g) →
      p.verbose = 0) := by
  have hq : q = group_queue main_node (groups opts) := by
    have := parse_eq_group_queue opts [] main_node q h
    simpa using this
  have key : ∀ (i : ℕ) (p : beep_parms_t), q[i]? = some p →
      (p.verbose ≠ 0 ↔ ∃ (j : ℕ) (g : List Opt),
        j ≤ i ∧ (groups opts)[j]? = some g ∧ Opt.X ∈ g) := by
    intro i p hp
    rw [hq] at hp
    have := group_queue_verbose (groups opts) main_node i p hp
    rw [this]
    constructor
    · rintro (hb | hex)
      · exact absurd rfl hb
      · exact hex
    · exact Or.inr
  refine ⟨key, ?_⟩
  intro i p hp hnone
  by_contra hne
  obtain ⟨j, g, hj, hg, hX⟩ := (key i p hp).mp hne
  exact hnone j g hj hg hX

/-- C11, at `beep -f 440 -l 50 -n --verbose -r 2 -D 30 -n -c`: two `-n`, three groups,
three requests. -/
theorem queue_built_by_groups_witness :
    main_queue cmd_three = .ok queue_three
    ∧ groups cmd_three = [[.f (.num 440), .l (some 50)], [.X, .r (some 2), .D (some 30)], [.c]]
    ∧ queue_three.length = cmd_three.count Opt.n + 1
    ∧ List.Forall₂ FromGroup (groups cmd_three) queue_three
    ∧ ∀ p ∈ queue_three, p.freq ≠ CFloat.finite 0 :=
  ⟨rfl, by decide, queue_built_by_groups cmd_three queue_three rfl⟩

/-- C18, at `beep -f 440 -l 50 -n --verbose -r 2 -D 30 -n -c`: the `--verbose` of the
second group sets `verbose` on the second and third request, not on the first. -/
theorem verbose_propagates_forward_witness :
    main_queue cmd_three = .ok queue_three
    ∧ queue_three.map (fun p => p.verbose) = [0, 1, 1]
    ∧ (∀ (i : ℕ) (p : beep_parms_t), queue_three[i]? = some p →
      (p.verbose ≠ 0 ↔ ∃ (j : ℕ) (g : List Opt),
        j ≤ i ∧ (groups cmd_three)[j]? = some g ∧ Opt.X ∈ g))
    ∧ (∀ (i : ℕ) (p : beep_parms_t), queue_three[i]? = some p →
      (∀ (j : ℕ) (g : List Opt), j ≤ i → (groups cmd_three)[j]? = some g → Opt.X ∉ g) →
      p.verbose = 0) :=
  ⟨rfl, by decide, verbose_propagates_forward cmd_three queue_three rfl⟩

/-! ## Invariants of the globals along a playback -/

theorem frames_invariant (I : Engine → CFloat → Prop) (D : ℚ) (sinf : ℚ → ℚ)
    (hstep : ∀ g s, I g s → I (frame D sinf g s).after (frame D sinf g s).sample) :
    ∀ (n : ℕ) (g : Engine) (s : CFloat), I g s →
      (∀ r ∈ frames D sinf n g s, ∃ g1 s1, I g1 s1 ∧ r = frame D sinf g1 s1)
      ∧ I (lastEngine g (frames D sinf n g s)) (lastSample s (frames D sinf n g s))
  | 0, g, s, h => ⟨by simp [frames], h⟩
  | n + 1, g, s, h => by
    obtain ⟨ih1, ih2⟩ := frames_invariant I D sinf hstep n _ _ (hstep g s h)
    simp only [frames, lastEngine_cons, lastSample_cons]
    refine ⟨?_, ih2⟩
    intro r hr
    rcases List.mem_cons.mp hr with rfl | hr
    · exact ⟨g, s, h, rfl⟩
    · exact ih1 r hr

theorem write_loop_invariant (I : Engine → CFloat → Prop) (D : ℚ) (sinf : ℚ → ℚ)
    (hstep : ∀ g s, I g s → I (frame D sinf g s).after (frame D sinf g s).sample)
    (hcall : ∀ g s, I g s → I g (CFloat.finite 0)) :
    ∀ (grants : List ℕ) (frames_left : Int) (g : Engine) (s : CFloat), I g s →
      (∀ r ∈ write_loop D sinf grants frames_left g s, ∃ g1 s1, I g1 s1 ∧ r = frame D sinf g1 s1)
      ∧ I (lastEngine g (write_loop D sinf grants frames_left g s)) (CFloat.finite 0)
  | [], _, g, s, h => ⟨by simp [write_loop], hcall g s h⟩
  | grant :: grants, frames_left, g, s, h => by
    unfold write_loop
    by_cases h1 : frames_left > 0
    · rw [if_pos h1]
      by_cases h2 : min frames_left.toNat grant = 0
      · simp only [h2, if_true]
        exact ⟨by simp, hcall g s h⟩
      · simp only [h2, if_false]
        obtain ⟨f1, f2⟩ := frames_invariant I D sinf hstep (min frames_left.toNat grant) g s h
        by_cases h3 : (lastEngine g (frames D sinf (min frames_left.toNat grant) g s)).parms = []
        · rw [if_pos h3]; exact ⟨f1, hcall _ _ f2⟩
        · rw [if_neg h3]
          obtain ⟨w1, w2⟩ := write_loop_invariant I D sinf hstep hcall grants
            (frames_left - (min frames_left.toNat grant : ℕ)) _ _ f2
          refine ⟨?_, by rw [lastEngine_append]; exact w2⟩
          intro r hr
          rcases List.mem_append.mp hr with hr | hr
          · exact f1 r hr
          · exact w1 r hr
    · rw [if_neg h1]
      exact ⟨by simp, hcall g s h⟩

/-- Induction along a playback: a property of the globals and the local `sample` that
every frame keeps, and that survives the restart of `sample` at `0.0f`, holds before
every frame of every playback that starts with it. -/
theorem playback_invariant (I : Engine → CFloat → Prop) (D : ℚ) (sinf : ℚ → ℚ)
    (hstep : ∀ g s, I g s → I (frame D sinf g s).after (frame D sinf g s).sample)
    (hcall : ∀ g s, I g s → I g (CFloat.finite 0)) :
    ∀ (calls : List (Int × List ℕ)) (g : Engine), I g (CFloat.finite 0) →
      ∀ r ∈ playback D sinf calls g, ∃ g1 s1, I g1 s1 ∧ r = frame D sinf g1 s1
  | [], _, _ => by simp [playback]
  | call :: calls, g, h => by
    obtain ⟨w1, w2⟩ := write_loop_invariant I D sinf hstep hcall call.2 call.1 g _ h
    have ih := playback_invariant I D sinf hstep hcall calls _ w2
    intro r hr
    simp only [playback, write_callback] at hr
    rcases List.mem_append.mp hr with hr | hr
    · exact w1 r hr
    · exact ih r hr

/-! ## The accumulator stays positive -/

theorem frames_head (D : ℚ) (sinf : ℚ → ℚ) (n : ℕ) (g : Engine) (s : CFloat)
    (r : FrameRecord) (h : (frames D sinf n g s).head? = some r) : r = frame D sinf g s := by
  cases n with
  | zero => simp [frames] at h
  | succ n =>
    simp only [frames, List.head?_cons, Option.some.injEq] at h
    exact h.symm

theorem write_loop_head (D : ℚ) (sinf : ℚ → ℚ) (grants : List ℕ) (frames_left : Int)
    (g : Engine) (s : CFloat) (r : FrameRecord)
    (h : (write_loop D sinf grants frames_left g s).head? = some r) :
    r = frame D sinf g s := by
  cases grants with
  | nil => simp [write_loop] at h
  | cons grant grants =>
    unfold write_loop at h
    by_cases h1 : frames_left > 0
    · rw [if_pos h1] at h
      by_cases h2 : min frames_left.toNat grant = 0
      · simp [h2] at h
      · simp only [h2, if_false] at h
        have hne : frames D sinf (min frames_left.toNat grant) g s ≠ [] := by
          intro hnil
          have := congrArg List.length hnil
          rw [frames_length] at this
          exact h2 this
        refine frames_head D sinf (min frames_left.toNat grant) g s r ?_
        by_cases h3 : (lastEngine g (frames D sinf (min frames_left.toNat grant) g s)).parms = []
        · rw [if_pos h3] at h; exact h
        · rw [if_neg h3] at h
          cases hfr : frames D sinf (min frames_left.toNat grant) g s with
          | nil => exact absurd hfr hne
          | cons x l =>
            rw [hfr] at h
            simpa using h
    · simp [h1] at h

/-- The first frame of an invocation runs with the local `sample` at `0.0f`. -/
theorem write_callback_head (D : ℚ) (sinf : ℚ → ℚ) (frame_count_max : Int) (grants : List ℕ)
    (g : Engine) (r : FrameRecord)
    (h : (write_callback D sinf frame_count_max grants g).head? = some r) :
    r = frame D sinf g (CFloat.finite 0) :=
  write_loop_head D sinf grants frame_count_max g (CFloat.finite 0) r h

/-- When the frame crosses a boundary, the smoothing stores the local `sample` as the
phase if it is a number below `0.1`, whatever its sign. -/
theorem advance_snap (D : ℚ) (g : Engine) (p : beep_parms_t) (next : List beep_parms_t)
    (x : ℚ) (hg : g.parms = p :: next) (hcross : g.ms_offset + D > offset p)
    (hx : x < 0.1) :
    (advance D g (CFloat.finite x)).boundary = some (offset p)
    ∧ (advance D g (CFloat.finite x)).after.rad_offset = CFloat.finite x := by
  rcases g with ⟨parms, ms, rad⟩
  simp only at hg hcross
  subst hg
  have hlt : (CFloat.finite x).lt (CFloat.finite 0.1) = true := by
    simp [CFloat.lt, hx]
  simp only [advance, if_pos hcross, if_pos hlt]
  split_ifs <;> exact ⟨rfl, rfl⟩

/-- When the frame crosses a boundary with a local `sample` of at least `0.1`, the phase
is advanced by the cycle and wrapped. -/
theorem advance_extend (D : ℚ) (g : Engine) (p : beep_parms_t) (next : List beep_parms_t)
    (x : ℚ) (hg : g.parms = p :: next) (hcross : g.ms_offset + D > offset p)
    (hx : 0.1 ≤ x) :
    (advance D g (CFloat.finite x)).boundary = some (offset p)
    ∧ (advance D g (CFloat.finite x)).after.rad_offset
      = CFloat.fmod (g.rad_offset + CFloat.finite (offset p) * radians_per_ms p)
          (CFloat.finite (2 * PI)) := by
  rcases g with ⟨parms, ms, rad⟩
  simp only at hg hcross
  subst hg
  have hlt : ¬ (CFloat.finite x).lt (CFloat.finite 0.1) = true := by
    simp [CFloat.lt, hx]
  simp only [advance, if_pos hcross, if_neg hlt]
  split_ifs <;> exact ⟨rfl, rfl⟩

theorem frame_boundary_iff (D : ℚ) (sinf : ℚ → ℚ) (g : Engine) (s : CFloat)
    (h : (frame D sinf g s).boundary ≠ none) :
    ∃ p next, g.parms = p :: next ∧ g.ms_offset + D > offset p := by
  rcases g with ⟨parms, ms, rad⟩
  cases parms with
  | nil => simp [frame, advance] at h
  | cons p next =>
    refine ⟨p, next, rfl, ?_⟩
    by_contra hb
    simp [frame, advance, hb] at h

/-- C17: the smoothing decision reads the local `sample`, which is `0.0f` on the first
frame of every invocation.  Whatever the globals before the invocation (so whatever the
sample the previous invocation wrote last, and whatever `rad_offset` was), the first
frame of an invocation runs with `sample = 0` (`write_callback_head`); if it crosses a
repetition boundary, the test `sample < 0.1` holds, the snap branch runs, and
`rad_offset` is exactly 0 after the frame. -/
theorem first_frame_boundary_zeroes_phase (D : ℚ) (sinf : ℚ → ℚ) (frame_count_max : Int)
    (grants : List ℕ) (g : Engine) (r : FrameRecord)
    (hfirst : (write_callback D sinf frame_count_max grants g).head? = some r)
    (hb : r.boundary ≠ none) :
    r.after.rad_offset = CFloat.finite 0 := by
  have hr := write_callback_head D sinf frame_count_max grants g r hfirst
  subst hr
  obtain ⟨p, next, hg, hcross⟩ := frame_boundary_iff D sinf g _ hb
  exact (advance_snap D g p next 0 hg hcross (by norm_num)).2

/-- C17, at the request of `beep --verbose -f 880 -l 100 -r 3 -d 50` with a frame period
of 20 ms.  Played in invocations of 7 and 4 frames, frame 8 is the first of its
invocation and crosses the boundary at 150 ms: the phase is 0 after it, although frame 7
wrote `-6859/8000`; in one invocation of 11 frames the same boundary stores that sample
as the phase.  The theorem is applied to globals with 140 ms accumulated and a phase
of 2. -/
theorem first_frame_boundary_zeroes_phase_witness :
    (playback 20 sinf_cubic [(7, [7]), (4, [4])] (Engine.init [beep_v3])).map
        (fun r => (r.boundary, r.sample, r.after.rad_offset))
      = [(none, CFloat.finite (-1), CFloat.finite 0), (none, CFloat.finite (-1), CFloat.finite 0),
          (none, CFloat.finite (-1), CFloat.finite 0), (none, CFloat.finite (-1), CFloat.finite 0),
          (none, CFloat.finite (-19 / 20), CFloat.finite 0),
          (none, CFloat.finite (-361 / 400), CFloat.finite 0),
          (none, CFloat.finite (-6859 / 8000), CFloat.finite 0),
          (some 150, CFloat.finite (-1), CFloat.finite 0),
          (none, CFloat.finite (-1), CFloat.finite 0), (none, CFloat.finite (-1), CFloat.finite 0),
          (none, CFloat.finite (-1), CFloat.finite 0)]
    ∧ (lastEngine (Engine.init [beep_v3])
        (playback 20 sinf_cubic [(11, [11])] (Engine.init [beep_v3]))).rad_offset
      = CFloat.finite (-6859 / 8000)
    ∧ (frame 20 sinf_cubic
        { parms := [beep_v3], ms_offset := 140, rad_offset := CFloat.finite 2 }
        (CFloat.finite 0)).boundary = some 150
    ∧ (frame 20 sinf_cubic
        { parms := [beep_v3], ms_offset := 140, rad_offset := CFloat.finite 2 }
        (CFloat.finite 0)).after.rad_offset = CFloat.finite 0 :=
  ⟨by decide!, by decide!, by decide!,
    first_frame_boundary_zeroes_phase 20 sinf_cubic 4 [4]
      { parms := [beep_v3], ms_offset := 140, rad_offset := CFloat.finite 2 }
      (frame 20 sinf_cubic
        { parms := [beep_v3], ms_offset := 140, rad_offset := CFloat.finite 2 }
        (CFloat.finite 0))
      (by decide!) (by decide!)⟩

theorem PI_pos : (0 : ℚ) < PI := by norm_num [PI]

theorem one_lt_two_PI : (1 : ℚ) < 2 * PI := by norm_num [PI]

/-- The wrap of line 199 is the argument less a whole number of periods `2 * PI`. -/
theorem fmod_two_PI (x : ℚ) :
    CFloat.fmod (CFloat.finite x) (CFloat.finite (2 * PI))
      = CFloat.finite (x - (CFloat.trunc (x / (2 * PI)) : ℚ) * (2 * PI)) := by
  simp only [CFloat.fmod, if_neg two_PI_ne_zero]
  congr 1; ring

/-- The wrap keeps a phase that is at least `-1` in the range `[-1, 2 * PI)`. -/
theorem fmod_two_PI_range (x : ℚ) (hx : -1 ≤ x) :
    -1 ≤ x - (CFloat.trunc (x / (2 * PI)) : ℚ) * (2 * PI)
    ∧ x - (CFloat.trunc (x / (2 * PI)) : ℚ) * (2 * PI) < 2 * PI := by
  have hT : (0 : ℚ) < 2 * PI := by linarith [one_lt_two_PI]
  unfold CFloat.trunc
  by_cases h0 : 0 ≤ x / (2 * PI)
  · rw [if_pos h0]
    have h1 := Int.floor_le (x / (2 * PI))
    have h2 := Int.lt_floor_add_one (x / (2 * PI))
    rw [le_div_iff₀ hT] at h1
    rw [div_lt_iff₀ hT] at h2
    constructor <;> linarith
  · rw [if_neg h0]
    have hneg : x / (2 * PI) < 0 := not_le.mp h0
    have hx0 : x < 0 := by
      by_contra hge
      exact h0 (div_nonneg (not_lt.mp hge) (le_of_lt hT))
    have hgt : -1 < x / (2 * PI) := by
      rw [lt_div_iff₀ hT]
      linarith [one_lt_two_PI]
    have hceil : ⌈x / (2 * PI)⌉ = 0 := by
      rw [Int.ceil_eq_zero_iff]
      exact ⟨hgt, le_of_lt hneg⟩
    rw [hceil]
    constructor <;> simp <;> linarith

theorem tick_parms_fields (D : ℚ) (q : List beep_parms_t) (ms : ℚ) :
    ∀ x ∈ (tick D q ms).parms, ∃ y ∈ q, x.freq = y.freq ∧ x.length = y.length
      ∧ x.delay = y.delay := by
  intro x hx
  cases q with
  | nil => simp [tick] at hx
  | cons p next =>
    simp only [tick] at hx
    by_cases h1 : ms + D > offset p
    · rw [if_pos h1] at hx
      by_cases h2 : p.reps - 1 = 0
      · rw [if_pos h2] at hx
        exact ⟨x, List.mem_cons_of_mem _ hx, rfl, rfl, rfl⟩
      · rw [if_neg h2] at hx
        rcases List.mem_cons.mp hx with rfl | hx
        · exact ⟨p, List.mem_cons_self _ _, rfl, rfl, rfl⟩
        · exact ⟨x, List.mem_cons_of_mem _ hx, rfl, rfl, rfl⟩
    · rw [if_neg h1] at hx
      exact ⟨x, hx, rfl, rfl, rfl⟩

theorem playable_after (D : ℚ) (sinf : ℚ → ℚ) (g : Engine) (s : CFloat)
    (h : ∀ p ∈ g.parms, Playable p) : ∀ p ∈ (frame D sinf g s).after.parms, Playable p := by
  intro x hx
  rw [frame_after_parms] at hx
  obtain ⟨y, hy, hf, hl, hd⟩ := tick_parms_fields D g.parms g.ms_offset x hx
  obtain ⟨⟨f, hyf, h0, h1⟩, hyl, hyd⟩ := h y hy
  exact ⟨⟨f, by rw [hf, hyf], h0, h1⟩, by rw [hl]; exact hyl, by rw [hd]; exact hyd⟩

theorem offset_nonneg (p : beep_parms_t) (h : Playable p) : 0 ≤ offset p := by
  obtain ⟨_, hl, hd⟩ := h
  unfold offset
  split_ifs
  · exact_mod_cast add_nonneg hl hd
  · simpa using hl

theorem advance_idle (D : ℚ) (g : Engine) (s : CFloat)
    (h : ∀ p next, g.parms = p :: next → ¬ (g.ms_offset + D > offset p)) :
    (advance D g s).after.rad_offset = g.rad_offset := by
  rcases g with ⟨parms, ms, rad⟩
  cases parms with
  | nil => rfl
  | cons p next =>
    simp only [advance, if_neg (h p next rfl)]

/-- Lines 183-213 keep the phase in `[-1, 2 * PI)` when the queue is playable and the
local `sample` is a number of magnitude at most 1. -/
theorem advance_phase (D : ℚ) (g : Engine) (s : CFloat) (hq : ∀ p ∈ g.parms, Playable p)
    (hr : PhaseInRange g) (hs : IsNum (fun x => |x| ≤ 1) s) :
    PhaseInRange (advance D g s).after := by
  obtain ⟨y, hy, hy1⟩ := hs
  obtain ⟨x, hx, hx1, hx2⟩ := hr
  by_cases hb : ∃ p next, g.parms = p :: next ∧ g.ms_offset + D > offset p
  · obtain ⟨p, next, hg, hcross⟩ := hb
    have hp : Playable p := hq p (by rw [hg]; exact List.mem_cons_self _ _)
    obtain ⟨f, hf, hf0, _⟩ := hp.1
    subst hy
    by_cases hlt : y < 0.1
    · refine ⟨y, (advance_snap D g p next y hg hcross hlt).2, (abs_le.mp hy1).1, ?_⟩
      have := one_lt_two_PI
      linarith
    · have he := (advance_extend D g p next y hg hcross (not_lt.mp hlt)).2
      rw [hx, radians_finite p f hf, CFloat.finite_mul, CFloat.finite_add, fmod_two_PI] at he
      have hw : 0 ≤ offset p * (f * 2 * PI / 1000) :=
        mul_nonneg (offset_nonneg p hp)
          (div_nonneg (mul_nonneg (mul_nonneg (le_of_lt hf0) (by norm_num)) (le_of_lt PI_pos))
            (by norm_num))
      obtain ⟨b1, b2⟩ := fmod_two_PI_range (x + offset p * (f * 2 * PI / 1000)) (by linarith)
      exact ⟨_, he, b1, b2⟩
  · have hidle := advance_idle D g s (fun p next hg hc => hb ⟨p, next, hg, hc⟩)
    exact ⟨x, by rw [hidle]; exact hx, hx1, hx2⟩

/-- C13, amended: the phase accumulator stays in `[-1, 2 * PI)`.  For a library sine with
values in `[-1, 1]` and a queue of requests with valid frequency and non-negative
`length` and `delay`, from program start, after every frame of every playback
`rad_offset` is a number that is at least `-1` and below `2 * PI`.  It is below `2 * PI`
because the wrap of line 199 and the stored sample both are; it is not always
non-negative, because the snap branch stores the last sample as it is. -/
theorem phase_stays_in_range (D : ℚ) (sinf : ℚ → ℚ) (q : List beep_parms_t)
    (calls : List (Int × List ℕ)) (hsin : ∀ x, |sinf x| ≤ 1) (hq : ∀ p ∈ q, Playable p) :
    ∀ r ∈ playback D sinf calls (Engine.init q),
      ∃ x : ℚ, r.after.rad_offset = CFloat.finite x ∧ -1 ≤ x ∧ x < 2 * PI := by
  have hdec : ∀ x : ℚ, |x| ≤ 1 → |x * 0.95| ≤ 1 := by
    intro x hx
    rw [abs_mul, abs_of_pos (show (0 : ℚ) < 0.95 by norm_num)]
    nlinarith [abs_nonneg x]
  have hnum : ∀ g : Engine, (∀ p ∈ g.parms, Playable p) → PhaseInRange g → Numeric g :=
    fun g h1 h2 => ⟨fun p hp => let ⟨f, hf, _⟩ := (h1 p hp).1; ⟨f, hf⟩,
      let ⟨x, hx, _⟩ := h2; ⟨x, hx⟩⟩
  have hinv := playback_invariant
    (fun g s => (∀ p ∈ g.parms, Playable p) ∧ PhaseInRange g ∧ IsNum (fun x => |x| ≤ 1) s)
    D sinf
    (fun g s h => by
      have h1 := playable_after D sinf g s h.1
      have h2 : PhaseInRange (frame D sinf g s).after := advance_phase D g s h.1 h.2.1 h.2.2
      exact ⟨h1, h2, emit_isNum _ sinf hsin hdec _ s (hnum _ h1 h2) h.2.2⟩)
    (fun g s h => ⟨h.1, h.2.1, 0, rfl, by simp⟩)
    calls (Engine.init q)
    ⟨hq, ⟨0, rfl, by norm_num, by linarith [one_lt_two_PI]⟩, 0, rfl, by simp⟩
  intro r hr
  obtain ⟨g1, s1, h1, rfl⟩ := hinv r hr
  exact advance_phase D g1 s1 h1.1 h1.2.1 h1.2.2

/-- C12: the snap branch is taken for every sample below `0.1`, the negative ones of
large magnitude included.  Line 193 tests `sample < 0.1`, not `|sample| < 0.1`: at a
boundary with a last sample `x ≤ -0.1` the phase becomes `x` instead of being advanced
by the cycle and wrapped.  For `beep -l 100 -d 0 -r 2` with a frame period of 50 ms, the
boundary of frame 3 is crossed with a last sample of `-19/20`: the phase becomes
`-19/20`, where advancing by the cycle and wrapping gives `0`. -/
theorem snap_taken_for_negative_samples :
    (∀ (D : ℚ) (g : Engine) (p : beep_parms_t) (next : List beep_parms_t) (x : ℚ),
        g.parms = p :: next → g.ms_offset + D > offset p → x ≤ -0.1 →
        (advance D g (CFloat.finite x)).boundary = some (offset p)
        ∧ (advance D g (CFloat.finite x)).after.rad_offset = CFloat.finite x)
    ∧ main_queue [.l (some 100), .d (some 0), .r (some 2)] = .ok [beep_l100_d0]
    ∧ (playback 50 sinf_cubic [(3, [3])] (Engine.init [beep_l100_d0])).map
        (fun r => r.boundary) = [none, none, some 100]
    ∧ samples (playback 50 sinf_cubic [(3, [3])] (Engine.init [beep_l100_d0]))
        = [CFloat.finite (-1), CFloat.finite (-19 / 20), CFloat.finite (-1)]
    ∧ (playback 50 sinf_cubic [(3, [3])] (Engine.init [beep_l100_d0])).map
        (fun r => r.after.rad_offset)
        = [CFloat.finite 0, CFloat.finite 0, CFloat.finite (-19 / 20)]
    ∧ CFloat.fmod (CFloat.finite 0 + CFloat.finite (offset beep_l100_d0)
          * radians_per_ms beep_l100_d0) (CFloat.finite (2 * PI)) = CFloat.finite 0 := by
  refine ⟨?_, rfl, by decide!, by decide!, by decide!, by decide!⟩
  intro D g p next x hg hcross hx
  exact advance_snap D g p next x hg hcross (by linarith [show (-0.1 : ℚ) < 0.1 by norm_num])

/-- C13 as stated fails: for `beep -l 100 -d 3000 -r 2`, a valid queue, with a frame
period of 50 ms, the boundary of frame 63 is crossed with a last sample that has decayed
to a small negative value (the tone ended on `-1`); the snap branch stores it, and
`rad_offset` is negative after the frame (between `-0.1` and `0`). -/
theorem phase_negative_after_snap :
    main_queue [.l (some 100), .d (some 3000), .r (some 2)] = .ok [beep_l100_d3000]
    ∧ Validated beep_l100_d3000
    ∧ boundaries (playback 50 sinf_cubic [(63, [63])] (Engine.init [beep_l100_d3000]))
        = [3100]
    ∧ (lastEngine (Engine.init [beep_l100_d3000])
        (playback 50 sinf_cubic [(63, [63])] (Engine.init [beep_l100_d3000]))).rad_offset
        = CFloat.finite (-((19 : ℚ) / 20) ^ 61)
    ∧ (CFloat.finite (-((19 : ℚ) / 20) ^ 61)).lt (CFloat.finite 0) = true
    ∧ (CFloat.finite (-0.1)).lt (CFloat.finite (-((19 : ℚ) / 20) ^ 61)) = true := by
  refine ⟨rfl, ⟨⟨440, rfl, by norm_num, by norm_num⟩, by decide, by decide, by decide⟩,
    by decide!, by decide!, by decide!, by decide!⟩

/-- C13 amended, at the queue of `beep -l 100 -d 3000 -r 2` with the clamped cubic for
`sinf` and a frame period of 50 ms. -/
theorem phase_stays_in_range_witness :
    (playback 50 sinf_cubic [(63, [63])] (Engine.init [beep_l100_d3000])).length = 63
    ∧ ∀ r ∈ playback 50 sinf_cubic [(63, [63])] (Engine.init [beep_l100_d3000]),
        ∃ x : ℚ, r.after.rad_offset = CFloat.finite x ∧ -1 ≤ x ∧ x < 2 * PI :=
  ⟨by decide!, phase_stays_in_range 50 sinf_cubic [beep_l100_d3000] [(63, [63])]
    sinf_cubic_bound
    (by
      intro p hp
      rw [List.mem_singleton] at hp
      subst hp
      exact ⟨⟨440, rfl, by norm_num, by norm_num⟩, by decide, by decide⟩)⟩

/-! ## Decay inside an invocation -/

theorem pow2_eq (e : ℤ) : pow2 e = (2 : ℚ) ^ e := by
  unfold pow2
  split_ifs with h
  · have : e = (e.toNat : ℤ) := (Int.toNat_of_nonneg h).symm
    conv_rhs => rw [this]
    rw [zpow_natCast]; push_cast; rfl
  · have h' : 0 ≤ -e := by omega
    have : e = -((-e).toNat : ℤ) := by rw [Int.toNat_of_nonneg h']; ring
    conv_rhs => rw [this]
    rw [zpow_neg, zpow_natCast]; push_cast; rw [one_div]

theorem pow2_pos (e : ℤ) : 0 < pow2 e := by
  rw [pow2_eq]; positivity

theorem bits_zero (fuel : ℕ) : bits fuel 0 = 0 := by
  cases fuel <;> simp [bits]

theorem bits_spec : ∀ (fuel n : ℕ), n ≤ fuel → 1 ≤ n →
    2 ^ (bits fuel n - 1) ≤ n ∧ n < 2 ^ bits fuel n ∧ 1 ≤ bits fuel n
  | 0, n, h, h1 => by omega
  | fuel + 1, n, h, h1 => by
    have hn : n ≠ 0 := by omega
    simp only [bits, if_neg hn, Nat.add_sub_cancel]
    by_cases h2 : n / 2 = 0
    · have : n = 1 := by omega
      subst this
      simp [bits_zero]
    · obtain ⟨ih1, ih2, ih3⟩ := bits_spec fuel (n / 2) (by omega) (by omega)
      refine ⟨?_, ?_, by omega⟩
      · have : bits fuel (n / 2) = (bits fuel (n / 2) - 1) + 1 := by omega
        rw [this, pow_succ]
        omega
      · rw [pow_succ]
        omega

theorem ilog2_spec (x : ℚ) (hx : 0 < x) :
    (2 : ℚ) ^ ilog2 x ≤ x ∧ x < (2 : ℚ) ^ (ilog2 x + 1) := by
  have hnum : 0 < x.num := Rat.num_pos.mpr hx
  have hn1 : 1 ≤ x.num.natAbs := by omega
  have hd1 : 1 ≤ x.den := x.den_pos
  obtain ⟨a1, a2, a3⟩ := bits_spec x.num.natAbs x.num.natAbs le_rfl hn1
  obtain ⟨b1, b2, b3⟩ := bits_spec x.den x.den le_rfl hd1
  set A := bits x.num.natAbs x.num.natAbs with hA
  set B := bits x.den x.den with hB
  have hxeq : x = (x.num.natAbs : ℚ) / (x.den : ℚ) := by
    have hc : (x.num : ℚ) = (x.num.natAbs : ℚ) := by
      rw [← Int.cast_natCast, Int.natAbs_of_nonneg (le_of_lt hnum)]
    rw [← hc]
    exact (Rat.num_div_den x).symm
  have hdq : (0 : ℚ) < (x.den : ℚ) := by exact_mod_cast hd1
  have a1q : (2 : ℚ) ^ (A - 1) ≤ (x.num.natAbs : ℚ) := by exact_mod_cast a1
  have a2q : (x.num.natAbs : ℚ) < (2 : ℚ) ^ A := by exact_mod_cast a2
  have b1q : (2 : ℚ) ^ (B - 1) ≤ (x.den : ℚ) := by exact_mod_cast b1
  have b2q : (x.den : ℚ) < (2 : ℚ) ^ B := by exact_mod_cast b2
  -- 2^(k-1) < x < 2^(k+1) with k = A - B
  have hlow : (2 : ℚ) ^ ((A : ℤ) - (B : ℤ) - 1) < x := by
    have e : (2 : ℚ) ^ ((A : ℤ) - (B : ℤ) - 1) = (2 : ℚ) ^ (A - 1) / (2 : ℚ) ^ B := by
      rw [eq_div_iff (by positivity), ← zpow_natCast, ← zpow_natCast, ← zpow_add₀ (by norm_num)]
      congr 1
      push_cast [Nat.cast_sub a3]
      ring
    rw [e, hxeq, div_lt_div_iff₀ (by positivity) hdq]
    calc (2 : ℚ) ^ (A - 1) * (x.den : ℚ) < (2 : ℚ) ^ (A - 1) * (2 : ℚ) ^ B := by
          apply mul_lt_mul_of_pos_left b2q (by positivity)
      _ ≤ (x.num.natAbs : ℚ) * (2 : ℚ) ^ B := by
          apply mul_le_mul_of_nonneg_right a1q (by positivity)
  have hup : x < (2 : ℚ) ^ ((A : ℤ) - (B : ℤ) + 1) := by
    have e : (2 : ℚ) ^ ((A : ℤ) - (B : ℤ) + 1) = (2 : ℚ) ^ A / (2 : ℚ) ^ (B - 1) := by
      rw [eq_div_iff (by positivity), ← zpow_natCast, ← zpow_natCast, ← zpow_add₀ (by norm_num)]
      congr 1
      push_cast [Nat.cast_sub b3]
      ring
    rw [e, hxeq, div_lt_div_iff₀ hdq (by positivity)]
    calc (x.num.natAbs : ℚ) * (2 : ℚ) ^ (B - 1) < (2 : ℚ) ^ A * (2 : ℚ) ^ (B - 1) := by
          apply mul_lt_mul_of_pos_right a2q (by positivity)
      _ ≤ (2 : ℚ) ^ A * (x.den : ℚ) := by
          apply mul_le_mul_of_nonneg_left b1q (by positivity)
  unfold ilog2
  simp only
  rw [← hA, ← hB, pow2_eq]
  split_ifs with h
  · exact ⟨h, hup⟩
  · refine ⟨le_of_lt hlow, ?_⟩
    have : (A : ℤ) - (B : ℤ) - 1 + 1 = (A : ℤ) - (B : ℤ) := by ring
    rw [this]
    exact not_le.mp h

theorem ilog2_mono (x y : ℚ) (hx : 0 < x) (h : x ≤ y) : ilog2 x ≤ ilog2 y := by
  obtain ⟨s1, _⟩ := ilog2_spec x hx
  obtain ⟨_, t2⟩ := ilog2_spec y (lt_of_lt_of_le hx h)
  have two : (1 : ℚ) < 2 := by norm_num
  have : ilog2 x < ilog2 y + 1 :=
    (zpow_lt_zpow_iff_right₀ two).mp (lt_of_le_of_lt (le_trans s1 h) t2)
  omega

theorem round_even_cases (z : ℚ) : round_even z = ⌊z⌋ ∨ round_even z = ⌊z⌋ + 1 := by
  unfold round_even
  split_ifs <;> simp

theorem round_even_int (n : ℤ) : round_even (n : ℚ) = n := by
  unfold round_even
  simp

theorem le_round_even (z : ℚ) (n : ℤ) (h : (n : ℚ) ≤ z) : n ≤ round_even z := by
  have hf : n ≤ ⌊z⌋ := Int.le_floor.mpr h
  rcases round_even_cases z with e | e <;> omega

theorem round_even_le (z : ℚ) (n : ℤ) (h : z ≤ (n : ℚ)) : round_even z ≤ n := by
  have hf : ⌊z⌋ ≤ n := by
    have : (⌊z⌋ : ℚ) ≤ (n : ℚ) := le_trans (Int.floor_le z) h
    exact_mod_cast this
  by_cases hz : z = (n : ℚ)
  · rw [hz, round_even_int]
  · have hlt : z < (n : ℚ) := lt_of_le_of_ne h hz
    have : ⌊z⌋ < n := Int.floor_lt.mpr hlt
    rcases round_even_cases z with e | e <;> omega

theorem round_even_err (z : ℚ) : |(round_even z : ℚ) - z| ≤ 1 / 2 := by
  have h1 := Int.floor_le z
  have h2 := Int.lt_floor_add_one z
  unfold round_even
  split_ifs with a b c
  · rw [abs_le]; constructor <;> linarith
  · rw [abs_le]; push_cast; constructor <;> linarith
  · have : z - ⌊z⌋ = 1 / 2 := le_antisymm (not_lt.mp b) (not_lt.mp a)
    rw [abs_le]; constructor <;> linarith
  · have : z - ⌊z⌋ = 1 / 2 := le_antisymm (not_lt.mp b) (not_lt.mp a)
    rw [abs_le]; push_cast; constructor <;> linarith

theorem round_even_mono (x y : ℚ) (h : x ≤ y) : round_even x ≤ round_even y := by
  have hf : ⌊x⌋ ≤ ⌊y⌋ := Int.floor_mono h
  rcases lt_or_eq_of_le hf with hlt | heq
  · rcases round_even_cases x with e | e <;> rcases round_even_cases y with e' | e' <;> omega
  · have hfr : x - ⌊x⌋ ≤ y - ⌊y⌋ := by rw [heq]; linarith
    unfold round_even
    rw [heq]
    split_ifs <;> first | omega | (exfalso; linarith)

theorem round_even_nonneg (z : ℚ) (h : 0 ≤ z) : 0 ≤ round_even z :=
  le_round_even z 0 (by simpa using h)

theorem two_zpow_pos (e : ℤ) : (0 : ℚ) < (2 : ℚ) ^ e := by positivity

theorem two_zpow_le {a b : ℤ} (h : a ≤ b) : (2 : ℚ) ^ a ≤ (2 : ℚ) ^ b :=
  zpow_le_zpow_right₀ (by norm_num) h

theorem two_zpow_toNat (k : ℤ) (hk : 0 ≤ k) : (((2 : ℤ) ^ k.toNat : ℤ) : ℚ) = (2 : ℚ) ^ k := by
  have : k = (k.toNat : ℤ) := (Int.toNat_of_nonneg hk).symm
  conv_rhs => rw [this]
  rw [zpow_natCast]; push_cast; rfl

theorem ulp_exp_ge_emin (p : ℕ) (emin : ℤ) (x : ℚ) : emin ≤ ulp_exp p emin x :=
  le_max_right _ _

theorem ulp_exp_ge_log (p : ℕ) (emin : ℤ) (x : ℚ) : ilog2 x - ((p : ℤ) - 1) ≤ ulp_exp p emin x :=
  le_max_left _ _

theorem ulp_exp_mono (p : ℕ) (emin : ℤ) (x y : ℚ) (hx : 0 < x) (h : x ≤ y) :
    ulp_exp p emin x ≤ ulp_exp p emin y := by
  unfold ulp_exp
  have := ilog2_mono x y hx h
  exact max_le_max (by omega) le_rfl

theorem round_mag_zero (p : ℕ) (emin : ℤ) : round_mag p emin 0 = 0 := by
  unfold round_mag
  rw [zero_div]
  have : round_even 0 = 0 := by simpa using round_even_int 0
  rw [this]; simp

theorem round_mag_nonneg (p : ℕ) (emin : ℤ) (x : ℚ) (hx : 0 ≤ x) : 0 ≤ round_mag p emin x := by
  unfold round_mag
  have h1 : 0 ≤ x / pow2 (ulp_exp p emin x) := div_nonneg hx (le_of_lt (pow2_pos _))
  have h2 := round_even_nonneg _ h1
  have h3 : (0 : ℚ) ≤ (round_even (x / pow2 (ulp_exp p emin x)) : ℚ) := by exact_mod_cast h2
  exact mul_nonneg h3 (le_of_lt (pow2_pos _))

/-- Scaled to its last place, a positive number is below `2 ^ prec`. -/
theorem scaled_lt (p : ℕ) (emin : ℤ) (x : ℚ) (hx : 0 < x) :
    x / pow2 (ulp_exp p emin x) < (2 : ℚ) ^ (p : ℤ) := by
  rw [pow2_eq, div_lt_iff₀ (two_zpow_pos _), ← zpow_add₀ (by norm_num)]
  have h1 := (ilog2_spec x hx).2
  have h2 := ulp_exp_ge_log p emin x
  exact lt_of_lt_of_le h1 (two_zpow_le (by omega))

theorem round_mag_err (p : ℕ) (emin : ℤ) (x : ℚ) (hx : 0 < x) :
    |round_mag p emin x - x| ≤ x / 2 ^ p + (2 : ℚ) ^ (emin - 1) := by
  set E := ulp_exp p emin x with hE
  have hpos : (0 : ℚ) < (2 : ℚ) ^ E := two_zpow_pos E
  have herr := round_even_err (x / pow2 E)
  have hval : round_mag p emin x - x
      = ((round_even (x / pow2 E) : ℚ) - x / pow2 E) * (2 : ℚ) ^ E := by
    unfold round_mag
    rw [← hE, pow2_eq]
    field_simp
  rw [hval, abs_mul, abs_of_pos hpos]
  have hb : (2 : ℚ) ^ E ≤ 2 * (x / 2 ^ p) + (2 : ℚ) ^ emin := by
    rcases max_cases (ilog2 x - ((p : ℤ) - 1)) emin with ⟨h, _⟩ | ⟨h, _⟩
    · have e1 : E = ilog2 x - ((p : ℤ) - 1) := h
      rw [e1]
      have : (2 : ℚ) ^ (ilog2 x - ((p : ℤ) - 1)) = 2 * ((2 : ℚ) ^ ilog2 x / 2 ^ p) := by
        rw [show ilog2 x - ((p : ℤ) - 1) = ilog2 x + 1 - (p : ℤ) by ring,
          zpow_sub₀ (by norm_num), zpow_add₀ (by norm_num), zpow_natCast]
        ring
      rw [this]
      have h3 := (ilog2_spec x hx).1
      have : (2 : ℚ) ^ ilog2 x / 2 ^ p ≤ x / 2 ^ p :=
        div_le_div_of_nonneg_right h3 (by positivity)
      linarith [two_zpow_pos emin]
    · have e1 : E = emin := h
      rw [e1]
      have : 0 ≤ x / 2 ^ p := by positivity
      linarith
  have hhalf : (2 : ℚ) ^ (emin - 1) = (2 : ℚ) ^ emin / 2 := by
    rw [zpow_sub₀ (by norm_num), zpow_one]
  rw [hhalf]
  calc |(round_even (x / pow2 E) : ℚ) - x / pow2 E| * (2 : ℚ) ^ E
      ≤ 1 / 2 * (2 : ℚ) ^ E := mul_le_mul_of_nonneg_right herr (le_of_lt hpos)
    _ ≤ x / 2 ^ p + (2 : ℚ) ^ emin / 2 := by linarith

theorem round_mag_mono (p : ℕ) (hp : 1 ≤ p) (emin : ℤ) (x y : ℚ) (hx : 0 < x) (h : x ≤ y) :
    round_mag p emin x ≤ round_mag p emin y := by
  have hy : 0 < y := lt_of_lt_of_le hx h
  have hE := ulp_exp_mono p emin x y hx h
  rcases eq_or_lt_of_le hE with heq | hlt
  · unfold round_mag
    rw [heq]
    have h1 : x / pow2 (ulp_exp p emin y) ≤ y / pow2 (ulp_exp p emin y) :=
      div_le_div_of_nonneg_right h (le_of_lt (pow2_pos _))
    have h2 := round_even_mono _ _ h1
    have h3 : (round_even (x / pow2 (ulp_exp p emin y)) : ℚ)
        ≤ (round_even (y / pow2 (ulp_exp p emin y)) : ℚ) := by exact_mod_cast h2
    exact mul_le_mul_of_nonneg_right h3 (le_of_lt (pow2_pos _))
  · -- different last places: a power of two lies between the two results
    set Ex := ulp_exp p emin x with hEx
    set Ey := ulp_exp p emin y with hEy
    have hExmin : emin ≤ Ex := ulp_exp_ge_emin p emin x
    have hExlog : ilog2 x - ((p : ℤ) - 1) ≤ Ex := ulp_exp_ge_log p emin x
    have hEyv : Ey = ilog2 y - ((p : ℤ) - 1) := by
      rcases max_cases (ilog2 y - ((p : ℤ) - 1)) emin with ⟨h1, _⟩ | ⟨h1, _⟩
      · exact h1
      · have : Ey = emin := h1
        omega
    have hpz : (1 : ℤ) ≤ (p : ℤ) := by exact_mod_cast hp
    have hlxy : ilog2 x < ilog2 y := by omega
    have hmid1 : round_mag p emin x ≤ (2 : ℚ) ^ ilog2 y := by
      unfold round_mag
      rw [← hEx]
      have hk : 0 ≤ ilog2 y - Ex := by omega
      have hz : x / pow2 Ex ≤ (((2 : ℤ) ^ (ilog2 y - Ex).toNat : ℤ) : ℚ) := by
        rw [two_zpow_toNat _ hk, pow2_eq, div_le_iff₀ (two_zpow_pos _), ← zpow_add₀ (by norm_num)]
        have := (ilog2_spec x hx).2
        exact le_trans (le_of_lt this) (two_zpow_le (by omega))
      have hr := round_even_le _ _ hz
      have hr' : (round_even (x / pow2 Ex) : ℚ) ≤ (((2 : ℤ) ^ (ilog2 y - Ex).toNat : ℤ) : ℚ) := by
        exact_mod_cast hr
      calc (round_even (x / pow2 Ex) : ℚ) * pow2 Ex
          ≤ (((2 : ℤ) ^ (ilog2 y - Ex).toNat : ℤ) : ℚ) * pow2 Ex :=
            mul_le_mul_of_nonneg_right hr' (le_of_lt (pow2_pos _))
        _ = (2 : ℚ) ^ ilog2 y := by
            rw [two_zpow_toNat _ hk, pow2_eq, ← zpow_add₀ (by norm_num)]
            congr 1; ring
    have hmid2 : (2 : ℚ) ^ ilog2 y ≤ round_mag p emin y := by
      unfold round_mag
      rw [← hEy]
      have hk : 0 ≤ ilog2 y - Ey := by omega
      have hz : (((2 : ℤ) ^ (ilog2 y - Ey).toNat : ℤ) : ℚ) ≤ y / pow2 Ey := by
        rw [two_zpow_toNat _ hk, pow2_eq, le_div_iff₀ (two_zpow_pos _), ← zpow_add₀ (by norm_num)]
        have := (ilog2_spec y hy).1
        exact le_trans (two_zpow_le (by omega)) this
      have hr := le_round_even _ _ hz
      have hr' : (((2 : ℤ) ^ (ilog2 y - Ey).toNat : ℤ) : ℚ) ≤ (round_even (y / pow2 Ey) : ℚ) := by
        exact_mod_cast hr
      calc (2 : ℚ) ^ ilog2 y = (((2 : ℤ) ^ (ilog2 y - Ey).toNat : ℤ) : ℚ) * pow2 Ey := by
            rw [two_zpow_toNat _ hk, pow2_eq, ← zpow_add₀ (by norm_num)]
            congr 1; ring
        _ ≤ (round_even (y / pow2 Ey) : ℚ) * pow2 Ey :=
            mul_le_mul_of_nonneg_right hr' (le_of_lt (pow2_pos _))
    exact le_trans hmid1 hmid2

theorem round_mag_of_rep (p : ℕ) (emin : ℤ) (x : ℚ) (hx : 0 < x)
    (h : Representable p emin x) : round_mag p emin x = x := by
  obtain ⟨m, e, he, hm, rfl⟩ := h
  have h2 : (0 : ℚ) < (2 : ℚ) ^ e := two_zpow_pos e
  have hmpos : 0 < m := by
    have : (0 : ℚ) < (m : ℚ) := by
      by_contra hc
      have : (m : ℚ) ≤ 0 := not_lt.mp hc
      have := mul_nonpos_of_nonpos_of_nonneg this (le_of_lt h2)
      linarith
    exact_mod_cast this
  have hm' : m < 2 ^ p := by rwa [abs_of_pos hmpos] at hm
  set x := (m : ℚ) * (2 : ℚ) ^ e with hxdef
  set E := ulp_exp p emin x with hE
  -- the last place of `x` is at most `e`
  have hlog : ilog2 x < (p : ℤ) + e := by
    have h1 := (ilog2_spec x hx).1
    have h3 : x < (2 : ℚ) ^ ((p : ℤ) + e) := by
      rw [zpow_add₀ (by norm_num), zpow_natCast]
      have : (m : ℚ) < (2 : ℚ) ^ p := by exact_mod_cast hm'
      exact mul_lt_mul_of_pos_right this h2
    exact (zpow_lt_zpow_iff_right₀ (by norm_num : (1 : ℚ) < 2)).mp (lt_of_le_of_lt h1 h3)
  have hEe : E ≤ e := max_le (by omega) he
  have hk : 0 ≤ e - E := by omega
  have hscaled : x / pow2 E = ((m * (2 : ℤ) ^ (e - E).toNat : ℤ) : ℚ) := by
    rw [Int.cast_mul, two_zpow_toNat _ hk, pow2_eq, hxdef, zpow_sub₀ (by norm_num)]
    field_simp
  unfold round_mag
  rw [← hE, hscaled, round_even_int, Int.cast_mul, two_zpow_toNat _ hk, pow2_eq, hxdef,
    zpow_sub₀ (by norm_num)]
  field_simp

theorem round_mag_rep (p : ℕ) (hp : 1 ≤ p) (emin : ℤ) (x : ℚ) (hx : 0 ≤ x) :
    Representable p emin (round_mag p emin x) := by
  rcases eq_or_lt_of_le hx with h0 | hpos
  · rw [← h0, round_mag_zero]
    exact ⟨0, emin, le_rfl, by simp, by simp⟩
  · set E := ulp_exp p emin x with hE
    have hEmin : emin ≤ E := ulp_exp_ge_emin p emin x
    have hr0 : 0 ≤ round_even (x / pow2 E) :=
      round_even_nonneg _ (div_nonneg hx (le_of_lt (pow2_pos _)))
    have hr1 : round_even (x / pow2 E) ≤ (2 : ℤ) ^ p := by
      apply round_even_le
      have := scaled_lt p emin x hpos
      rw [zpow_natCast] at this
      push_cast
      exact le_of_lt this
    rcases lt_or_eq_of_le hr1 with hlt | heq
    · refine ⟨round_even (x / pow2 E), E, hEmin, ?_, ?_⟩
      · rw [abs_of_nonneg hr0]; exact hlt
      · unfold round_mag; rw [← hE, pow2_eq]
    · refine ⟨(2 : ℤ) ^ (p - 1), E + 1, by omega, ?_, ?_⟩
      · rw [abs_of_nonneg (by positivity)]
        exact pow_lt_pow_right₀ (by norm_num) (by omega)
      · unfold round_mag
        rw [← hE, heq, pow2_eq, zpow_add₀ (by norm_num), zpow_one]
        push_cast
        have : (2 : ℚ) ^ p = (2 : ℚ) ^ (p - 1) * 2 := by
          rw [← pow_succ]; congr 1; omega
        rw [this]; ring

theorem representable_neg (p : ℕ) (emin : ℤ) (x : ℚ) (h : Representable p emin x) :
    Representable p emin (-x) := by
  obtain ⟨m, e, he, hm, rfl⟩ := h
  exact ⟨-m, e, he, by rwa [abs_neg], by push_cast; ring⟩

theorem representable_widen (p q : ℕ) (emin fmin : ℤ) (hpq : p ≤ q) (hmin : fmin ≤ emin) (x : ℚ)
    (h : Representable p emin x) : Representable q fmin x := by
  obtain ⟨m, e, he, hm, rfl⟩ := h
  exact ⟨m, e, by omega, lt_of_lt_of_le hm (pow_le_pow_right₀ (by norm_num) hpq), rfl⟩

theorem representable_int (p : ℕ) (hp : 1 ≤ p) (emin : ℤ) (hmin : emin ≤ 0) (n : ℤ)
    (hn : |n| ≤ 2 ^ p) : Representable p emin (n : ℚ) := by
  rcases lt_or_eq_of_le hn with hlt | heq
  · exact ⟨n, 0, hmin, hlt, by simp⟩
  · have hpow : (2 : ℤ) ^ p = 2 ^ (p - 1) * 2 := by
      rw [← pow_succ]; congr 1; omega
    have hcases : n = 2 ^ p ∨ n = -(2 ^ p) := by
      rcases abs_cases n with ⟨h1, _⟩ | ⟨h1, _⟩
      · left; rw [← h1]; exact heq
      · right; rw [← heq, h1]; ring
    have hsm : |((2 : ℤ) ^ (p - 1))| < 2 ^ p := by
      rw [abs_of_nonneg (by positivity)]
      exact pow_lt_pow_right₀ (by norm_num) (by omega)
    rcases hcases with h1 | h1
    · refine ⟨2 ^ (p - 1), 1, by omega, hsm, ?_⟩
      rw [h1, hpow]; push_cast; rw [zpow_one]
    · refine ⟨-(2 ^ (p - 1)), 1, by omega, by rwa [abs_neg], ?_⟩
      rw [h1, hpow]; push_cast; rw [zpow_one]; ring

theorem representable_double (p : ℕ) (emin : ℤ) (x : ℚ) (h : Representable p emin x) :
    Representable p emin (2 * x) := by
  obtain ⟨m, e, he, hm, rfl⟩ := h
  refine ⟨m, e + 1, by omega, hm, ?_⟩
  rw [zpow_add₀ (by norm_num), zpow_one]; ring

/-! ### Signed rounding -/

theorem round_to_zero (p : ℕ) (emin : ℤ) : round_to p emin 0 = 0 := by
  unfold round_to
  rw [if_pos le_rfl, round_mag_zero]

theorem round_to_neg (p : ℕ) (emin : ℤ) (x : ℚ) : round_to p emin (-x) = - round_to p emin x := by
  rcases lt_trichotomy x 0 with h | h | h
  · unfold round_to
    rw [if_pos (by linarith), if_neg (by linarith), neg_neg]
  · subst h; simp [round_to_zero]
  · unfold round_to
    rw [if_neg (by linarith), if_pos (by linarith), neg_neg]

theorem round_to_nonneg (p : ℕ) (emin : ℤ) (x : ℚ) (hx : 0 ≤ x) : 0 ≤ round_to p emin x := by
  unfold round_to
  rw [if_pos hx]
  exact round_mag_nonneg p emin x hx

theorem round_to_nonpos (p : ℕ) (emin : ℤ) (x : ℚ) (hx : x ≤ 0) : round_to p emin x ≤ 0 := by
  have := round_to_nonneg p emin (-x) (by linarith)
  rw [round_to_neg] at this
  linarith

theorem round_to_mono (p : ℕ) (hp : 1 ≤ p) (emin : ℤ) (x y : ℚ) (h : x ≤ y) :
    round_to p emin x ≤ round_to p emin y := by
  rcases lt_trichotomy x 0 with hx | hx | hx
  · rcases lt_or_le y 0 with hy | hy
    · have := round_mag_mono p hp emin (-y) (-x) (by linarith) (by linarith)
      unfold round_to
      rw [if_neg (by linarith), if_neg (by linarith)]
      linarith
    · exact le_trans (round_to_nonpos p emin x (le_of_lt hx)) (round_to_nonneg p emin y hy)
  · subst hx
    rw [round_to_zero]
    exact round_to_nonneg p emin y h
  · have := round_mag_mono p hp emin x y hx h
    unfold round_to
    rw [if_pos (by linarith), if_pos (by linarith)]
    exact this

theorem round_to_err (p : ℕ) (emin : ℤ) (x : ℚ) :
    |round_to p emin x - x| ≤ |x| / 2 ^ p + (2 : ℚ) ^ (emin - 1) := by
  rcases lt_trichotomy x 0 with hx | hx | hx
  · have := round_mag_err p emin (-x) (by linarith)
    unfold round_to
    rw [if_neg (by linarith), abs_of_neg hx]
    have e : -round_mag p emin (-x) - x = -(round_mag p emin (-x) - -x) := by ring
    rw [e, abs_neg]
    exact this
  · subst hx
    rw [round_to_zero]
    simp
    positivity
  · have := round_mag_err p emin x hx
    unfold round_to
    rw [if_pos (by linarith), abs_of_pos hx]
    exact this

theorem round_to_rep (p : ℕ) (hp : 1 ≤ p) (emin : ℤ) (x : ℚ) :
    Representable p emin (round_to p emin x) := by
  unfold round_to
  split_ifs with h
  · exact round_mag_rep p hp emin x h
  · exact representable_neg _ _ _ (round_mag_rep p hp emin (-x) (by linarith))

theorem round_to_of_rep (p : ℕ) (emin : ℤ) (x : ℚ) (h : Representable p emin x) :
    round_to p emin x = x := by
  rcases lt_trichotomy x 0 with hx | hx | hx
  · unfold round_to
    rw [if_neg (by linarith),
      round_mag_of_rep p emin (-x) (by linarith) (representable_neg _ _ _ h), neg_neg]
  · subst hx; exact round_to_zero p emin
  · unfold round_to
    rw [if_pos (by linarith), round_mag_of_rep p emin x hx h]

theorem round_to_idem (p : ℕ) (hp : 1 ≤ p) (emin : ℤ) (x : ℚ) :
    round_to p emin (round_to p emin x) = round_to p emin x :=
  round_to_of_rep p emin _ (round_to_rep p hp emin x)

namespace Binary32

/-! ## Binary32: from frames to their sequencing part -/

theorem frame_tick32 (D : ℚ) (sinf : ℚ → ℚ) (g : Engine) (s : CFloat) :
    (frame D sinf g s).tick = tick D g.parms g.ms_offset := by
  rcases g with ⟨q, ms, rad⟩
  cases q with
  | nil => simp [frame, advance, tick, FrameRecord.tick]
  | cons p next =>
    simp only [frame, advance, tick, FrameRecord.tick]
    split_ifs <;> rfl

theorem frame_after_parms32 (D : ℚ) (sinf : ℚ → ℚ) (g : Engine) (s : CFloat) :
    (frame D sinf g s).after.parms = (tick D g.parms g.ms_offset).parms := by
  rw [← frame_tick32 D sinf g s]; rfl

theorem frame_after_ms32 (D : ℚ) (sinf : ℚ → ℚ) (g : Engine) (s : CFloat) :
    (frame D sinf g s).after.ms_offset = (tick D g.parms g.ms_offset).ms_offset := by
  rw [← frame_tick32 D sinf g s]; rfl

theorem frames_tick32 (D : ℚ) (sinf : ℚ → ℚ) :
    ∀ (n : ℕ) (g : Engine) (s : CFloat),
      (frames D sinf n g s).map FrameRecord.tick = ticks D n g.parms g.ms_offset
  | 0, _, _ => rfl
  | n + 1, g, s => by
    simp only [frames, ticks, List.map_cons]
    rw [frames_tick32 D sinf n, frame_tick32, frame_after_parms32, frame_after_ms32]

theorem frames_length32 (D : ℚ) (sinf : ℚ → ℚ) :
    ∀ (n : ℕ) (g : Engine) (s : CFloat), (frames D sinf n g s).length = n
  | 0, _, _ => rfl
  | n + 1, g, s => by simp [frames, frames_length32 D sinf n]

theorem ticks_length32 (D : ℚ) : ∀ (n : ℕ) (q : List beep_parms_t) (ms : ℚ),
    (ticks D n q ms).length = n
  | 0, _, _ => rfl
  | n + 1, q, ms => by simp [ticks, ticks_length32 D n]

theorem ticks_add32 (D : ℚ) : ∀ (a b : ℕ) (q : List beep_parms_t) (ms : ℚ),
    ticks D (a + b) q ms = ticks D a q ms ++ ticks D b (run D a q ms).1 (run D a q ms).2
  | 0, b, q, ms => by simp [ticks, run]
  | a + 1, b, q, ms => by
    have h : a + 1 + b = (a + b) + 1 := by omega
    rw [h]
    simp only [ticks, run, List.cons_append]
    rw [ticks_add32 D a b]

theorem run_add32 (D : ℚ) : ∀ (a b : ℕ) (q : List beep_parms_t) (ms : ℚ),
    run D (a + b) q ms = run D b (run D a q ms).1 (run D a q ms).2
  | 0, b, q, ms => by simp [run]
  | a + 1, b, q, ms => by
    have h : a + 1 + b = (a + b) + 1 := by omega
    rw [h]
    simp only [run]
    rw [run_add32 D a b]

/-- The globals after a run of frames, read off the sequencing parts. -/
theorem lastEngine_frames32 (D : ℚ) (sinf : ℚ → ℚ) :
    ∀ (n : ℕ) (g : Engine) (s : CFloat),
      ((lastEngine g (frames D sinf n g s)).parms,
        (lastEngine g (frames D sinf n g s)).ms_offset) = run D n g.parms g.ms_offset
  | 0, _, _ => rfl
  | n + 1, g, s => by
    have ih := lastEngine_frames32 D sinf n (frame D sinf g s).after (frame D sinf g s).sample
    simp only [run, frames, lastEngine_cons]
    rw [← frame_after_parms32 D sinf g s, ← frame_after_ms32 D sinf g s, ← ih]

/-- Sequencing part of the frames of one pass through the `while` loop: they are the
first frames of the timing run from the globals at entry. -/
theorem write_loop_tick32 (D : ℚ) (sinf : ℚ → ℚ) :
    ∀ (grants : List ℕ) (frames_left : Int) (g : Engine) (s : CFloat),
      ∃ n : ℕ, (write_loop D sinf grants frames_left g s).map FrameRecord.tick
          = ticks D n g.parms g.ms_offset
        ∧ ((lastEngine g (write_loop D sinf grants frames_left g s)).parms,
            (lastEngine g (write_loop D sinf grants frames_left g s)).ms_offset)
          = run D n g.parms g.ms_offset
  | [], _, _, _ => ⟨0, rfl, rfl⟩
  | grant :: grants, frames_left, g, s => by
    unfold write_loop
    by_cases h1 : frames_left > 0
    · simp only [h1, if_true]
      by_cases h2 : min frames_left.toNat grant = 0
      · simp only [h2, if_true]
        exact ⟨0, rfl, rfl⟩
      · simp only [h2, if_false]
        set k := min frames_left.toNat grant with hk
        have hfr := frames_tick32 D sinf k g s
        have hlast := lastEngine_frames32 D sinf k g s
        by_cases h3 : (lastEngine g (frames D sinf k g s)).parms = []
        · rw [if_pos h3]
          exact ⟨k, hfr, hlast⟩
        · rw [if_neg h3]
          obtain ⟨m, hm1, hm2⟩ := write_loop_tick32 D sinf grants (frames_left - k)
            (lastEngine g (frames D sinf k g s)) (lastSample s (frames D sinf k g s))
          refine ⟨k + m, ?_, ?_⟩
          · rw [List.map_append, hfr, hm1, ticks_add32, ← hlast]
          · rw [lastEngine_append, hm2, run_add32, ← hlast]
    · simp only [h1, if_false]
      exact ⟨0, rfl, rfl⟩

theorem playback_tick_exists32 (rate : Int) (sinf : ℚ → ℚ) :
    ∀ (calls : List (Int × List ℕ)) (g : Engine),
      ∃ n : ℕ, (playback rate sinf calls g).map FrameRecord.tick
          = ticks (ms_per_frame rate) n g.parms g.ms_offset
        ∧ ((lastEngine g (playback rate sinf calls g)).parms,
            (lastEngine g (playback rate sinf calls g)).ms_offset)
          = run (ms_per_frame rate) n g.parms g.ms_offset
  | [], _ => ⟨0, rfl, rfl⟩
  | call :: calls, g => by
    obtain ⟨k, hk1, hk2⟩ :=
      write_loop_tick32 (ms_per_frame rate) sinf call.2 call.1 g (CFloat.finite 0)
    obtain ⟨m, hm1, hm2⟩ := playback_tick_exists32 rate sinf calls
      (lastEngine g (write_callback rate sinf call.1 call.2 g))
    refine ⟨k + m, ?_, ?_⟩
    · simp only [playback, write_callback, List.map_append] at *
      rw [hk1, hm1, ticks_add32, ← hk2]
    · simp only [playback, write_callback] at *
      rw [lastEngine_append, hm2, run_add32, ← hk2]

/-- Sequencing part of a playback: whatever the pattern of invocations and grants, its
frames are the timing run from the globals at the start. -/
theorem playback_tick32 (rate : Int) (sinf : ℚ → ℚ) (calls : List (Int × List ℕ)) (g : Engine) :
    (playback rate sinf calls g).map FrameRecord.tick
      = ticks (ms_per_frame rate) (playback rate sinf calls g).length g.parms g.ms_offset := by
  obtain ⟨n, hn, _⟩ := playback_tick_exists32 rate sinf calls g
  have hlen : (playback rate sinf calls g).length = n := by
    have := congrArg List.length hn
    simpa [ticks_length32] using this
  rw [hlen]; exact hn

theorem ticks_take32 (D : ℚ) : ∀ (n m : ℕ) (q : List beep_parms_t) (ms : ℚ), n ≤ m →
    (ticks D m q ms).take n = ticks D n q ms
  | 0, _, _, _, _ => by simp [ticks]
  | n + 1, 0, _, _, h => by omega
  | n + 1, m + 1, q, ms, h => by
    simp only [ticks, List.take_succ_cons]
    rw [ticks_take32 D n m _ _ (by omega)]

/-- The first `n` frames of a playback, seen through their sequencing parts. -/
theorem playback_take_tick32 (rate : Int) (sinf : ℚ → ℚ) (calls : List (Int × List ℕ))
    (g : Engine) (n : ℕ) (hn : n ≤ (playback rate sinf calls g).length) :
    ((playback rate sinf calls g).take n).map FrameRecord.tick
      = ticks (ms_per_frame rate) n g.parms g.ms_offset := by
  rw [List.map_take, playback_tick32, ticks_take32 _ n _ _ _ hn]

theorem fl32_mono {x y : ℚ} (h : x ≤ y) : fl32 x ≤ fl32 y :=
  round_to_mono 24 (by norm_num) _ x y h

theorem fl32_idem (x : ℚ) : fl32 (fl32 x) = fl32 x :=
  round_to_idem 24 (by norm_num) _ x

theorem fl32_zero : fl32 0 = 0 := round_to_zero 24 _

theorem fl32_nonneg {x : ℚ} (h : 0 ≤ x) : 0 ≤ fl32 x := round_to_nonneg 24 _ x h

theorem fl32_err (x : ℚ) : |fl32 x - x| ≤ |x| / 2 ^ 24 + (2 : ℚ) ^ (-150 : ℤ) :=
  round_to_err 24 (-149) x

theorem fl32_of_rep {x : ℚ} (h : Representable 24 (-149) x) : fl32 x = x :=
  round_to_of_rep 24 _ x h

theorem fl32_rep (x : ℚ) : Representable 24 (-149) (fl32 x) :=
  round_to_rep 24 (by norm_num) _ x

theorem fl32_int (n : ℤ) (h : |n| ≤ 2 ^ 24) : fl32 (n : ℚ) = n :=
  fl32_of_rep (representable_int 24 (by norm_num) _ (by norm_num) n h)

theorem fl32_lower (x : ℚ) (hx : 0 ≤ x) : x - (x / 2 ^ 24 + (2 : ℚ) ^ (-150 : ℤ)) ≤ fl32 x := by
  have h := fl32_err x
  rw [abs_of_nonneg hx, abs_le] at h
  linarith [h.1]

theorem fl32_upper (x : ℚ) (hx : 0 ≤ x) : fl32 x ≤ x + (x / 2 ^ 24 + (2 : ℚ) ^ (-150 : ℤ)) := by
  have h := fl32_err x
  rw [abs_of_nonneg hx, abs_le] at h
  linarith [h.2]

theorem tick_wait32 (D : ℚ) (p : beep_parms_t) (next : List beep_parms_t) (ms : ℚ)
    (h : ¬ fl32 (ms + D) > offset p) :
    tick D (p :: next) ms = { boundary := none, log := none, freed := none, parms := p :: next
                              ms_offset := fl32 (ms + D) } := by
  simp only [tick]
  rw [if_neg h]

theorem tick_cross32 (D : ℚ) (p : beep_parms_t) (next : List beep_parms_t) (ms : ℚ)
    (h : fl32 (ms + D) > offset p) (hr : p.reps - 1 ≠ 0) :
    tick D (p :: next) ms = { boundary := some (offset p), log := none, freed := none
                              parms := { p with reps := p.reps - 1 } :: next
                              ms_offset := fl32 (fl32 (ms + D) - offset p) } := by
  simp only [tick]
  rw [if_pos h, if_neg hr]

theorem tick_pop32 (D : ℚ) (p : beep_parms_t) (next : List beep_parms_t) (ms : ℚ)
    (h : fl32 (ms + D) > offset p) (hr : p.reps - 1 = 0) :
    tick D (p :: next) ms = { boundary := some (offset p)
                              log := if p.verbose ≠ 0 then some ⟨p.freq, p.length, p.delay⟩ else none
                              freed := some { p with reps := p.reps - 1 }
                              parms := next
                              ms_offset := fl32 (fl32 (ms + D) - offset p) } := by
  simp only [tick]
  rw [if_pos h, if_pos hr]

theorem ticks_snoc32 (D : ℚ) (k : ℕ) (q : List beep_parms_t) (ms : ℚ) :
    ticks D (k + 1) q ms = ticks D k q ms ++ [tick D (run D k q ms).1 (run D k q ms).2] := by
  rw [ticks_add32]; rfl

theorem run_snoc32 (D : ℚ) (k : ℕ) (q : List beep_parms_t) (ms : ℚ) :
    run D (k + 1) q ms
      = ((tick D (run D k q ms).1 (run D k q ms).2).parms,
         (tick D (run D k q ms).1 (run D k q ms).2).ms_offset) := by
  rw [run_add32]; rfl

theorem offset_live32 (t : beep_parms_t) (hR : 1 ≤ t.reps) (j : Int) (hj : 1 ≤ j) :
    offset { t with reps := j } = offset t := by
  unfold offset
  rw [offset_set_reps t j hj, offset_of_live t hR]

theorem ms_per_frame_err (rate : Int) (h0 : 0 < rate) (h1 : rate ≤ 2 ^ 24) :
    |ms_per_frame rate - 1000 / (rate : ℚ)| ≤ (1000 / (rate : ℚ)) / 2 ^ 24 + (2 : ℚ) ^ (-150 : ℤ) := by
  unfold ms_per_frame
  rw [fl32_int rate (by rw [abs_of_pos h0]; exact h1)]
  have h := fl32_err (1000 / (rate : ℚ))
  have hpos : (0 : ℚ) ≤ 1000 / (rate : ℚ) := by
    have : (0 : ℚ) < (rate : ℚ) := by exact_mod_cast h0
    positivity
  rwa [abs_of_nonneg hpos] at h

theorem fl32_double {c : ℚ} (h : fl32 c = c) : fl32 (2 * c) = 2 * c := by
  apply fl32_of_rep
  apply representable_double
  rw [← h]
  exact fl32_rep c

theorem offset_idem (p : beep_parms_t) : fl32 (offset p) = offset p := fl32_idem _

/-- Drift of the accumulator while the head of a playback started at `ms_offset = 0` has
not been popped: after `k` frames the head has `j` repetitions left, the accumulator lies
in `[0, c]` and differs from the exact elapsed time `k * Dr - (R - j) * c` by at most
`k * frame_error c Dr`. -/
theorem head_drift (D Dr c : ℚ) (t : beep_parms_t) (rest : List beep_parms_t)
    (hR : 1 ≤ t.reps) (hc : offset t = c) (hD : 0 ≤ D) (hDc : D ≤ c) (hDr : 0 ≤ Dr)
    (hDerr : |D - Dr| ≤ Dr / 2 ^ 24 + (2 : ℚ) ^ (-150 : ℤ)) :
    ∀ k : ℕ, (ticks D k (t :: rest) 0).filterMap Tick.freed = [] →
      ∃ (j : Int) (a : ℚ), 1 ≤ j ∧ j ≤ t.reps
        ∧ run D k (t :: rest) 0 = ({ t with reps := j } :: rest, a)
        ∧ 0 ≤ a ∧ a ≤ c ∧ fl32 a = a
        ∧ |a - ((k : ℚ) * Dr - ((t.reps - j : Int) : ℚ) * c)| ≤ (k : ℚ) * frame_error c Dr
  | 0, _ => by
    have hc0 : 0 ≤ c := le_trans hD hDc
    refine ⟨t.reps, 0, hR, le_rfl, ?_, le_rfl, hc0, fl32_zero, ?_⟩
    · simp [run, set_reps_self]
    · simp
  | k + 1, hfree => by
    have hc0 : 0 ≤ c := le_trans hD hDc
    have hfc : fl32 c = c := by rw [← hc]; exact offset_idem t
    have hη : 0 ≤ frame_error c Dr := by unfold frame_error; positivity
    have htiny : (0 : ℚ) < (2 : ℚ) ^ (-150 : ℤ) := by positivity
    rw [ticks_snoc32, List.filterMap_append] at hfree
    obtain ⟨hfree1, hfree2⟩ := List.append_eq_nil.mp hfree
    obtain ⟨j, a, hj1, hj2, hrun, ha0, hac, haf, hdrift⟩ :=
      head_drift D Dr c t rest hR hc hD hDc hDr hDerr k hfree1
    rw [hrun] at hfree2
    have hcj : offset { t with reps := j } = c := by rw [offset_live32 t hR j hj1, hc]
    have hsum0 : 0 ≤ a + D := by linarith
    have hlo := fl32_lower (a + D) hsum0
    have hup := fl32_upper (a + D) hsum0
    have hsumc : (a + D) / 2 ^ 24 ≤ (2 * c) / 2 ^ 24 :=
      div_le_div_of_nonneg_right (by linarith) (by positivity)
    have hDe := abs_le.mp hDerr
    have hd := abs_le.mp hdrift
    have hcast : ((k + 1 : ℕ) : ℚ) = (k : ℚ) + 1 := by push_cast; ring
    by_cases hb : fl32 (a + D) > c
    · by_cases hz : j - 1 = 0
      · exfalso
        have hp := tick_pop32 D { t with reps := j } rest a (by rw [hcj]; exact hb) hz
        rw [hp] at hfree2
        simp at hfree2
      · have hx := tick_cross32 D { t with reps := j } rest a (by rw [hcj]; exact hb) hz
        rw [hcj] at hx
        have h2c : fl32 (a + D) ≤ 2 * c := by
          have := fl32_mono (show a + D ≤ 2 * c by linarith)
          rwa [fl32_double hfc] at this
        have hdiff0 : 0 ≤ fl32 (a + D) - c := by linarith
        have hlo2 := fl32_lower (fl32 (a + D) - c) hdiff0
        have hup2 := fl32_upper (fl32 (a + D) - c) hdiff0
        have hdc : (fl32 (a + D) - c) / 2 ^ 24 ≤ c / 2 ^ 24 :=
          div_le_div_of_nonneg_right (by linarith) (by positivity)
        have hle : fl32 (fl32 (a + D) - c) ≤ c := by
          have := fl32_mono (show fl32 (a + D) - c ≤ c by linarith)
          rwa [hfc] at this
        refine ⟨j - 1, fl32 (fl32 (a + D) - c), by omega, by omega, ?_, fl32_nonneg hdiff0,
          hle, fl32_idem _, ?_⟩
        · rw [run_snoc32, hrun, hx]
        · rw [hcast, abs_le]
          have e : ((t.reps - (j - 1) : Int) : ℚ) = ((t.reps - j : Int) : ℚ) + 1 := by
            push_cast; ring
          rw [e]
          unfold frame_error at hd ⊢
          generalize ((t.reps - j : Int) : ℚ) = b at hd ⊢
          generalize (2 : ℚ) ^ (-150 : ℤ) = u at *
          generalize fl32 (fl32 (a + D) - c) = x2 at *
          generalize fl32 (a + D) = x1 at *
          generalize (k : ℚ) = K at *
          have hd1 := hd.1
          have hd2 := hd.2
          have hDe1 := hDe.1
          have hDe2 := hDe.2
          constructor <;> linarith
    · have hw := tick_wait32 D { t with reps := j } rest a (by rw [hcj]; exact hb)
      refine ⟨j, fl32 (a + D), hj1, hj2, ?_, fl32_nonneg hsum0, not_lt.mp hb, fl32_idem _, ?_⟩
      · rw [run_snoc32, hrun, hw]
      · rw [hcast, abs_le]
        unfold frame_error at hd ⊢
        generalize ((t.reps - j : Int) : ℚ) = b at hd ⊢
        generalize (2 : ℚ) ^ (-150 : ℤ) = u at *
        generalize fl32 (a + D) = x1 at *
        generalize (k : ℚ) = K at *
        have hd1 := hd.1
        have hd2 := hd.2
        have hDe1 := hDe.1
        have hDe2 := hDe.2
        constructor <;> linarith

theorem ms_per_frame_pos (rate : Int) (h0 : 0 < rate) (h1 : rate < 2 ^ 31) :
    0 < ms_per_frame rate := by
  have hr1 : (1 : ℚ) ≤ (rate : ℚ) := by exact_mod_cast h0
  have hr2 : (rate : ℚ) ≤ 2 ^ 31 := by exact_mod_cast le_of_lt h1
  have e1 : fl32 1 = 1 := fl32_of_rep ⟨1, 0, by norm_num, by norm_num, by norm_num⟩
  have e2 : fl32 ((2 : ℚ) ^ 31) = 2 ^ 31 :=
    fl32_of_rep ⟨1, 31, by norm_num, by norm_num, by norm_num⟩
  have e3 : fl32 ((2 : ℚ) ^ (-22 : ℤ)) = (2 : ℚ) ^ (-22 : ℤ) :=
    fl32_of_rep ⟨1, -22, by norm_num, by norm_num, by norm_num⟩
  have a1 : 1 ≤ fl32 (rate : ℚ) := by rw [← e1]; exact fl32_mono hr1
  have a2 : fl32 (rate : ℚ) ≤ 2 ^ 31 := by rw [← e2]; exact fl32_mono hr2
  have a3 : (2 : ℚ) ^ (-22 : ℤ) ≤ 1000 / fl32 (rate : ℚ) := by
    rw [le_div_iff₀ (by linarith)]
    have : (2 : ℚ) ^ (-22 : ℤ) * fl32 (rate : ℚ) ≤ (2 : ℚ) ^ (-22 : ℤ) * 2 ^ 31 :=
      mul_le_mul_of_nonneg_left a2 (by positivity)
    have e : (2 : ℚ) ^ (-22 : ℤ) * 2 ^ 31 = 512 := by norm_num
    linarith
  have a4 := fl32_mono a3
  rw [e3] at a4
  unfold ms_per_frame
  exact lt_of_lt_of_le (by positivity) a4

theorem offset_exact (p : beep_parms_t) (h : |Beep.offset p| ≤ 2 ^ 24) :
    offset p = Beep.offset p := by
  unfold offset
  unfold Beep.offset at h ⊢
  apply fl32_int
  rw [← Int.cast_abs] at h
  have h' : ((|p.length + if p.end_delay ≠ 0 ∨ p.reps ≥ 1 then p.delay else 0| : Int) : ℚ)
      ≤ ((2 ^ 24 : Int) : ℚ) := by
    rw [Int.cast_pow]; exact h
  exact_mod_cast h'

/-- C4, amended to the program's `float` arithmetic.  A request with `R ≥ 1` repetitions
whose cycle lasts at least one frame period, played from `ms_offset = 0` at a sample rate
of at most `2 ^ 24` Hz, is popped on a frame `n` (counted from 1) whose time
`n * (1000 / rate)` lies within one frame period of its `R` cycles, up to the rounding
error accumulated over the `n` frames:
`R * c - n * e < n * (1000 / rate) ≤ R * c + 1000 / rate + n * e`, where `c` is the
`float` value of the cycle length (the cycle itself up to `2 ^ 24` ms) and
`e = frame_error c (1000 / rate)` bounds the rounding error of one frame. -/
theorem release_time_within_rounding (rate : Int) (sinf : ℚ → ℚ) (g : Engine)
    (t : beep_parms_t) (rest : List beep_parms_t) (calls : List (Int × List ℕ)) (n : ℕ)
    (h0 : 0 < rate) (h1 : rate ≤ 2 ^ 24) (hR : 1 ≤ t.reps) (hg : g.parms = t :: rest)
    (hms : g.ms_offset = 0) (hcyc : ms_per_frame rate ≤ offset t)
    (hn : n ≤ (playback rate sinf calls g).length)
    (hpre : freed ((playback rate sinf calls g).take (n - 1)) = [])
    (hpop : freed ((playback rate sinf calls g).take n) ≠ []) :
    (|Beep.offset t| ≤ 2 ^ 24 → offset t = Beep.offset t)
    ∧ (t.reps : ℚ) * offset t - (n : ℚ) * frame_error (offset t) (1000 / (rate : ℚ))
        < (n : ℚ) * (1000 / (rate : ℚ))
    ∧ (n : ℚ) * (1000 / (rate : ℚ))
        ≤ (t.reps : ℚ) * offset t + 1000 / (rate : ℚ)
          + (n : ℚ) * frame_error (offset t) (1000 / (rate : ℚ)) := by
  refine ⟨offset_exact t, ?_⟩
  have hrate : (0 : ℚ) < (rate : ℚ) := by exact_mod_cast h0
  have hDr : (0 : ℚ) ≤ 1000 / (rate : ℚ) := by positivity
  have hD : 0 < ms_per_frame rate := ms_per_frame_pos rate h0 (by omega)
  have hDerr := ms_per_frame_err rate h0 h1
  have hn1 : 1 ≤ n := by
    rcases Nat.eq_zero_or_pos n with h | h
    · subst h; simp [freed] at hpop
    · exact h
  have hk : n - 1 ≤ (playback rate sinf calls g).length := by omega
  have hT1 := playback_take_tick32 rate sinf calls g (n - 1) hk
  have hT := playback_take_tick32 rate sinf calls g n hn
  rw [hg, hms] at hT1 hT
  rw [freed_eq, hT1] at hpre
  rw [freed_eq, hT] at hpop
  obtain ⟨j, a, hj1, hj2, hrun, ha0, hac, haf, hdrift⟩ :=
    head_drift (ms_per_frame rate) (1000 / (rate : ℚ)) (offset t) t rest hR rfl (le_of_lt hD)
      hcyc hDr hDerr (n - 1) hpre
  have hsplit : n = (n - 1) + 1 := by omega
  rw [hsplit, ticks_snoc32, List.filterMap_append, hpre, hrun, List.nil_append] at hpop
  have hcj : offset { t with reps := j } = offset t := offset_live32 t hR j hj1
  have hc0 : 0 ≤ offset t := le_trans (le_of_lt hD) hcyc
  -- the frame that frees crosses the boundary with the counter at one
  have hcross : fl32 (a + ms_per_frame rate) > offset t ∧ j = 1 := by
    by_cases hb : fl32 (a + ms_per_frame rate) > offset t
    · by_cases hz : j - 1 = 0
      · exact ⟨hb, by omega⟩
      · exfalso
        have hx := tick_cross32 (ms_per_frame rate) { t with reps := j } rest a
          (by rw [hcj]; exact hb) hz
        rw [hx] at hpop
        simp at hpop
    · exfalso
      have hw := tick_wait32 (ms_per_frame rate) { t with reps := j } rest a
        (by rw [hcj]; exact hb)
      rw [hw] at hpop
      simp at hpop
  obtain ⟨hb, hj⟩ := hcross
  subst hj
  have hsum0 : 0 ≤ a + ms_per_frame rate := by linarith
  have hup := fl32_upper (a + ms_per_frame rate) hsum0
  have hsumc : (a + ms_per_frame rate) / 2 ^ 24 ≤ (2 * offset t) / 2 ^ 24 :=
    div_le_div_of_nonneg_right (by linarith) (by positivity)
  have hDe := abs_le.mp hDerr
  have hd := abs_le.mp hdrift
  have hcastn : (n : ℚ) = ((n - 1 : ℕ) : ℚ) + 1 := by
    have : ((n - 1 : ℕ) : ℚ) = (n : ℚ) - 1 := by
      rw [Nat.cast_sub hn1]; simp
    rw [this]; ring
  have hcastr : ((t.reps - 1 : Int) : ℚ) = (t.reps : ℚ) - 1 := by push_cast; ring
  rw [hcastr] at hd
  rw [hcastn]
  unfold frame_error at hd ⊢
  have htiny : (0 : ℚ) < (2 : ℚ) ^ (-150 : ℤ) := by positivity
  generalize (2 : ℚ) ^ (-150 : ℤ) = u at *
  generalize fl32 (a + ms_per_frame rate) = x1 at *
  generalize ((n - 1 : ℕ) : ℚ) = K at *
  generalize (t.reps : ℚ) = R at *
  generalize offset t = c at *
  generalize ms_per_frame rate = D at *
  generalize 1000 / (rate : ℚ) = Dr at *
  have hd1 := hd.1
  have hd2 := hd.2
  have hDe1 := hDe.1
  have hDe2 := hDe.2
  constructor <;> linarith

/-! ## Binary32: decay -/

/-- A frame that takes the decay branch writes the decayed local `sample`. -/
theorem frame_silent32 (D : ℚ) (sinf : ℚ → ℚ) (g : Engine) (s : CFloat)
    (h : (frame D sinf g s).tone_on = false) :
    (frame D sinf g s).sample = decay s := by
  simp only [frame] at h ⊢
  generalize (advance D g s).after = g1 at h ⊢
  rcases g1 with ⟨parms, ms, rad⟩
  cases parms with
  | nil => rfl
  | cons p next =>
    simp only [tone_on, decide_eq_false_iff_not] at h
    simp only [emit, if_neg h]

theorem decayStep_congr32 (a b c : FrameRecord) (h : a.sample = b.sample) (hR : DecayStep32 a c) :
    DecayStep32 b c := by
  intro hc
  rw [← h]; exact hR hc

theorem frames_invariant32 (I : Engine → CFloat → Prop) (D : ℚ) (sinf : ℚ → ℚ)
    (hstep : ∀ g s, I g s → I (frame D sinf g s).after (frame D sinf g s).sample) :
    ∀ (n : ℕ) (g : Engine) (s : CFloat), I g s →
      (∀ r ∈ frames D sinf n g s, ∃ g1 s1, I g1 s1 ∧ r = frame D sinf g1 s1)
      ∧ I (lastEngine g (frames D sinf n g s)) (lastSample s (frames D sinf n g s))
  | 0, g, s, h => ⟨by simp [frames], h⟩
  | n + 1, g, s, h => by
    obtain ⟨ih1, ih2⟩ := frames_invariant32 I D sinf hstep n _ _ (hstep g s h)
    simp only [frames, lastEngine_cons, lastSample_cons]
    refine ⟨?_, ih2⟩
    intro r hr
    rcases List.mem_cons.mp hr with rfl | hr
    · exact ⟨g, s, h, rfl⟩
    · exact ih1 r hr

theorem write_loop_invariant32 (I : Engine → CFloat → Prop) (D : ℚ) (sinf : ℚ → ℚ)
    (hstep : ∀ g s, I g s → I (frame D sinf g s).after (frame D sinf g s).sample)
    (hcall : ∀ g s, I g s → I g (CFloat.finite 0)) :
    ∀ (grants : List ℕ) (frames_left : Int) (g : Engine) (s : CFloat), I g s →
      (∀ r ∈ write_loop D sinf grants frames_left g s, ∃ g1 s1, I g1 s1 ∧ r = frame D sinf g1 s1)
      ∧ I (lastEngine g (write_loop D sinf grants frames_left g s)) (CFloat.finite 0)
  | [], _, g, s, h => ⟨by simp [write_loop], hcall g s h⟩
  | grant :: grants, frames_left, g, s, h => by
    unfold write_loop
    by_cases h1 : frames_left > 0
    · rw [if_pos h1]
      by_cases h2 : min frames_left.toNat grant = 0
      · simp only [h2, if_true]
        exact ⟨by simp, hcall g s h⟩
      · simp only [h2, if_false]
        obtain ⟨f1, f2⟩ := frames_invariant32 I D sinf hstep (min frames_left.toNat grant) g s h
        by_cases h3 : (lastEngine g (frames D sinf (min frames_left.toNat grant) g s)).parms = []
        · rw [if_pos h3]; exact ⟨f1, hcall _ _ f2⟩
        · rw [if_neg h3]
          obtain ⟨w1, w2⟩ := write_loop_invariant32 I D sinf hstep hcall grants
            (frames_left - (min frames_left.toNat grant : ℕ)) _ _ f2
          refine ⟨?_, by rw [lastEngine_append]; exact w2⟩
          intro r hr
          rcases List.mem_append.mp hr with hr | hr
          · exact f1 r hr
          · exact w1 r hr
    · rw [if_neg h1]
      exact ⟨by simp, hcall g s h⟩

/-- Induction along a playback: a property of the globals and the local `sample` that
every frame keeps, and that survives the restart of `sample` at `0.0f`, holds before
every frame of every playback that starts with it. -/
theorem playback_invariant32 (I : Engine → CFloat → Prop) (rate : Int) (sinf : ℚ → ℚ)
    (hstep : ∀ g s, I g s →
      I (frame (ms_per_frame rate) sinf g s).after (frame (ms_per_frame rate) sinf g s).sample)
    (hcall : ∀ g s, I g s → I g (CFloat.finite 0)) :
    ∀ (calls : List (Int × List ℕ)) (g : Engine), I g (CFloat.finite 0) →
      ∀ r ∈ playback rate sinf calls g,
        ∃ g1 s1, I g1 s1 ∧ r = frame (ms_per_frame rate) sinf g1 s1
  | [], _, _ => by simp [playback]
  | call :: calls, g, h => by
    obtain ⟨w1, w2⟩ :=
      write_loop_invariant32 I (ms_per_frame rate) sinf hstep hcall call.2 call.1 g _ h
    have ih := playback_invariant32 I rate sinf hstep hcall calls _ w2
    intro r hr
    simp only [playback, write_callback] at hr
    rcases List.mem_append.mp hr with hr | hr
    · exact w1 r hr
    · exact ih r hr

theorem frames_chain32 (D : ℚ) (sinf : ℚ → ℚ) :
    ∀ (n : ℕ) (g : Engine) (s : CFloat) (a : FrameRecord),
      (a.sample = s ∨ s = CFloat.finite 0) → List.Chain DecayStep32 a (frames D sinf n g s)
  | 0, _, _, _, _ => List.Chain.nil
  | n + 1, g, s, a, ha => by
    simp only [frames, List.chain_cons]
    refine ⟨?_, frames_chain32 D sinf n _ _ _ (Or.inl rfl)⟩
    intro hsil
    have := frame_silent32 D sinf g s hsil
    rcases ha with ha | ha
    · left; rw [this, ha]
    · right; rw [this, ha]

theorem write_loop_chain32 (D : ℚ) (sinf : ℚ → ℚ) :
    ∀ (grants : List ℕ) (frames_left : Int) (g : Engine) (s : CFloat) (a : FrameRecord),
      (a.sample = s ∨ s = CFloat.finite 0) →
      List.Chain DecayStep32 a (write_loop D sinf grants frames_left g s)
  | [], _, _, _, _, _ => by simp [write_loop]
  | grant :: grants, frames_left, g, s, a, ha => by
    unfold write_loop
    by_cases h1 : frames_left > 0
    · rw [if_pos h1]
      by_cases h2 : min frames_left.toNat grant = 0
      · simp only [h2, if_true]; exact List.Chain.nil
      · simp only [h2, if_false]
        have hf := frames_chain32 D sinf (min frames_left.toNat grant) g s a ha
        by_cases h3 : (lastEngine g (frames D sinf (min frames_left.toNat grant) g s)).parms = []
        · rw [if_pos h3]; exact hf
        · rw [if_neg h3]
          have hne : frames D sinf (min frames_left.toNat grant) g s ≠ [] := by
            intro hnil
            have := congrArg List.length hnil
            rw [frames_length32] at this
            exact h2 this
          refine chain_append_of _ _ a hf ?_ decayStep_congr32
          intro b hb
          refine write_loop_chain32 D sinf grants _ _ _ b (Or.inl ?_)
          rw [hb]
          cases hfr : frames D sinf (min frames_left.toNat grant) g s with
          | nil => exact absurd hfr hne
          | cons x l => rfl
    · rw [if_neg h1]; exact List.Chain.nil

/-- Consecutive frames of a playback are linked by `DecayStep32`, inside an invocation and
from one invocation to the next. -/
theorem playback_chain32 (rate : Int) (sinf : ℚ → ℚ) :
    ∀ (calls : List (Int × List ℕ)) (g : Engine) (a : FrameRecord),
      List.Chain DecayStep32 a (playback rate sinf calls g)
  | [], _, _ => List.Chain.nil
  | call :: calls, g, a => by
    simp only [playback, write_callback]
    refine chain_append_of _ _ a
      (write_loop_chain32 (ms_per_frame rate) sinf call.2 call.1 g _ a (Or.inr rfl)) ?_
      decayStep_congr32
    intro b _
    exact playback_chain32 rate sinf calls _ b

theorem fl64_mono {x y : ℚ} (h : x ≤ y) : fl64 x ≤ fl64 y :=
  round_to_mono 53 (by norm_num) _ x y h

theorem fl64_zero : fl64 0 = 0 := round_to_zero 53 _

theorem fl64_err (x : ℚ) : |fl64 x - x| ≤ |x| / 2 ^ 53 + (2 : ℚ) ^ (-1075 : ℤ) :=
  round_to_err 53 (-1074) x

/-- A `float` is a `double`: conversion is exact. -/
theorem fl64_of_fl32 {x : ℚ} (h : fl32 x = x) : fl64 x = x := by
  apply round_to_of_rep
  apply representable_widen 24 53 (-149) (-1074) (by norm_num) (by norm_num)
  rw [← h]
  exact fl32_rep x

theorem fl64_095 : fl64 0.95 = 4278419646001971 / 4503599627370496 := by decide!

theorem tiny_149 : (2 : ℚ) ^ (-149 : ℤ) = 2 * (2 : ℚ) ^ (-150 : ℤ) := by
  rw [show (-149 : ℤ) = -150 + 1 by norm_num, zpow_add₀ (by norm_num), zpow_one]
  ring

theorem tiny_1075 : (2 : ℚ) ^ (-1075 : ℤ) ≤ (2 : ℚ) ^ (-150 : ℤ) :=
  two_zpow_le (by norm_num)

/-- The decay of line 219 on a `float` value `p`: between `p` and zero, both roundings
included. -/
theorem decay_between (p : ℚ) (hp : fl32 p = p) :
    (0 ≤ p → 0 ≤ fl64 (p * fl64 0.95) ∧ fl64 (p * fl64 0.95) ≤ p
        ∧ 0 ≤ fl32 (fl64 (p * fl64 0.95)) ∧ fl32 (fl64 (p * fl64 0.95)) ≤ p)
    ∧ (p ≤ 0 → p ≤ fl64 (p * fl64 0.95) ∧ fl64 (p * fl64 0.95) ≤ 0
        ∧ p ≤ fl32 (fl64 (p * fl64 0.95)) ∧ fl32 (fl64 (p * fl64 0.95)) ≤ 0) := by
  have h64 := fl64_of_fl32 hp
  rw [fl64_095]
  constructor
  · intro h0
    have a1 : 0 ≤ p * (4278419646001971 / 4503599627370496) := by positivity
    have a2 : p * (4278419646001971 / 4503599627370496) ≤ p := by nlinarith
    have b1 := fl64_mono a1
    have b2 := fl64_mono a2
    rw [fl64_zero] at b1
    rw [h64] at b2
    have c1 := fl32_mono b1
    have c2 := fl32_mono b2
    rw [fl32_zero] at c1
    rw [hp] at c2
    exact ⟨b1, b2, c1, c2⟩
  · intro h0
    have a1 : p * (4278419646001971 / 4503599627370496) ≤ 0 := by nlinarith
    have a2 : p ≤ p * (4278419646001971 / 4503599627370496) := by nlinarith
    have b1 := fl64_mono a1
    have b2 := fl64_mono a2
    rw [fl64_zero] at b1
    rw [h64] at b2
    have c1 := fl32_mono b1
    have c2 := fl32_mono b2
    rw [fl32_zero] at c1
    rw [hp] at c2
    exact ⟨b2, b1, c2, c1⟩

theorem decay_abs_le (p : ℚ) (hp : fl32 p = p) : |fl32 (fl64 (p * fl64 0.95))| ≤ |p| := by
  obtain ⟨h1, h2⟩ := decay_between p hp
  rcases le_total 0 p with h | h
  · obtain ⟨_, _, c1, c2⟩ := h1 h
    rw [abs_of_nonneg c1, abs_of_nonneg h]; exact c2
  · obtain ⟨_, _, c1, c2⟩ := h2 h
    rw [abs_of_nonpos c2, abs_of_nonpos h]; linarith

/-- The decay of line 219 is a multiplication by `0.95` up to the two roundings. -/
theorem decay_near (p : ℚ) (hp : fl32 p = p) :
    |fl32 (fl64 (p * fl64 0.95)) - 0.95 * p| ≤ |p| / 2 ^ 23 + (2 : ℚ) ^ (-149 : ℤ) := by
  obtain ⟨h1, h2⟩ := decay_between p hp
  have e64 := fl64_err (p * fl64 0.95)
  have e32 := fl32_err (fl64 (p * fl64 0.95))
  have hz : |p * fl64 0.95| ≤ |p| := by
    rw [fl64_095, abs_mul, abs_of_pos (show (0 : ℚ) < 4278419646001971 / 4503599627370496 by norm_num)]
    nlinarith [abs_nonneg p]
  have hd : |fl64 (p * fl64 0.95)| ≤ |p| := by
    rcases le_total 0 p with h | h
    · obtain ⟨b1, b2, _, _⟩ := h1 h
      rw [abs_of_nonneg b1, abs_of_nonneg h]; exact b2
    · obtain ⟨b1, b2, _, _⟩ := h2 h
      rw [abs_of_nonpos b2, abs_of_nonpos h]; linarith
  have hc : |p * fl64 0.95 - 0.95 * p| ≤ |p| / 2 ^ 54 := by
    rw [fl64_095]
    have : p * (4278419646001971 / 4503599627370496) - 0.95 * p
        = p * (-1 / 22517998136852480) := by ring
    rw [this, abs_mul]
    have : |(-1 / 22517998136852480 : ℚ)| ≤ 1 / 2 ^ 54 := by
      rw [abs_le]; constructor <;> norm_num
    calc |p| * |(-1 / 22517998136852480 : ℚ)| ≤ |p| * (1 / 2 ^ 54) :=
          mul_le_mul_of_nonneg_left this (abs_nonneg p)
      _ = |p| / 2 ^ 54 := by ring
  have h53 : |p * fl64 0.95| / 2 ^ 53 ≤ |p| / 2 ^ 53 :=
    div_le_div_of_nonneg_right hz (by positivity)
  have h24 : |fl64 (p * fl64 0.95)| / 2 ^ 24 ≤ |p| / 2 ^ 24 :=
    div_le_div_of_nonneg_right hd (by positivity)
  have t1 := tiny_149
  have t2 := tiny_1075
  have hsplit : fl32 (fl64 (p * fl64 0.95)) - 0.95 * p
      = (fl32 (fl64 (p * fl64 0.95)) - fl64 (p * fl64 0.95))
        + (fl64 (p * fl64 0.95) - p * fl64 0.95) + (p * fl64 0.95 - 0.95 * p) := by ring
  rw [hsplit]
  have tri := abs_add_three (fl32 (fl64 (p * fl64 0.95)) - fl64 (p * fl64 0.95))
    (fl64 (p * fl64 0.95) - p * fl64 0.95) (p * fl64 0.95 - 0.95 * p)
  have hp0 := abs_nonneg p
  have e : |p| / 2 ^ 24 + |p| / 2 ^ 53 + |p| / 2 ^ 54 ≤ |p| / 2 ^ 23 := by
    have k : (1 : ℚ) / 2 ^ 24 + 1 / 2 ^ 53 + 1 / 2 ^ 54 ≤ 1 / 2 ^ 23 := by norm_num
    calc |p| / 2 ^ 24 + |p| / 2 ^ 53 + |p| / 2 ^ 54
        = |p| * (1 / 2 ^ 24 + 1 / 2 ^ 53 + 1 / 2 ^ 54) := by ring
      _ ≤ |p| * (1 / 2 ^ 23) := mul_le_mul_of_nonneg_left k hp0
      _ = |p| / 2 ^ 23 := by ring
  linarith

theorem map_finite (f : ℚ → ℚ) (x : ℚ) : CFloat.map f (CFloat.finite x) = CFloat.finite (f x) :=
  rfl

theorem two_PI_ne_zero32 : fl32 (2 * PI) ≠ 0 := by decide!

theorem radians_finite32 (p : beep_parms_t) (f : ℚ) (hf : p.freq = CFloat.finite f) :
    radians_per_ms p = CFloat.finite (fl32 (fl32 (fl32 (f * 2) * PI) / 1000)) := by
  unfold radians_per_ms
  rw [hf, CFloat.finite_mul, map_finite, CFloat.finite_mul, map_finite,
    CFloat.finite_div _ _ (by norm_num), map_finite]

/-- Lines 183-213 keep the globals numeric when the local `sample` is a number. -/
theorem advance_numeric32 (D : ℚ) (g : Engine) (s : CFloat) (hg : Numeric g)
    (hs : ∃ x : ℚ, s = CFloat.finite x) : Numeric (advance D g s).after := by
  obtain ⟨hq, r, hr⟩ := hg
  obtain ⟨x, hx⟩ := hs
  rcases g with ⟨parms, ms, rad⟩
  cases parms with
  | nil => exact ⟨by simp [advance], r, hr⟩
  | cons p next =>
    obtain ⟨f, hf⟩ := hq p (List.mem_cons_self _ _)
    have hnext : ∀ y ∈ next, ∃ f : ℚ, y.freq = CFloat.finite f :=
      fun y hy => hq y (List.mem_cons_of_mem _ hy)
    have hrad : ∃ r1 : ℚ,
        (if s.lt (CFloat.finite (fl64 0.1)) then s
          else (CFloat.fmod
            ((rad + (CFloat.finite (offset p) * radians_per_ms p).map fl32).map fl32)
            (CFloat.finite (fl32 (2 * PI)))).map fl32) = CFloat.finite r1 := by
      by_cases hlt : s.lt (CFloat.finite (fl64 0.1)) = true
      · rw [if_pos hlt]; exact ⟨x, hx⟩
      · rw [if_neg hlt]
        simp only at hr
        rw [hr, radians_finite32 p f hf, CFloat.finite_mul, map_finite, CFloat.finite_add,
          map_finite]
        obtain ⟨r1, hr1⟩ := CFloat.fmod_finite
          (fl32 (r + fl32 (offset p * fl32 (fl32 (fl32 (f * 2) * PI) / 1000))))
          (fl32 (2 * PI)) two_PI_ne_zero32
        rw [hr1, map_finite]
        exact ⟨_, rfl⟩
    simp only [advance]
    by_cases hb : fl32 (ms + D) > offset p
    · rw [if_pos hb]
      by_cases hz : p.reps - 1 = 0
      · rw [if_pos hz]
        exact ⟨hnext, hrad⟩
      · rw [if_neg hz]
        refine ⟨?_, hrad⟩
        intro y hy
        rcases List.mem_cons.mp hy with rfl | hy
        · exact ⟨f, hf⟩
        · exact hnext y hy
    · rw [if_neg hb]
      exact ⟨hq, r, hr⟩

/-- Lines 215-220 write a `float` number when the globals are numeric and the local
`sample` is a `float` number. -/
theorem emit_float (sinf : ℚ → ℚ) (g : Engine) (s : CFloat) (hg : Numeric g)
    (hs : IsNum (fun x => fl32 x = x) s) : IsNum (fun x => fl32 x = x) (emit sinf g s) := by
  obtain ⟨hq, r, hr⟩ := hg
  obtain ⟨x, hx, hPx⟩ := hs
  have hdecay : IsNum (fun x => fl32 x = x) (decay s) := by
    unfold decay
    rw [hx, CFloat.finite_mul, map_finite, map_finite]
    exact ⟨_, rfl, fl32_idem _⟩
  rcases g with ⟨parms, ms, rad⟩
  cases parms with
  | nil => exact hdecay
  | cons p next =>
    obtain ⟨f, hf⟩ := hq p (List.mem_cons_self _ _)
    simp only [emit]
    by_cases hlt : ms < fl32 (p.length : ℚ)
    · rw [if_pos hlt]
      simp only at hr
      rw [hr, radians_finite32 p f hf, CFloat.finite_mul, map_finite, CFloat.finite_add,
        map_finite]
      exact ⟨_, rfl, fl32_idem _⟩
    · rw [if_neg hlt]; exact hdecay

theorem frame_float (D : ℚ) (sinf : ℚ → ℚ) (g : Engine) (s : CFloat) (hg : Numeric g)
    (hs : IsNum (fun x => fl32 x = x) s) :
    Numeric (frame D sinf g s).after ∧ IsNum (fun x => fl32 x = x) (frame D sinf g s).sample :=
  ⟨advance_numeric32 D g s hg (isNum_finite hs),
    emit_float sinf _ s (advance_numeric32 D g s hg (isNum_finite hs)) hs⟩

/-- Every sample of a playback from program start on numeric frequencies is a `float`
number. -/
theorem playback_float (rate : Int) (sinf : ℚ → ℚ) (q : List beep_parms_t)
    (hq : ∀ p ∈ q, valid_freq p) (calls : List (Int × List ℕ)) :
    ∀ r ∈ playback rate sinf calls (Engine.init q), IsNum (fun x => fl32 x = x) r.sample := by
  intro r hr
  obtain ⟨g1, s1, ⟨hg1, hs1⟩, rfl⟩ := playback_invariant32
    (fun g s => Numeric g ∧ IsNum (fun x => fl32 x = x) s) rate sinf
    (fun g s h => frame_float _ sinf g s h.1 h.2)
    (fun g s h => ⟨h.1, 0, rfl, fl32_zero⟩) calls (Engine.init q)
    ⟨init_numeric q hq, 0, rfl, fl32_zero⟩ r hr
  exact (frame_float _ sinf g1 s1 hg1 hs1).2

theorem decay_zero : decay (CFloat.finite 0) = CFloat.finite 0 := by
  unfold decay
  rw [CFloat.finite_mul, map_finite, map_finite, zero_mul, fl64_zero, fl32_zero]

/-- Along a run of silent frames linked by `DecayStep32`, each sample is at most the one
before in magnitude, and at most `0.95 + 2 ^ (-23)` times it plus `2 ^ (-149)`; the
`i`-th of them is at most `(0.95 + 2 ^ (-23)) ^ (i + 1)` times the sample that precedes
the run, plus a share of `2 ^ (-144)`. -/
theorem decay_run32 :
    ∀ (run : List FrameRecord) (a : FrameRecord) (x : ℚ), a.sample = CFloat.finite x →
      fl32 x = x → List.Chain DecayStep32 a run → (∀ r ∈ run, r.tone_on = false) →
      List.Chain (fun u v => ∃ p q : ℚ, u.sample = CFloat.finite p ∧ v.sample = CFloat.finite q
        ∧ (v.sample = decay u.sample ∨ v.sample = CFloat.finite 0)
        ∧ |q| ≤ |p| ∧ |q| ≤ (0.95 + 1 / 2 ^ 23) * |p| + (2 : ℚ) ^ (-149 : ℤ)) a run
      ∧ ∀ (i : ℕ) (b : FrameRecord), run[i]? = some b →
          ∃ y : ℚ, b.sample = CFloat.finite y ∧ |y| ≤ |x|
            ∧ |y| ≤ (0.95 + 1 / 2 ^ 23) ^ (i + 1) * |x|
                + (2 : ℚ) ^ (-144 : ℤ) * (1 - (0.95 + 1 / 2 ^ 23) ^ (i + 1))
  | [], _, _, _, _, _, _ => ⟨List.Chain.nil, by simp⟩
  | b :: run, a, x, ha, hfx, hch, hsil => by
    rw [List.chain_cons] at hch
    have hu : (0 : ℚ) < (2 : ℚ) ^ (-149 : ℤ) := by positivity
    have h144 : (2 : ℚ) ^ (-144 : ℤ) = 32 * (2 : ℚ) ^ (-149 : ℤ) := by
      rw [show (-144 : ℤ) = 5 + -149 by norm_num, zpow_add₀ (by norm_num)]
      norm_num
    have hx0 := abs_nonneg x
    have hb : ∃ y : ℚ, b.sample = CFloat.finite y ∧ fl32 y = y
        ∧ (b.sample = decay a.sample ∨ b.sample = CFloat.finite 0) ∧ |y| ≤ |x|
        ∧ |y| ≤ (0.95 + 1 / 2 ^ 23) * |x| + (2 : ℚ) ^ (-149 : ℤ) := by
      rcases hch.1 (hsil b (List.mem_cons_self _ _)) with h | h
      · have h0 := h
        rw [ha] at h
        unfold decay at h
        rw [CFloat.finite_mul, map_finite, map_finite] at h
        refine ⟨_, h, fl32_idem _, Or.inl h0, decay_abs_le x hfx, ?_⟩
        have h1 : |fl32 (fl64 (x * fl64 0.95))|
            ≤ |0.95 * x| + (|x| / 2 ^ 23 + (2 : ℚ) ^ (-149 : ℤ)) := by
          have h2 := abs_sub_abs_le_abs_sub (fl32 (fl64 (x * fl64 0.95))) (0.95 * x)
          have h3 := decay_near x hfx
          linarith
        rw [abs_mul, abs_of_pos (show (0 : ℚ) < 0.95 by norm_num)] at h1
        linarith
      · rw [decay_zero] at h
        refine ⟨0, h, fl32_zero, Or.inr h, by simp, ?_⟩
        rw [abs_zero]
        have : (0 : ℚ) ≤ (0.95 + 1 / 2 ^ 23) * |x| := by positivity
        linarith
    obtain ⟨y, hy, hfy, hrule, hyx, hyr⟩ := hb
    obtain ⟨ih1, ih2⟩ := decay_run32 run b y hy hfy hch.2
      (fun r hr => hsil r (List.mem_cons_of_mem _ hr))
    refine ⟨List.Chain.cons ⟨x, y, ha, hy, hrule, hyx, hyr⟩ ih1, ?_⟩
    intro i c hc
    cases i with
    | zero =>
      simp only [List.getElem?_cons_zero, Option.some.injEq] at hc
      subst hc
      refine ⟨y, hy, hyx, ?_⟩
      rw [h144]
      simp only [zero_add, pow_one]
      have : (1 : ℚ) ≤ 32 * (1 - (0.95 + 1 / 2 ^ 23)) := by norm_num
      nlinarith
    | succ i =>
      simp only [List.getElem?_cons_succ] at hc
      obtain ⟨z, hz, hzy, hzr⟩ := ih2 i c hc
      refine ⟨z, hz, le_trans hzy hyx, ?_⟩
      have hpow : (0 : ℚ) ≤ (0.95 + 1 / 2 ^ 23) ^ (i + 1) := by positivity
      rw [h144] at hzr ⊢
      have hstep := mul_le_mul_of_nonneg_left hyr hpow
      have hr : (32 : ℚ) * (0.95 + 1 / 2 ^ 23) ≤ 31 := by norm_num
      have e : (0.95 + 1 / 2 ^ 23 : ℚ) ^ (i + 1 + 1)
          = (0.95 + 1 / 2 ^ 23) ^ (i + 1) * (0.95 + 1 / 2 ^ 23) := pow_succ _ _
      rw [e]
      generalize (0.95 + 1 / 2 ^ 23 : ℚ) ^ (i + 1) = P at *
      generalize (2 : ℚ) ^ (-149 : ℤ) = u at *
      nlinarith [mul_nonneg hpow (le_of_lt hu), mul_nonneg (mul_nonneg hpow (le_of_lt hu))
        (sub_nonneg.mpr hr)]

theorem frame_tone_on32 (D : ℚ) (sinf : ℚ → ℚ) (g : Engine) (s : CFloat) :
    (frame D sinf g s).tone_on = tone_on (frame D sinf g s).after := rfl

/-- Every record of a playback is the record of a frame. -/
theorem mem_playback_is_frame32 (rate : Int) (sinf : ℚ → ℚ) (calls : List (Int × List ℕ))
    (g : Engine) : ∀ r ∈ playback rate sinf calls g,
      ∃ g1 s1, r = frame (ms_per_frame rate) sinf g1 s1 := by
  intro r hr
  obtain ⟨g1, s1, _, h⟩ := playback_invariant32 (fun _ _ => True) rate sinf
    (fun _ _ _ => trivial) (fun _ _ _ => trivial) calls g trivial r hr
  exact ⟨g1, s1, h⟩

/-- C8, amended to the program's arithmetic.  The decay of line 219 is computed as
`(float)((double)sample * 0.95)`, with `0.95` the nearest `double`.  In a playback from
program start on a queue of valid frequencies, take the frame of index `i` and the `k`
frames that follow it, and let these `k` frames all be in the silent portion (the test of
line 215 fails on the globals they leave).  Then the sample of frame `i` is a number;
each of the `k` samples is the rounded product of the sample just before it (or `0` on
the first frame of an invocation), never larger in magnitude than that sample, and at
most `0.95 + 2 ^ (-23)` times it plus `2 ^ (-149)`; and the `j`-th of them (from 0) has
magnitude at most that of frame `i` and at most `(0.95 + 2 ^ (-23)) ^ (j + 1)` times it
plus `2 ^ (-144)`. -/
theorem decay_monotone_up_to_rounding (rate : Int) (sinf : ℚ → ℚ) (q : List beep_parms_t)
    (calls : List (Int × List ℕ)) (i k : ℕ) (a : FrameRecord)
    (hq : ∀ p ∈ q, valid_freq p)
    (ha : (playback rate sinf calls (Engine.init q))[i]? = some a)
    (hsil : ∀ r ∈ ((playback rate sinf calls (Engine.init q)).drop (i + 1)).take k,
      tone_on r.after = false) :
    ∃ x : ℚ, a.sample = CFloat.finite x
      ∧ List.Chain (fun u v => ∃ p q : ℚ, u.sample = CFloat.finite p
          ∧ v.sample = CFloat.finite q
          ∧ (v.sample = decay u.sample ∨ v.sample = CFloat.finite 0)
          ∧ |q| ≤ |p| ∧ |q| ≤ (0.95 + 1 / 2 ^ 23) * |p| + (2 : ℚ) ^ (-149 : ℤ)) a
          (((playback rate sinf calls (Engine.init q)).drop (i + 1)).take k)
      ∧ ∀ (j : ℕ) (b : FrameRecord),
          (((playback rate sinf calls (Engine.init q)).drop (i + 1)).take k)[j]? = some b →
          ∃ y : ℚ, b.sample = CFloat.finite y ∧ |y| ≤ |x|
            ∧ |y| ≤ (0.95 + 1 / 2 ^ 23) ^ (j + 1) * |x| + (2 : ℚ) ^ (-144 : ℤ) := by
  have hsplit := split_run (playback rate sinf calls (Engine.init q)) i k a ha
  have hfloat := playback_float rate sinf q hq calls
  have hisf := mem_playback_is_frame32 rate sinf calls (Engine.init q)
  have hchain := playback_chain32 rate sinf calls (Engine.init q) a
  generalize (playback rate sinf calls (Engine.init q)).take i = pre at hsplit
  generalize ((playback rate sinf calls (Engine.init q)).drop (i + 1)).take k = run
    at hsplit hsil ⊢
  generalize ((playback rate sinf calls (Engine.init q)).drop (i + 1)).drop k = post at hsplit
  have hmem : ∀ r ∈ a :: run, r ∈ playback rate sinf calls (Engine.init q) := by
    intro r hr
    rw [hsplit]
    rcases List.mem_cons.mp hr with rfl | hr
    · simp
    · simp [hr]
  obtain ⟨x, hx, hfx⟩ := hfloat a (hmem a (List.mem_cons_self _ _))
  rw [hsplit] at hchain
  have hrun : List.Chain DecayStep32 a run :=
    chain_left_of_append run post a (chain_right_of_append pre (run ++ post) a a hchain)
  have htone : ∀ r ∈ run, r.tone_on = false := by
    intro r hr
    obtain ⟨g1, s1, rfl⟩ := hisf r (hmem _ (List.mem_cons_of_mem _ hr))
    rw [frame_tone_on32]
    exact hsil _ hr
  obtain ⟨h1, h2⟩ := decay_run32 run a x hx hfx hrun htone
  refine ⟨x, hx, h1, ?_⟩
  intro j b hb
  obtain ⟨y, hy, hyx, hyr⟩ := h2 j b hb
  refine ⟨y, hy, hyx, ?_⟩
  have hpow : (0.95 + 1 / 2 ^ 23 : ℚ) ^ (j + 1) ≤ 1 := pow_le_one₀ (by norm_num) (by norm_num)
  have hpow0 : (0 : ℚ) ≤ (0.95 + 1 / 2 ^ 23) ^ (j + 1) := by positivity
  have hu : (0 : ℚ) < (2 : ℚ) ^ (-144 : ℤ) := by positivity
  nlinarith

/-! ## Binary32: the phase accumulator -/

theorem trunc_near (z : ℚ) : |z - (CFloat.trunc z : ℚ)| < 1 := by
  unfold CFloat.trunc
  split_ifs with h
  · have h1 := Int.floor_le z
    have h2 := Int.lt_floor_add_one z
    rw [abs_lt]; constructor <;> linarith
  · have h1 := Int.le_ceil z
    have h2 := Int.ceil_lt_add_one z
    rw [abs_lt]; constructor <;> linarith

theorem fmod_abs_lt (x y : ℚ) (hy : 0 < y) : |x - y * (CFloat.trunc (x / y) : ℚ)| < y := by
  have h := trunc_near (x / y)
  have e : x - y * (CFloat.trunc (x / y) : ℚ) = y * (x / y - (CFloat.trunc (x / y) : ℚ)) := by
    field_simp
  rw [e, abs_mul, abs_of_pos hy]
  calc y * |x / y - (CFloat.trunc (x / y) : ℚ)| < y * 1 := mul_lt_mul_of_pos_left h hy
    _ = y := mul_one y

theorem PI_value : PI = 13176795 / 4194304 := by decide!

theorem two_PI_value : fl32 (2 * PI) = 13176795 / 2097152 := by decide!

/-- C14, amended to the program's `float` arithmetic.  When a boundary is crossed in the
continuous-extension branch (the test `sample < 0.1` of line 193 fails) and the same
request stays at the head (`reps > 1` before the boundary), the accumulator becomes the
rounded difference `e' = fl32 (e - c)` of the pre-boundary elapsed time `e` and the cycle
length `c`, and the new phase `r'` is the old phase `r` advanced by `c * w` and reduced
modulo the program's constant `2.0f * PI`, each operation rounded to `float`: for some
integer `k`, `r'` differs from `r + c * w - k * (2.0f * PI)` by at most
`(3 * |c * w| + |r| + 7) / 2 ^ 24 + 4 * 2 ^ (-150)`, and the argument `r' + e' * w` of the
sine after the boundary differs from the argument `r + e * w` it would have had without
the boundary, less `k * (2.0f * PI)`, by at most that bound plus
`|w| * ((e - c) / 2 ^ 24 + 2 ^ (-150))`.  Here `w` is the `float` value of
`parms->freq * 2.0f * PI / 1000`. -/
theorem continuous_extension_up_to_rounding (D : ℚ) (g : Engine) (p : beep_parms_t)
    (next : List beep_parms_t) (s f r : ℚ) (hg : g.parms = p :: next) (hreps : 1 < p.reps)
    (hcross : fl32 (g.ms_offset + D) > offset p) (hs : fl64 0.1 ≤ s)
    (hrad : g.rad_offset = CFloat.finite r) (hf : p.freq = CFloat.finite f) :
    (advance D g (CFloat.finite s)).after.parms = { p with reps := p.reps - 1 } :: next
    ∧ (advance D g (CFloat.finite s)).after.ms_offset
        = fl32 (fl32 (g.ms_offset + D) - offset p)
    ∧ ∃ w r' : ℚ, radians_per_ms p = CFloat.finite w
        ∧ w = fl32 (fl32 (fl32 (f * 2) * PI) / 1000)
        ∧ (advance D g (CFloat.finite s)).after.rad_offset = CFloat.finite r'
        ∧ |r'| ≤ 2 * PI
        ∧ ∃ k : ℤ,
          |r' - (r + offset p * w - (k : ℚ) * (2 * PI))|
              ≤ (3 * |offset p * w| + |r| + 7) / 2 ^ 24 + 4 * (2 : ℚ) ^ (-150 : ℤ)
          ∧ |(r' + fl32 (fl32 (g.ms_offset + D) - offset p) * w)
                - (r + fl32 (g.ms_offset + D) * w - (k : ℚ) * (2 * PI))|
              ≤ (3 * |offset p * w| + |r| + 7) / 2 ^ 24 + 4 * (2 : ℚ) ^ (-150 : ℤ)
                + |w| * ((fl32 (g.ms_offset + D) - offset p) / 2 ^ 24 + (2 : ℚ) ^ (-150 : ℤ)) := by
  rcases g with ⟨parms, ms, rad⟩
  simp only at hg hrad hcross
  subst hg
  subst hrad
  have hz : ¬ (p.reps - 1 = 0) := by omega
  have hlt : ¬ ((CFloat.finite s).lt (CFloat.finite (fl64 0.1)) = true) := by
    simp only [CFloat.lt, decide_eq_true_eq, not_lt]
    exact hs
  have hP : fl32 (2 * PI) = 2 * PI := by rw [two_PI_value, PI_value]; norm_num
  have hPpos : (0 : ℚ) < 2 * PI := by rw [PI_value]; norm_num
  have hP7 : 2 * PI ≤ 7 := by rw [PI_value]; norm_num
  set w := fl32 (fl32 (fl32 (f * 2) * PI) / 1000) with hw
  set c := offset p with hc
  set x1 := fl32 (c * w) with hx1
  set x2 := fl32 (r + x1) with hx2
  set k := CFloat.trunc (x2 / (2 * PI)) with hk
  set x3 := x2 - 2 * PI * (k : ℚ) with hx3
  have hradv : (advance D ⟨p :: next, ms, CFloat.finite r⟩ (CFloat.finite s)).after.rad_offset
      = CFloat.finite (fl32 x3) := by
    simp only [advance]
    rw [if_pos hcross, if_neg hz]
    simp only
    rw [if_neg hlt, radians_finite32 p f hf, CFloat.finite_mul, map_finite, CFloat.finite_add,
      map_finite, hP]
    simp only [CFloat.fmod, if_neg (ne_of_gt hPpos), map_finite]
  refine ⟨?_, ?_, w, fl32 x3, radians_finite32 p f hf, rfl, hradv, ?_, k, ?_⟩
  · simp only [advance]
    rw [if_pos hcross, if_neg hz]
  · simp only [advance]
    rw [if_pos hcross, if_neg hz]
  · -- the reduced phase, rounded, stays within the modulus
    have h3 : |x3| < 2 * PI := fmod_abs_lt x2 (2 * PI) hPpos
    have h3' := abs_lt.mp h3
    rw [abs_le]
    constructor
    · have := fl32_mono (le_of_lt h3'.1)
      rw [show fl32 (-(2 * PI)) = -fl32 (2 * PI) from round_to_neg 24 _ _, hP] at this
      exact this
    · have := fl32_mono (le_of_lt h3'.2)
      rw [hP] at this; exact this
  · have e1 := fl32_err (c * w)
    have e2 := fl32_err (r + x1)
    have e3 := fl32_err x3
    have h3 : |x3| < 2 * PI := fmod_abs_lt x2 (2 * PI) hPpos
    have t1 : |x1| ≤ |c * w| + (|c * w| / 2 ^ 24 + (2 : ℚ) ^ (-150 : ℤ)) := by
      have := abs_sub_abs_le_abs_sub x1 (c * w)
      linarith
    have t2 : |r + x1| ≤ |r| + |x1| := abs_add r x1
    have hcw := abs_nonneg (c * w)
    have hr0 := abs_nonneg r
    have hu : (0 : ℚ) < (2 : ℚ) ^ (-150 : ℤ) := by positivity
    have d2 : |r + x1| / 2 ^ 24 ≤ (|r| + |c * w| + (|c * w| / 2 ^ 24 + (2 : ℚ) ^ (-150 : ℤ))) / 2 ^ 24 :=
      div_le_div_of_nonneg_right (by linarith) (by positivity)
    have d3 : |x3| / 2 ^ 24 ≤ 7 / 2 ^ 24 :=
      div_le_div_of_nonneg_right (by linarith) (by positivity)
    have main : |fl32 x3 - (r + c * w - (k : ℚ) * (2 * PI))|
        ≤ (3 * |c * w| + |r| + 7) / 2 ^ 24 + 4 * (2 : ℚ) ^ (-150 : ℤ) := by
      have split : fl32 x3 - (r + c * w - (k : ℚ) * (2 * PI))
          = (fl32 x3 - x3) + (x2 - (r + x1)) + (x1 - c * w) := by
        rw [hx3]; ring
      rw [split]
      have tri := abs_add_three (fl32 x3 - x3) (x2 - (r + x1)) (x1 - c * w)
      have g1 : (|r| + |c * w| + (|c * w| / 2 ^ 24 + (2 : ℚ) ^ (-150 : ℤ))) / 2 ^ 24
          ≤ (|r| + 2 * |c * w|) / 2 ^ 24 + (2 : ℚ) ^ (-150 : ℤ) := by
        have a1 : |c * w| / 2 ^ 24 / 2 ^ 24 ≤ |c * w| / 2 ^ 24 :=
          div_le_self (by positivity) (by norm_num)
        have a2 : (2 : ℚ) ^ (-150 : ℤ) / 2 ^ 24 ≤ (2 : ℚ) ^ (-150 : ℤ) :=
          div_le_self (le_of_lt hu) (by norm_num)
        have : (|r| + |c * w| + (|c * w| / 2 ^ 24 + (2 : ℚ) ^ (-150 : ℤ))) / 2 ^ 24
            = (|r| + |c * w|) / 2 ^ 24 + |c * w| / 2 ^ 24 / 2 ^ 24
              + (2 : ℚ) ^ (-150 : ℤ) / 2 ^ 24 := by ring
        rw [this]
        have : (|r| + 2 * |c * w|) / 2 ^ 24 = (|r| + |c * w|) / 2 ^ 24 + |c * w| / 2 ^ 24 := by
          ring
        linarith
      have g2 : (3 * |c * w| + |r| + 7) / 2 ^ 24
          = 7 / 2 ^ 24 + (|r| + 2 * |c * w|) / 2 ^ 24 + |c * w| / 2 ^ 24 := by ring
      linarith
    refine ⟨main, ?_⟩
    have hpos : 0 ≤ fl32 (ms + D) - c := by linarith
    have e4 := fl32_err (fl32 (ms + D) - c)
    rw [abs_of_nonneg hpos] at e4
    have split2 : (fl32 x3 + fl32 (fl32 (ms + D) - c) * w)
          - (r + fl32 (ms + D) * w - (k : ℚ) * (2 * PI))
        = (fl32 x3 - (r + c * w - (k : ℚ) * (2 * PI)))
          + (fl32 (fl32 (ms + D) - c) - (fl32 (ms + D) - c)) * w := by ring
    rw [split2]
    have tri2 := abs_add (fl32 x3 - (r + c * w - (k : ℚ) * (2 * PI)))
      ((fl32 (fl32 (ms + D) - c) - (fl32 (ms + D) - c)) * w)
    have hm : |(fl32 (fl32 (ms + D) - c) - (fl32 (ms + D) - c)) * w|
        ≤ |w| * ((fl32 (ms + D) - c) / 2 ^ 24 + (2 : ℚ) ^ (-150 : ℤ)) := by
      rw [abs_mul, mul_comm]
      exact mul_le_mul_of_nonneg_left e4 (abs_nonneg w)
    linarith

/-! ## Binary32: where the exact statements fail -/

/-- C4 as stated fails in two ways.  For `beep -l 100 -d 25` at 48 frames per second the
cycle is 125 ms, exactly six frame periods; the `float` accumulator stands at
`125 + 2 ^ (-17)` after six frames, so the request is popped on frame 6 (nothing is freed
in the first five frames), where `6 * (1000 / 48) = 125` is not beyond the cycle.  For
`beep -l 0 -d 0 -r 2` at 44100 frames per second the cycle is `0` ms, the request is
popped on frame 2, and two frame periods exceed `R * cycle` plus one frame period. -/
theorem release_time_bounds_fail :
    main_queue [.l (some 100), .d (some 25)] = .ok [beep_125]
    ∧ 0 ≤ beep_125.length ∧ 0 ≤ beep_125.delay ∧ 1 ≤ beep_125.reps
    ∧ Beep.offset beep_125 = 125 ∧ offset beep_125 = 125
    ∧ freed ((playback 48 sinf_cubic [(6, [6])] (Engine.init [beep_125])).take 5) = []
    ∧ freed ((playback 48 sinf_cubic [(6, [6])] (Engine.init [beep_125])).take 6)
        = [retired beep_125]
    ∧ (lastEngine (Engine.init [beep_125])
        ((playback 48 sinf_cubic [(6, [6])] (Engine.init [beep_125])).take 5)).ms_offset
      = 6826667 / 65536
    ∧ ¬ ((beep_125.reps : ℚ) * Beep.offset beep_125 < (6 : ℚ) * (1000 / 48))
    ∧ main_queue [.l (some 0), .d (some 0), .r (some 2)] = .ok [beep_short]
    ∧ 0 ≤ beep_short.length ∧ 0 ≤ beep_short.delay ∧ 1 ≤ beep_short.reps
    ∧ Beep.offset beep_short = 0
    ∧ freed ((playback 44100 sinf_cubic [(2, [2])] (Engine.init [beep_short])).take 1) = []
    ∧ freed ((playback 44100 sinf_cubic [(2, [2])] (Engine.init [beep_short])).take 2)
        = [retired beep_short]
    ∧ ¬ ((2 : ℚ) * (1000 / 44100)
          ≤ (beep_short.reps : ℚ) * Beep.offset beep_short + 1000 / 44100) := by
  refine ⟨rfl, by decide, by decide, by decide, by decide!, by decide!, by decide!, by decide!,
    by decide!, by decide!, rfl, by decide, by decide, by decide, by decide!, by decide!,
    by decide!, by decide!⟩

/-- C8 as stated fails on the program's arithmetic.  For `beep -f 4 -l 100` at 20 frames
per second (with the clamped cubic for `sinf`) the first frame is tone-on and writes
`7767041 / 2 ^ 23`; the second is silent and writes `7378689 / 2 ^ 23`, which is more than
`0.95` times the first.  The step from `0x1.1de66p-1` gives `0x1.0f9adcp-1`, also above
`0.95` times its operand.  And the decay does not converge to zero: `-10 * 2 ^ (-149)`
decays to itself. -/
theorem decay_exceeds_ratio :
    main_queue [.f (.num 4), .l (some 100)] = .ok [beep_f4]
    ∧ (playback 20 sinf_cubic [(2, [2])] (Engine.init [beep_f4])).map
        (fun r => (r.tone_on, r.sample))
      = [(true, CFloat.finite (7767041 / 8388608)), (false, CFloat.finite (7378689 / 8388608))]
    ∧ ¬ (|(7378689 / 8388608 : ℚ)| ≤ 0.95 * |(7767041 / 8388608 : ℚ)|)
    ∧ decay (CFloat.finite (1171046 / 2097152)) = CFloat.finite (4449975 / 8388608)
    ∧ ¬ (|(4449975 / 8388608 : ℚ)| ≤ 0.95 * |(1171046 / 2097152 : ℚ)|)
    ∧ decay (CFloat.finite (-10 * pow2 (-149))) = CFloat.finite (-10 * pow2 (-149)) := by
  refine ⟨rfl, by decide!, by norm_num [abs_of_pos], by decide!, by norm_num [abs_of_pos],
    by decide!⟩

/-- A rational multiple of `π` with a non-zero rational factor is not a rational number. -/
theorem rat_ne_rat_mul_pi (a q : ℚ) (hq : q ≠ 0) : (a : ℝ) ≠ (q : ℝ) * Real.pi := by
  intro h
  exact (irrational_pi.rat_mul hq) ⟨a, h⟩

/-- C14 as stated fails on the program's arithmetic.  For `beep -f 1 -l 100 -d 0 -r 2` at
20 frames per second (with the clamped cubic for `sinf`), the third frame crosses a
boundary with a previous sample of about `0.29`, so the continuous-extension branch runs
and the request stays at the head.  Before the boundary the phase is `0` and the elapsed
time 150 ms; after it the phase is the `float` `2635359 / 2 ^ 22` and the elapsed time
50 ms.  With `w = 2 * π * 1 / 1000`, the sine of the new state differs from the sine the
wave would have followed: `sin (p' + 50 * w) ≠ sin (0 + 150 * w)`. -/
theorem continuous_extension_changes_the_sine :
    main_queue [.f (.num 1), .l (some 100), .d (some 0), .r (some 2)] = .ok [beep_f1]
    ∧ (playback 20 sinf_cubic [(3, [3])] (Engine.init [beep_f1])).map
        (fun r => (r.boundary, r.sample, r.after.ms_offset, r.after.rad_offset,
          r.after.parms.map (fun p => p.reps)))
      = [(none, CFloat.finite (2592009 / 8388608), 50, CFloat.finite 0, [2]),
         (none, CFloat.finite (4924817 / 16777216), 100, CFloat.finite 0, [2]),
         (some 100, CFloat.finite (6735629 / 8388608), 50,
            CFloat.finite (2635359 / 4194304), [1])]
    ∧ ¬ ((4924817 / 16777216 : ℚ) < fl64 0.1)
    ∧ fl32 (100 + ms_per_frame 20) = 150
    ∧ Real.sin (((2635359 / 4194304 : ℚ) : ℝ) + ((50 : ℚ) : ℝ) * (2 * Real.pi * 1 / 1000))
        ≠ Real.sin (((0 : ℚ) : ℝ) + ((150 : ℚ) : ℝ) * (2 * Real.pi * 1 / 1000)) := by
  refine ⟨rfl, by decide!, by decide!, by decide!, ?_⟩
  intro h
  rw [Real.sin_eq_sin_iff] at h
  obtain ⟨k, hk | hk⟩ := h
  · -- the arguments differ by a multiple of `2 * π`
    apply rat_ne_rat_mul_pi (2635359 / 4194304) (1 / 5 - 2 * (k : ℚ))
    · intro h0
      have : (10 : ℚ) * (k : ℚ) = 1 := by linarith
      have h1 : (10 : ℤ) * k = 1 := by exact_mod_cast this
      omega
    · push_cast at hk ⊢
      linarith
  · -- the arguments add up to an odd multiple of `π`
    apply rat_ne_rat_mul_pi (2635359 / 4194304) (2 * (k : ℚ) + 3 / 5)
    · intro h0
      have : (10 : ℚ) * (k : ℚ) = -3 := by linarith
      have h1 : (10 : ℤ) * k = -3 := by exact_mod_cast this
      omega
    · push_cast at hk ⊢
      linarith

/-! ## Binary32: evaluations -/

/-- C4 amended, at the request of `beep -l 100 -d 25` at 48 frames per second, popped on
frame 6: six frame periods are 125 ms, the cycle, and lie within the rounding tolerance
of it. -/
theorem release_time_within_rounding_witness :
    ms_per_frame 48 ≤ offset beep_125
    ∧ (|Beep.offset beep_125| ≤ 2 ^ 24 → offset beep_125 = Beep.offset beep_125)
    ∧ (beep_125.reps : ℚ) * offset beep_125
          - ((6 : ℕ) : ℚ) * frame_error (offset beep_125) (1000 / ((48 : Int) : ℚ))
        < ((6 : ℕ) : ℚ) * (1000 / ((48 : Int) : ℚ))
    ∧ ((6 : ℕ) : ℚ) * (1000 / ((48 : Int) : ℚ))
        ≤ (beep_125.reps : ℚ) * offset beep_125 + 1000 / ((48 : Int) : ℚ)
          + ((6 : ℕ) : ℚ) * frame_error (offset beep_125) (1000 / ((48 : Int) : ℚ)) :=
  ⟨by decide!, release_time_within_rounding 48 sinf_cubic (Engine.init [beep_125]) beep_125 []
    [(6, [6])] 6 (by norm_num) (by norm_num) (by decide) rfl rfl (by decide!) (by decide!)
    (by decide!) (by decide!)⟩

/-- C8 amended, at the request of `beep -f 4 -l 100` at 20 frames per second: frame 0 is
the one tone frame, and the four frames after it, spread over two invocations, are
silent. -/
theorem decay_monotone_up_to_rounding_witness :
    (playback 20 sinf_cubic [(3, [3]), (6, [2, 3])] (Engine.init [beep_f4])).map
        (fun r => (r.tone_on, r.sample))
      = [(true, CFloat.finite (7767041 / 8388608)),
         (false, CFloat.finite (7378689 / 8388608)),
         (false, CFloat.finite (14019509 / 16777216)),
         (false, CFloat.finite 0), (false, CFloat.finite 0)]
    ∧ ∃ x : ℚ,
      (frame (ms_per_frame 20) sinf_cubic (Engine.init [beep_f4]) (CFloat.finite 0)).sample
          = CFloat.finite x
      ∧ List.Chain (fun u v => ∃ p q : ℚ, u.sample = CFloat.finite p
          ∧ v.sample = CFloat.finite q
          ∧ (v.sample = decay u.sample ∨ v.sample = CFloat.finite 0)
          ∧ |q| ≤ |p| ∧ |q| ≤ (0.95 + 1 / 2 ^ 23) * |p| + (2 : ℚ) ^ (-149 : ℤ))
          (frame (ms_per_frame 20) sinf_cubic (Engine.init [beep_f4]) (CFloat.finite 0))
          (((playback 20 sinf_cubic [(3, [3]), (6, [2, 3])] (Engine.init [beep_f4])).drop
            (0 + 1)).take 4)
      ∧ ∀ (j : ℕ) (b : FrameRecord),
          (((playback 20 sinf_cubic [(3, [3]), (6, [2, 3])] (Engine.init [beep_f4])).drop
            (0 + 1)).take 4)[j]? = some b →
          ∃ y : ℚ, b.sample = CFloat.finite y ∧ |y| ≤ |x|
            ∧ |y| ≤ (0.95 + 1 / 2 ^ 23) ^ (j + 1) * |x| + (2 : ℚ) ^ (-144 : ℤ) :=
  ⟨by decide!, decay_monotone_up_to_rounding 20 sinf_cubic [beep_f4] [(3, [3]), (6, [2, 3])]
    0 4 (frame (ms_per_frame 20) sinf_cubic (Engine.init [beep_f4]) (CFloat.finite 0))
    (by
      intro p hp
      rw [List.mem_singleton] at hp
      subst hp
      exact ⟨4, rfl, by norm_num, by norm_num⟩)
    (by decide!) (by decide!)⟩

/-- C14 amended, at the second boundary frame of `beep -f 1 -l 100 -d 0 -r 2` at 20 frames
per second: 100 ms accumulated, phase 0, last sample `4924817 / 16777216`.  The new phase
is `2635359 / 4194304` and the accumulator 50. -/
theorem continuous_extension_up_to_rounding_witness :
    (advance (ms_per_frame 20)
        { parms := [beep_f1], ms_offset := 100, rad_offset := CFloat.finite 0 }
        (CFloat.finite (4924817 / 16777216))).after
      = { parms := [{ beep_f1 with reps := 1 }], ms_offset := 50
          rad_offset := CFloat.finite (2635359 / 4194304) }
    ∧ (advance (ms_per_frame 20)
        { parms := [beep_f1], ms_offset := 100, rad_offset := CFloat.finite 0 }
        (CFloat.finite (4924817 / 16777216))).after.parms
      = { beep_f1 with reps := beep_f1.reps - 1 } :: []
    ∧ (advance (ms_per_frame 20)
        { parms := [beep_f1], ms_offset := 100, rad_offset := CFloat.finite 0 }
        (CFloat.finite (4924817 / 16777216))).after.ms_offset
        = fl32 (fl32 ((100 : ℚ) + ms_per_frame 20) - offset beep_f1)
    ∧ ∃ w r' : ℚ, radians_per_ms beep_f1 = CFloat.finite w
        ∧ w = fl32 (fl32 (fl32 (1 * 2) * PI) / 1000)
        ∧ (advance (ms_per_frame 20)
            { parms := [beep_f1], ms_offset := 100, rad_offset := CFloat.finite 0 }
            (CFloat.finite (4924817 / 16777216))).after.rad_offset = CFloat.finite r'
        ∧ |r'| ≤ 2 * PI
        ∧ ∃ k : ℤ,
          |r' - (0 + offset beep_f1 * w - (k : ℚ) * (2 * PI))|
              ≤ (3 * |offset beep_f1 * w| + |(0 : ℚ)| + 7) / 2 ^ 24
                + 4 * (2 : ℚ) ^ (-150 : ℤ)
          ∧ |(r' + fl32 (fl32 ((100 : ℚ) + ms_per_frame 20) - offset beep_f1) * w)
                - (0 + fl32 ((100 : ℚ) + ms_per_frame 20) * w - (k : ℚ) * (2 * PI))|
              ≤ (3 * |offset beep_f1 * w| + |(0 : ℚ)| + 7) / 2 ^ 24
                + 4 * (2 : ℚ) ^ (-150 : ℤ)
                + |w| * ((fl32 ((100 : ℚ) + ms_per_frame 20) - offset beep_f1) / 2 ^ 24
                    + (2 : ℚ) ^ (-150 : ℤ)) :=
  ⟨by decide!, continuous_extension_up_to_rounding (ms_per_frame 20)
    { parms := [beep_f1], ms_offset := 100, rad_offset := CFloat.finite 0 } beep_f1 []
    (4924817 / 16777216) 1 0 rfl (by decide) (by decide!) (by decide!) rfl rfl⟩

end Binary32

end Beep
